import Mathlib

/-!
Verification of the plugin ordering resolver of the gourmet repository.

The development shallowly embeds the code of
src/utils/plugin-sort/gmsrc/PluginSorter.js and src/utils/merge/lib/merge.js.
JavaScript values are modelled by the inductive type JSVal; machine numbers
that occur in the sorter (group numbers, constraint orders, indices) are
integers in the source inputs of interest, so they are modelled as Int.
Objects are modelled as ordered field lists, mirroring the insertion order
semantics of JavaScript objects; arrays as lists.  Mutation is modelled by
functional update: every place the source mutates an object in place, the
model threads the updated value.  The recursive, memoised order computation
of the source is not structurally terminating (and indeed does not always
terminate), so it is modelled with explicit fuel: a result of none means the
computation did not finish within the given fuel.

Two helpers of the repository are imported by PluginSorter.js from packages
whose sources are not part of this tree; they are modelled from the spec and
marked as such: isPlainObject and omit.
-/

namespace PluginSort

mutual
/-- JavaScript values, as used by the plugin sorter: undefined, null,
booleans, numbers (restricted to integers), strings, arrays and plain
objects. Class instances and functions never flow through the sorter data
paths modelled here. -/
inductive JSVal where
  | vundef : JSVal
  | vnull : JSVal
  | vbool (b : Bool) : JSVal
  | vnum (n : Int) : JSVal
  | vstr (s : String) : JSVal
  | varr (elems : JSList) : JSVal
  | vobj (fields : JSFields) : JSVal
deriving DecidableEq, Repr

/-- Array element lists. -/
inductive JSList where
  | nil : JSList
  | cons (head : JSVal) (tail : JSList) : JSList
deriving DecidableEq, Repr

/-- Object fields, in property insertion order. -/
inductive JSFields where
  | nil : JSFields
  | cons (key : String) (val : JSVal) (tail : JSFields) : JSFields
deriving DecidableEq, Repr
end

open JSVal

/-- Convert a model array to a Lean list. -/
def JSList.toList : JSList → List JSVal
  | .nil => []
  | .cons v rest => v :: rest.toList

/-- Convert a Lean list to a model array. -/
def JSList.ofList : List JSVal → JSList
  | [] => .nil
  | v :: rest => .cons v (JSList.ofList rest)

/-- Append of model arrays (Array.prototype.concat on the element level). -/
def JSList.append : JSList → JSList → JSList
  | .nil, ys => ys
  | .cons x xs, ys => .cons x (xs.append ys)

/-- First value stored under a key, mirroring JavaScript property lookup
(JavaScript objects hold each key once; the model keeps the first
occurrence authoritative). -/
def JSFields.lookup : JSFields → String → Option JSVal
  | .nil, _ => none
  | .cons k v rest, key => if k = key then some v else rest.lookup key

/-- Property write: update the existing key in place, else append the new
key at the end, exactly the insertion-order behaviour of JavaScript
objects. -/
def JSFields.set : JSFields → String → JSVal → JSFields
  | .nil, key, v => .cons key v .nil
  | .cons k w rest, key, v =>
      if k = key then .cons k v rest else .cons k w (rest.set key v)

/-- Remove every occurrence of a key. -/
def JSFields.eraseKey : JSFields → String → JSFields
  | .nil, _ => .nil
  | .cons k w rest, key =>
      if k = key then rest.eraseKey key else .cons k w (rest.eraseKey key)

/-- Keys of an object, in order. -/
def JSFields.keysOf : JSFields → List String
  | .nil => []
  | .cons k _ rest => k :: rest.keysOf

/-- All values stored under a key, in order (a well-formed object has at
most one). -/
def JSFields.keyVals : JSFields → String → List JSVal
  | .nil, _ => []
  | .cons k v rest, key =>
      if k = key then v :: rest.keyVals key else rest.keyVals key

/-- Property read on a value: undefined for a missing key and for
non-objects (the pipeline only reads properties of objects). -/
def getField (v : JSVal) (k : String) : JSVal :=
  match v with
  | .vobj fs => (fs.lookup k).getD .vundef
  | _ => JSVal.vundef

/-- Property write on an object value; other values are left unchanged
(the pipeline only writes properties of objects). -/
def setField (v : JSVal) (k : String) (w : JSVal) : JSVal :=
  match v with
  | .vobj fs => .vobj (fs.set k w)
  | _ => v

/-- JavaScript truthiness on the modelled values. -/
def truthy : JSVal → Bool
  | .vundef => false
  | .vnull => false
  | .vbool b => b
  | .vnum n => n != 0
  | .vstr s => s != ""
  | .varr _ => true
  | .vobj _ => true

/-- Modelled from the spec: the package gourmet/is-plain-object, whose
source is not in this tree, recognises plain records; on the modelled
value domain exactly the object values are plain objects. -/
def isPlainObject : JSVal → Bool
  | .vobj _ => true
  | _ => false

/-- typeof v === "string". -/
def isString : JSVal → Bool
  | .vstr _ => true
  | _ => false

mutual
/-- String coercion of a value when it is used as a property key, as in
lowIndices[target] of the source.  Mirrors the ECMAScript ToString on the
modelled domain (array elements that are null or undefined stringify to
the empty string). -/
def jsToString : JSVal → String
  | .vundef => "undefined"
  | .vnull => "null"
  | .vbool true => "true"
  | .vbool false => "false"
  | .vnum n => toString n
  | .vstr s => s
  | .varr xs => jsListToString xs
  | .vobj _ => "[object Object]"

/-- Array.prototype.toString: elements joined with commas. -/
def jsListToString : JSList → String
  | .nil => ""
  | .cons v rest =>
      (match v with
       | .vundef => ""
       | .vnull => ""
       | w => jsToString w) ++
      (match rest with
       | .nil => ""
       | r => "," ++ jsListToString r)
end

deriving instance DecidableEq for Except

/-- Numeric reading of a value where the source does arithmetic on it
(group subtraction in the comparator).  The inputs of interest carry
integer numbers there; other values are read coarsely as 0. -/
def numVal : JSVal → Int
  | .vnum n => n
  | _ => 0

/-! ## The merge utility, from src/utils/merge/lib/merge.js

The source distinguishes plain objects, arrays and everything else, walks
the keys of the merge source and updates the destination in place.  The
Customizer escape hatch of the source is not representable in the value
domain crossing the sorter, so the corresponding branch has no model
counterpart. -/

/-- The three value classes of _getType in merge.js. -/
inductive MergeType where
  | object : MergeType
  | array : MergeType
  | other : MergeType
deriving DecidableEq, Repr

/-- _getType of merge.js: plain object, array, or other. -/
def getType : JSVal → MergeType
  | .vobj _ => .object
  | .varr _ => .array
  | _ => .other

/-- Array.prototype.concat with a single argument: an array argument is
spread one level, anything else is appended as one element. -/
def concatArg (v : JSVal) : JSList :=
  match v with
  | .varr xs => xs
  | w => .cons w .nil

mutual
/-- The key loop of _merge(des, src) in merge.js: process the properties
of the source in order, updating the destination. -/
def mergeFields (des : JSFields) : JSFields → JSFields
  | .nil => des
  | .cons prop sv rest =>
      mergeFields
        (let nv := mergePropVal ((des.lookup prop).getD .vundef) sv
         if nv = .vundef then des else des.set prop nv)
        rest

/-- The new value nv computed by one iteration of the key loop of _merge,
from the current destination value and the source value, with exactly the
branch structure of the source: array destinations concatenate, array
sources are prepended with the destination value, object to object merges
recurse, a lone object source is copied, anything else overwrites. -/
def mergePropVal (desVal : JSVal) : JSVal → JSVal
  | .varr ss =>
      match desVal with
      | .varr ds => .varr (ds.append ss)
      | .vundef => .varr ss
      | d => .varr (JSList.append (.cons d .nil) ss)
  | .vobj sfs =>
      match desVal with
      | .varr ds => .varr (ds.append (.cons (.vobj sfs) .nil))
      | .vobj dfs => .vobj (mergeFields dfs sfs)
      | _ => .vobj (mergeFields .nil sfs)
  | sv =>
      match desVal with
      | .varr ds =>
          if sv = .vundef then .vundef else .varr (ds.append (.cons sv .nil))
      | _ => sv
end

/-- One iteration of the key loop of _merge: store the computed new value
unless it is undefined. -/
def mergeProp (des : JSFields) (prop : String) (srcVal : JSVal) : JSFields :=
  let nv := mergePropVal ((des.lookup prop).getD .vundef) srcVal
  if nv = .vundef then des else des.set prop nv

/-- _merge(des, src) where the source may be any value: only plain objects
contribute enumerable keys in the pipeline data domain (index keys of
strings and arrays are outside the modelled inputs and never reach merge
in the sorter pipeline). -/
def mergeInto (des : JSFields) (src : JSVal) : JSFields :=
  match src with
  | .vobj sfs => mergeFields des sfs
  | _ => des

/-- merge(des, ...args) of merge.js: fold the truthy sources into the
destination. -/
def mergeMany (des : JSFields) (args : List JSVal) : JSFields :=
  args.foldl (fun d s => if truthy s then mergeInto d s else d) des

/-- merge(des, src) on object values, returning the (functionally)
updated destination, as used by _mergeVirtuals. -/
def merge2 (des src : JSVal) : JSVal :=
  match des with
  | .vobj dfs => .vobj (mergeMany dfs [src])
  | d => d

/-- Modelled from the spec: the package gourmet/omit, whose source is not
in this tree, is used to strip the virtual marker before merging; it
returns a copy of the record without the named key. -/
def omitKey (v : JSVal) (k : String) : JSVal :=
  match v with
  | .vobj fs => .vobj (fs.eraseKey k)
  | w => w

/-! ## The plugin sorter, from src/utils/plugin-sort/gmsrc/PluginSorter.js -/

/-- The constructor configuration of PluginSorter.  The caller supplied
normalize and finalize functions are modelled as Lean functions on the
value domain (the model therefore covers exactly the callbacks that do not
throw). -/
structure SorterConfig where
  normalize : JSVal → JSVal
  finalize : JSVal → JSVal
  schema : JSFields
  defaultGroup : Int

/-- The default configuration of the constructor: identity normalize and
finalize, empty schema, with the given default group (the source default
is 500). -/
def cfgId (dg : Int) : SorterConfig :=
  { normalize := fun v => v
    finalize := fun v => v
    schema := .nil
    defaultGroup := dg }

/-- CONSTRAINT_SCALE of the source. -/
def CONSTRAINT_SCALE : Int := 1000

/-- _normalizeItems: apply normalize to each raw item in order; a falsy
result drops the item, a truthy non plain object or a missing string name
is a thrown Error (the source messages contain quote characters that are
elided here). -/
def normalizeItems (cfg : SorterConfig) : List JSVal → Except String (List JSVal)
  | [] => .ok []
  | x :: rest =>
      let item := cfg.normalize x
      if truthy item then
        if ¬ isPlainObject item then
          .error ("normalize should return an object")
        else if ¬ isString (getField item "name") then
          .error ("Name is required")
        else
          match normalizeItems cfg rest with
          | .error e => .error e
          | .ok out => .ok (item :: out)
      else normalizeItems cfg rest

/-- The base object of _applySchema: fresh {after: [], before: []}. -/
def baseFields : JSFields :=
  .cons "after" (.varr .nil) (.cons "before" (.varr .nil) .nil)

/-- _applySchema on one item: a virtual item merges only against the base,
a real item additionally takes the wildcard schema entry and the entry
keyed by its name (property access coerces the name to a string key). -/
def applySchemaItem (cfg : SorterConfig) (item : JSVal) : JSVal :=
  if truthy (getField item "virtual") then
    .vobj (mergeMany baseFields [item])
  else
    let s := (cfg.schema.lookup "*").getD .vundef
    let e := (cfg.schema.lookup (jsToString (getField item "name"))).getD .vundef
    .vobj (mergeMany baseFields [s, e, item])

/-- _applySchema: map over all items. -/
def applySchema (cfg : SorterConfig) (items : List JSVal) : List JSVal :=
  items.map (applySchemaItem cfg)

/-- Lookup in the virtual map (a plain JavaScript object keyed by name). -/
def vmLookup : List (String × JSVal) → String → Option JSVal
  | [], _ => none
  | (k, v) :: rest, key => if k = key then some v else vmLookup rest key

/-- Write into the virtual map. -/
def vmSet : List (String × JSVal) → String → JSVal → List (String × JSVal)
  | [], key, v => [(key, v)]
  | (k, w) :: rest, key, v =>
      if k = key then (k, v) :: rest else (k, w) :: vmSet rest key v

/-- The loop of _mergeVirtuals: a virtual item is stripped of its marker,
accumulated into the virtual map, and merged retroactively into every
already emitted item of the same name; a real item is emitted, merged on
top of the accumulated patch when one exists.  Name comparison is the
strict equality of the source (names are strings by the normalize
check). -/
def mergeVirtualsAux (vmap : List (String × JSVal)) (output : List JSVal) :
    List JSVal → List JSVal
  | [] => output
  | item :: rest =>
      let rawName := getField item "name"
      let key := jsToString rawName
      let v := vmLookup vmap key
      if truthy (getField item "virtual") then
        let patch := omitKey item "virtual"
        let vmap' := vmSet vmap key
          (match v with
           | some v0 => merge2 v0 patch
           | none => patch)
        let output' := output.map fun o =>
          if getField o "name" = rawName then merge2 o patch else o
        mergeVirtualsAux vmap' output' rest
      else
        match v with
        | some v0 =>
            mergeVirtualsAux vmap (output ++ [.vobj (mergeMany .nil [v0, item])]) rest
        | none => mergeVirtualsAux vmap (output ++ [item]) rest

/-- _mergeVirtuals. -/
def mergeVirtuals (items : List JSVal) : List JSVal :=
  mergeVirtualsAux [] [] items

/-- _excludeDisabled: keep the items with a falsy disable field. -/
def excludeDisabled (items : List JSVal) : List JSVal :=
  items.filter fun item => ¬ truthy (getField item "disable")

/-- Elements of an array value; the pipeline reads the after and before
fields only after _applySchema made them arrays (on a non array the source
would throw, which is unreachable there). -/
def arrElems (v : JSVal) : List JSVal :=
  match v with
  | .varr xs => xs.toList
  | _ => []

/-- The low and high index maps of _getConstraintOrders: the first and the
last original index of every name (names are used as property keys, hence
string-coerced). -/
def indexMaps (items : List JSVal) : List (String × Nat) × List (String × Nat) :=
  (items.zip (List.range items.length)).foldl
    (fun (lohi : List (String × Nat) × List (String × Nat)) p =>
      let (lo, hi) := lohi
      let key := jsToString (getField p.1 "name")
      let lo' := match vmLookupN lo key with
        | none => lo ++ [(key, p.2)]
        | some _ => lo
      let hi' := match vmLookupN hi key with
        | none => hi ++ [(key, p.2)]
        | some h => if p.2 > h then vmSetN hi key p.2 else hi
      (lo', hi'))
    ([], [])
where
  /-- Lookup in a name-to-index map. -/
  vmLookupN : List (String × Nat) → String → Option Nat
    | [], _ => none
    | (k, v) :: rest, key => if k = key then some v else vmLookupN rest key
  /-- Write into a name-to-index map. -/
  vmSetN : List (String × Nat) → String → Nat → List (String × Nat)
    | [], key, v => [(key, v)]
    | (k, w) :: rest, key, v =>
        if k = key then (k, v) :: rest else (k, w) :: vmSetN rest key v

/-- The conversion of before constraints into after edges: for every before
target with a known low index, push the name of the declaring item onto the
after list of the item at that low index. -/
def convertBefore (low : List (String × Nat)) (aft0 : List (List JSVal))
    (items : List JSVal) : List (List JSVal) :=
  items.foldl
    (fun aft item =>
      (arrElems (getField item "before")).foldl
        (fun aft2 target =>
          match indexMaps.vmLookupN low (jsToString target) with
          | some idx => aft2.set idx (aft2.getD idx [] ++ [getField item "name"])
          | none => aft2)
        aft)
    aft0

/-- The memo table of _getConstraintOrders (a sparse array in the source):
none is a hole, some v a written entry. -/
abbrev Memo := List (Option Int)

/-- The truthiness test if (orders[idx]) of the source: a hole and a stored
zero both read as falsy. -/
def memoTruthy : Option Int → Bool
  | some v => v ≠ 0
  | none => false

/-- _init(idx) with explicit fuel: returns the computed order and the
updated memo, or none when the fuel is exhausted (modelling the unbounded
recursion of the source; the source recursion is re-entrant, so the memo
is threaded through the af.forEach(target => ...) loop, here a fold whose
accumulator also propagates fuel exhaustion).  On !max || val > max the
running max and the provisional memo entry at idx are both updated. -/
def initF (aft : List (List JSVal)) (hi : List (String × Nat)) :
    Nat → Nat → Memo → Option (Int × Memo)
  | 0, _, _ => none
  | fuel + 1, idx, memo =>
      let cur := memo.getD idx none
      if memoTruthy cur then some (cur.getD 0, memo)
      else
        let af := aft.getD idx []
        if af.isEmpty then
          let v := (idx : Int) * CONSTRAINT_SCALE
          some (v, memo.set idx (some v))
        else
          let memo1 := memo.set idx (some ((idx : Int) * CONSTRAINT_SCALE))
          let step : Option (Option Int × Memo) → JSVal → Option (Option Int × Memo) :=
            fun acc t =>
              match acc with
              | none => none
              | some (maxOpt, m) =>
                  match indexMaps.vmLookupN hi (jsToString t) with
                  | none => some (maxOpt, m)
                  | some h =>
                      match initF aft hi fuel h m with
                      | none => none
                      | some (val, m1) =>
                          let bump :=
                            match maxOpt with
                            | none => true
                            | some mx => mx = 0 ∨ val > mx
                          if bump then
                            some (some val, m1.set idx (some (val + 1)))
                          else some (maxOpt, m1)
          match af.foldl step (some (none, memo1)) with
          | none => none
          | some (maxOpt, m) =>
              let final : Int :=
                match maxOpt with
                | some mx => if mx ≠ 0 then mx + 1 else (idx : Int) * CONSTRAINT_SCALE
                | none => (idx : Int) * CONSTRAINT_SCALE
              some (final, m.set idx (some final))

/-- The body of the af.forEach(target => ...) loop of _init, named for the
proofs: one step of the target fold of initF. -/
def targetStep (aft : List (List JSVal)) (hi : List (String × Nat))
    (fuel : Nat) (idx : Nat)
    (acc : Option (Option Int × Memo)) (t : JSVal) : Option (Option Int × Memo) :=
  match acc with
  | none => none
  | some (maxOpt, m) =>
      match indexMaps.vmLookupN hi (jsToString t) with
      | none => some (maxOpt, m)
      | some h =>
          match initF aft hi fuel h m with
          | none => none
          | some (val, m1) =>
              let bump :=
                match maxOpt with
                | none => true
                | some mx => mx = 0 ∨ val > mx
              if bump then
                some (some val, m1.set idx (some (val + 1)))
              else some (maxOpt, m1)

/-- The top level items.forEach((item, idx) => _init(idx)) loop: thread the
memo through all indices. -/
def ordersTopF (aft : List (List JSVal)) (hi : List (String × Nat))
    (fuel : Nat) (n : Nat) : Option Memo :=
  (List.range n).foldlM
    (fun memo idx => (initF aft hi fuel idx memo).map (·.2))
    (List.replicate n (none : Option Int))

/-- _getConstraintOrders: build the index maps, copy the after references,
convert before constraints into after edges, then run the memoised order
computation; returns the order table and the final after table (the pushes
of the conversion mutate the after arrays of the items in the source, so
the final table is also the final content of those arrays). -/
def getConstraintOrdersF (fuel : Nat) (items : List JSVal) :
    Option (List Int × List (List JSVal)) :=
  let maps := indexMaps items
  let aft0 := items.map fun item => arrElems (getField item "after")
  let aft := convertBefore maps.1 aft0 items
  (ordersTopF aft maps.2 fuel items.length).map fun memo =>
    (memo.map (fun o => o.getD 0), aft)

/-- The after arrays are mutated in place by the before conversion; the
model writes the final table back into the items (only array valued after
fields occur at this stage). -/
def writeAfter (item : JSVal) (af : List JSVal) : JSVal :=
  match getField item "after" with
  | .varr _ => setField item "after" (.varr (JSList.ofList af))
  | _ => item

/-- Write the final after table back into all items. -/
def writeAfterAll (items : List JSVal) (aft : List (List JSVal)) : List JSVal :=
  List.zipWith writeAfter items aft

/-- The comparator of _sortItems on decorated entries [item, order, idx]:
group (with the falsy-default substitution of the source) first, then the
constraint order, then the original index. -/
def cmpItems (dg : Int) (a b : JSVal × Int × Nat) : Int :=
  let ag := if truthy (getField a.1 "group") then getField a.1 "group" else .vnum dg
  let bg := if truthy (getField b.1 "group") then getField b.1 "group" else .vnum dg
  if ag ≠ bg then numVal ag - numVal bg
  else if a.2.1 ≠ b.2.1 then a.2.1 - b.2.1
  else (a.2.2 : Int) - (b.2.2 : Int)

/-- Stable insertion of one element into a sorted prefix: the new element
goes after every element not strictly greater, which is the placement a
stable sort gives to a later element. -/
def insertCmp {α : Type} (cmp : α → α → Int) (x : α) : List α → List α
  | [] => [x]
  | y :: ys => if cmp y x ≤ 0 then y :: insertCmp cmp x ys else x :: y :: ys

/-- Stable sort by a comparator.  Array.prototype.sort is stable, and for a
consistent comparator every stable sort produces the same sequence, so the
source sort is modelled by stable insertion sort. -/
def sortByCmp {α : Type} (cmp : α → α → Int) (l : List α) : List α :=
  l.foldl (fun acc x => insertCmp cmp x acc) []

/-- Decorate the items with their order numbers and original indices, as
list.map((item, idx) => [item, orders[idx], idx]) does. -/
def decorate (items : List JSVal) (orders : List Int) : List (JSVal × Int × Nat) :=
  ((items.zip orders).zip (List.range items.length)).map fun p => (p.1.1, p.1.2, p.2)

/-- The sorted decorated list of _sortItems, with the after-table write
back applied first. -/
def sortedDecoratedF (cfg : SorterConfig) (fuel : Nat) (items : List JSVal) :
    Option (List (JSVal × Int × Nat)) :=
  (getConstraintOrdersF fuel items).map fun r =>
    sortByCmp (cmpItems cfg.defaultGroup) (decorate (writeAfterAll items r.2) r.1)

/-- _sortItems: sort the decorated entries and project the items back. -/
def sortItemsF (cfg : SorterConfig) (fuel : Nat) (items : List JSVal) :
    Option (List JSVal) :=
  (sortedDecoratedF cfg fuel items).map (List.map (·.1))

/-- _finalizeItems: apply finalize and drop the undefined results. -/
def finalizeItems (cfg : SorterConfig) (items : List JSVal) : List JSVal :=
  (items.map cfg.finalize).filter fun v => v ≠ JSVal.vundef

/-- run(items): the five stage pipeline of the source; a non array
argument is a thrown Error.  The outer Option is the fuel of the order
computation: none models a run that never returns (unbounded recursion in
_init). -/
def runF (fuel : Nat) (cfg : SorterConfig) (input : JSVal) :
    Option (Except String (List JSVal)) :=
  match input with
  | .varr xs =>
      match normalizeItems cfg xs.toList with
      | .error e => some (.error e)
      | .ok items1 =>
          let items4 := excludeDisabled (mergeVirtuals (applySchema cfg items1))
          match sortItemsF cfg fuel items4 with
          | none => none
          | some items5 => some (.ok (finalizeItems cfg items5))
  | _ => some (.error ("Items must be an array"))

/-- run on a Lean list of items. -/
def runList (fuel : Nat) (cfg : SorterConfig) (items : List JSVal) :
    Option (Except String (List JSVal)) :=
  runF fuel cfg (.varr (JSList.ofList items))

/-! ## Concrete items used in counterexamples and witnesses -/

/-- Object literal helper. -/
def obj (l : List (String × JSVal)) : JSVal :=
  .vobj (l.foldr (fun p acc => JSFields.cons p.1 p.2 acc) JSFields.nil)

/-- Array literal helper. -/
def arr (l : List JSVal) : JSVal := .varr (JSList.ofList l)

/-- The item {name: "a", after: ["a"]}: a self reference whose single
occurrence sits at index 0. -/
def selfRefItem : JSVal :=
  obj [("name", .vstr "a"), ("after", arr [.vstr "a"])]

/-! ## Basic lemmas on fields and helpers -/

/-- Induction along the field list alone (the mutual shape of the value
type hides the plain recursor). -/
theorem JSFields.inductFields (motive : JSFields → Prop) (hnil : motive .nil)
    (hcons : ∀ k v rest, motive rest → motive (.cons k v rest)) :
    ∀ fs, motive fs
  | .nil => hnil
  | .cons k v rest => hcons k v rest (JSFields.inductFields motive hnil hcons rest)

/-- Induction along an array element list alone. -/
theorem JSList.inductList (motive : JSList → Prop) (hnil : motive .nil)
    (hcons : ∀ v rest, motive rest → motive (.cons v rest)) :
    ∀ xs, motive xs
  | .nil => hnil
  | .cons v rest => hcons v rest (JSList.inductList motive hnil hcons rest)

theorem JSFields.lookup_set_ne (fs : JSFields) (k k' : String) (v : JSVal)
    (h : k ≠ k') : (fs.set k v).lookup k' = fs.lookup k' := by
  induction fs using JSFields.inductFields with
  | hnil => simp [JSFields.set, JSFields.lookup, h]
  | hcons kk vv rest ih =>
      by_cases hk : kk = k
      · subst hk
        simp [JSFields.set, JSFields.lookup, h]
      · simp [JSFields.set, JSFields.lookup, hk, ih]

theorem JSFields.keyVals_set_ne (fs : JSFields) (k k' : String) (v : JSVal)
    (h : k ≠ k') : (fs.set k v).keyVals k' = fs.keyVals k' := by
  induction fs using JSFields.inductFields with
  | hnil => simp [JSFields.set, JSFields.keyVals, h]
  | hcons kk vv rest ih =>
      by_cases hk : kk = k
      · subst hk
        simp [JSFields.set, JSFields.keyVals, h]
      · simp [JSFields.set, JSFields.keyVals, hk, ih]

theorem JSFields.lookup_mem_keyVals (fs : JSFields) (k : String) (v : JSVal)
    (h : fs.lookup k = some v) : v ∈ fs.keyVals k := by
  induction fs using JSFields.inductFields with
  | hnil => simp [JSFields.lookup] at h
  | hcons kk vv rest ih =>
      by_cases hk : kk = k
      · subst hk
        simp [JSFields.lookup] at h
        simp [JSFields.keyVals, h]
      · simp [JSFields.lookup, hk] at h
        simp [JSFields.keyVals, hk, ih h]

theorem JSFields.keyVals_nil_lookup (fs : JSFields) (k : String)
    (h : fs.keyVals k = []) : fs.lookup k = none := by
  induction fs using JSFields.inductFields with
  | hnil => simp [JSFields.lookup]
  | hcons kk vv rest ih =>
      by_cases hk : kk = k
      · subst hk; simp [JSFields.keyVals] at h
      · simp [JSFields.keyVals, hk] at h
        simp [JSFields.lookup, hk, ih h]

/-- mergeProp touches only its own key. -/
theorem mergeProp_lookup_ne (des : JSFields) (prop k : String) (sv : JSVal)
    (h : prop ≠ k) : (mergeProp des prop sv).lookup k = des.lookup k := by
  rw [mergeProp]
  by_cases hz : mergePropVal ((des.lookup prop).getD .vundef) sv = JSVal.vundef
  · simp [hz]
  · simp only [if_neg hz, JSFields.lookup_set_ne des prop k _ h]

/-- mergeProp touches only its own key (keyVals version). -/
theorem mergeProp_keyVals_ne (des : JSFields) (prop k : String) (sv : JSVal)
    (h : prop ≠ k) : (mergeProp des prop sv).keyVals k = des.keyVals k := by
  rw [mergeProp]
  by_cases hz : mergePropVal ((des.lookup prop).getD .vundef) sv = JSVal.vundef
  · simp [hz]
  · simp only [if_neg hz, JSFields.keyVals_set_ne des prop k _ h]

/-! ## Divergence of the order computation on a self reference at index 0

The provisional memo entry written before recursing is idx * SCALE, which
is 0 at index 0; the guard if (orders[idx]) reads 0 as falsy, so a self
reference whose high index is 0 re-enters _init(0) forever. -/

/-- The after table of the one-item pipeline on selfRefItem. -/
def selfAft : List (List JSVal) := [[.vstr "a"]]

/-- The high index map of the one-item pipeline on selfRefItem. -/
def selfHi : List (String × Nat) := [("a", 0)]

theorem selfref_initF_stuck (fuel : Nat) (m : Memo)
    (hm : memoTruthy (m.getD 0 none) = false) :
    initF selfAft selfHi fuel 0 m = none := by
  induction fuel generalizing m with
  | zero => rfl
  | succ fuel ih =>
      have hset : memoTruthy ((m.set 0 (some 0)).getD 0 none) = false := by
        cases m with
        | nil => simp [List.set, memoTruthy]
        | cons x rest => simp [List.set, memoTruthy]
      have hin := ih (m.set 0 (some 0)) hset
      simp only [selfAft, selfHi] at hin
      rw [initF]
      simp only [hm, Bool.false_eq_true, if_false]
      norm_num [selfAft, List.getD, List.isEmpty, List.foldl,
        indexMaps.vmLookupN, jsToString, selfHi, CONSTRAINT_SCALE]
      rw [hin]

theorem selfref_top_stuck (fuel : Nat) :
    ordersTopF selfAft selfHi fuel 1 = none := by
  have h := selfref_initF_stuck fuel [none] (by simp [memoTruthy])
  have hr : List.range 1 = [0] := rfl
  simp [ordersTopF, hr, List.foldlM_cons, List.foldlM_nil, h]

/-- C3: the claim says run terminates for every input, self references
included; but on [{name: "a", after: ["a"]}] the computation never
finishes at any fuel: the provisional memo value 0 * SCALE = 0 at index 0
reads as falsy, so _init(0) re-enters itself forever (in JavaScript, a
stack overflow).  This contradicts both the claim and the comment of the
source that the provisional value prevents infinite circular reference. -/
theorem c3_run_diverges_on_selfref_at_index_zero :
    ∀ fuel : Nat, runList fuel (cfgId 500) [selfRefItem] = none := by
  intro fuel
  have htop := selfref_top_stuck fuel
  simp only [runList, runF]
  have hn : normalizeItems (cfgId 500) ((JSList.ofList [selfRefItem]).toList) =
      .ok [selfRefItem] := by decide
  rw [hn]
  simp only [sortItemsF, sortedDecoratedF, getConstraintOrdersF]
  have hmaps : indexMaps (excludeDisabled (mergeVirtuals (applySchema (cfgId 500)
      [selfRefItem]))) = (selfHi, selfHi) := by decide
  have haft : convertBefore selfHi
      ((excludeDisabled (mergeVirtuals (applySchema (cfgId 500) [selfRefItem]))).map
        fun item => arrElems (getField item "after"))
      (excludeDisabled (mergeVirtuals (applySchema (cfgId 500) [selfRefItem]))) =
      selfAft := by decide
  have hlen : (excludeDisabled (mergeVirtuals (applySchema (cfgId 500)
      [selfRefItem]))).length = 1 := by decide
  simp only [hmaps, haft, hlen, htop, Option.map_none']

/-! ## Error behaviour of run -/

/-- Array.isArray. -/
def isArray : JSVal → Bool
  | .varr _ => true
  | _ => false

/-- A raw input item on which the normalize stage throws: the normalize
result is truthy but is not a plain object or lacks a string name. -/
def badItem (cfg : SorterConfig) (x : JSVal) : Prop :=
  truthy (cfg.normalize x) = true ∧
    (isPlainObject (cfg.normalize x) = false ∨
     isString (getField (cfg.normalize x) "name") = false)

theorem normalizeItems_error_iff (cfg : SorterConfig) (l : List JSVal) :
    (∃ e, normalizeItems cfg l = .error e) ↔ ∃ x ∈ l, badItem cfg x := by
  induction l with
  | nil =>
      constructor
      · rintro ⟨e, he⟩; simp [normalizeItems] at he
      · rintro ⟨x, hx, _⟩; simp at hx
  | cons x rest ih =>
      rw [normalizeItems]
      by_cases ht : truthy (cfg.normalize x) = true
      · by_cases hp : isPlainObject (cfg.normalize x) = true
        · by_cases hs : isString (getField (cfg.normalize x) "name") = true
          · rw [if_pos ht, if_neg (by simp [hp]), if_neg (by simp [hs])]
            constructor
            · rintro ⟨e, he⟩
              rcases hrest : normalizeItems cfg rest with e' | out
              · rcases ih.mp ⟨e', hrest⟩ with ⟨y, hy, hbad⟩
                exact ⟨y, List.mem_cons_of_mem x hy, hbad⟩
              · rw [hrest] at he; cases he
            · rintro ⟨y, hy, hbad⟩
              rcases List.mem_cons.mp hy with rfl | hy'
              · rcases hbad.2 with hb | hb
                · rw [hp] at hb; cases hb
                · rw [hs] at hb; cases hb
              · rcases ih.mpr ⟨y, hy', hbad⟩ with ⟨e, he⟩
                rw [he]
                exact ⟨e, rfl⟩
          · simp only [Bool.not_eq_true] at hs
            constructor
            · intro _
              exact ⟨x, List.mem_cons_self x rest, ht, Or.inr hs⟩
            · intro _
              rw [if_pos ht, if_neg (by simp [hp]), if_pos (by simp [hs])]
              exact ⟨"Name is required", rfl⟩
        · simp only [Bool.not_eq_true] at hp
          constructor
          · intro _
            exact ⟨x, List.mem_cons_self x rest, ht, Or.inl hp⟩
          · intro _
            rw [if_pos ht, if_pos (by simp [hp])]
            exact ⟨"normalize should return an object", rfl⟩
      · simp only [Bool.not_eq_true] at ht
        rw [if_neg (by simp [ht])]
        rw [ih]
        constructor
        · rintro ⟨y, hy, hbad⟩
          exact ⟨y, List.mem_cons_of_mem x hy, hbad⟩
        · rintro ⟨y, hy, hbad⟩
          rcases List.mem_cons.mp hy with rfl | hy'
          · rw [hbad.1] at ht; cases ht
          · exact ⟨y, hy', hbad⟩

/-- C6: provided the caller supplied normalize and finalize functions do
not throw (all Lean functions of the model are total), a completed run
throws exactly when the argument is not an array or some normalize result
is truthy but not a plain object or without a string name; a falsy
normalize result only drops its item.  The error value carries no output
list, so a throwing run produces no partial output by construction. -/
theorem c6_run_error_iff (cfg : SorterConfig) (fuel : Nat) (input : JSVal)
    (r : Except String (List JSVal)) (h : runF fuel cfg input = some r) :
    (∃ e, r = .error e) ↔
      (isArray input = false ∨ ∃ x ∈ arrElems input, badItem cfg x) := by
  cases input
  case varr xs =>
      rw [runF] at h
      rcases hn : normalizeItems cfg xs.toList with e | items1
      · rw [hn] at h
        dsimp only at h
        injection h with h
        subst h
        constructor
        · intro _
          exact Or.inr ((normalizeItems_error_iff cfg xs.toList).mp ⟨e, hn⟩)
        · intro _
          exact ⟨e, rfl⟩
      · rw [hn] at h
        dsimp only at h
        rcases hs : sortItemsF cfg fuel
            (excludeDisabled (mergeVirtuals (applySchema cfg items1))) with _ | items5
        · rw [hs] at h; cases h
        · rw [hs] at h
          dsimp only at h
          injection h with h
          subst h
          constructor
          · rintro ⟨e, he⟩; cases he
          · rintro (hl | ⟨x, hx, hbad⟩)
            · simp [isArray] at hl
            · rcases (normalizeItems_error_iff cfg xs.toList).mpr
                ⟨x, by simpa [arrElems] using hx, hbad⟩ with ⟨e, he⟩
              rw [he] at hn; cases hn
  all_goals
    cases h
    exact ⟨fun _ => Or.inl rfl, fun _ => ⟨"Items must be an array", rfl⟩⟩

/-! ## Properties of the stable sort -/

theorem insertCmp_perm {α : Type} (cmp : α → α → Int) (x : α) (l : List α) :
    List.Perm (insertCmp cmp x l) (x :: l) := by
  induction l with
  | nil => exact List.Perm.refl _
  | cons y ys ih =>
      rw [insertCmp]
      by_cases hc : cmp y x ≤ 0
      · rw [if_pos hc]
        exact (List.Perm.cons y ih).trans (List.Perm.swap x y ys)
      · rw [if_neg hc]

theorem sortByCmp_perm {α : Type} (cmp : α → α → Int) (l : List α) :
    List.Perm (sortByCmp cmp l) l := by
  suffices h : ∀ acc : List α,
      List.Perm (l.foldl (fun a x => insertCmp cmp x a) acc) (l ++ acc) by
    have h0 := h []
    rw [List.append_nil] at h0
    exact h0
  induction l with
  | nil => intro acc; simp
  | cons x xs ih =>
      intro acc
      rw [List.foldl_cons]
      refine (ih (insertCmp cmp x acc)).trans ?_
      have h1 : List.Perm (xs ++ insertCmp cmp x acc) (xs ++ x :: acc) :=
        List.Perm.append_left xs (insertCmp_perm cmp x acc)
      exact h1.trans List.perm_middle

theorem insertCmp_mem {α : Type} (cmp : α → α → Int) (x y : α) (l : List α)
    (h : y ∈ insertCmp cmp x l) : y = x ∨ y ∈ l :=
  by simpa using (insertCmp_perm cmp x l).mem_iff.mp h

theorem insertCmp_sorted {α : Type} (cmp : α → α → Int)
    (htotal : ∀ a b, cmp a b ≤ 0 ∨ cmp b a ≤ 0)
    (htrans : ∀ a b c, cmp a b ≤ 0 → cmp b c ≤ 0 → cmp a c ≤ 0)
    (x : α) (l : List α) (h : l.Pairwise (fun a b => cmp a b ≤ 0)) :
    (insertCmp cmp x l).Pairwise (fun a b => cmp a b ≤ 0) := by
  induction l with
  | nil => simp [insertCmp]
  | cons y ys ih =>
      rw [List.pairwise_cons] at h
      rw [insertCmp]
      by_cases hc : cmp y x ≤ 0
      · rw [if_pos hc]
        rw [List.pairwise_cons]
        refine ⟨?_, ih h.2⟩
        intro z hz
        rcases insertCmp_mem cmp x z ys hz with rfl | hz'
        · exact hc
        · exact h.1 z hz'
      · rw [if_neg hc]
        have hxy : cmp x y ≤ 0 := by
          rcases htotal x y with h' | h'
          · exact h'
          · exact absurd h' hc
        rw [List.pairwise_cons]
        refine ⟨?_, List.pairwise_cons.mpr h⟩
        intro z hz
        rcases List.mem_cons.mp hz with rfl | hz'
        · exact hxy
        · exact htrans x y z hxy (h.1 z hz')

theorem sortByCmp_sorted {α : Type} (cmp : α → α → Int)
    (htotal : ∀ a b, cmp a b ≤ 0 ∨ cmp b a ≤ 0)
    (htrans : ∀ a b c, cmp a b ≤ 0 → cmp b c ≤ 0 → cmp a c ≤ 0)
    (l : List α) : (sortByCmp cmp l).Pairwise (fun a b => cmp a b ≤ 0) := by
  suffices h : ∀ acc : List α, acc.Pairwise (fun a b => cmp a b ≤ 0) →
      (l.foldl (fun a x => insertCmp cmp x a) acc).Pairwise (fun a b => cmp a b ≤ 0) by
    exact h [] (by simp)
  induction l with
  | nil => intro acc hacc; simpa using hacc
  | cons x xs ih =>
      intro acc hacc
      rw [List.foldl_cons]
      exact ih _ (insertCmp_sorted cmp htotal htrans x acc hacc)

theorem insertCmp_append_of_le {α : Type} (cmp : α → α → Int) (x : α) (l : List α)
    (h : ∀ y ∈ l, cmp y x ≤ 0) : insertCmp cmp x l = l ++ [x] := by
  induction l with
  | nil => rfl
  | cons y ys ih =>
      rw [insertCmp, if_pos (h y (List.mem_cons_self y ys))]
      rw [ih fun z hz => h z (List.mem_cons_of_mem y hz)]
      rfl

theorem sortByCmp_eq_self_of_sorted {α : Type} (cmp : α → α → Int) (l : List α)
    (h : l.Pairwise (fun a b => cmp a b ≤ 0)) : sortByCmp cmp l = l := by
  induction l using List.reverseRecOn with
  | nil => rfl
  | append_singleton l x ih =>
      have hsp := (List.pairwise_append.mp h)
      rw [sortByCmp, List.foldl_append]
      rw [show l.foldl (fun a x => insertCmp cmp x a) [] = sortByCmp cmp l from rfl]
      rw [ih hsp.1]
      simp only [List.foldl_cons, List.foldl_nil]
      exact insertCmp_append_of_le cmp x l fun y hy =>
        hsp.2.2 y hy x (List.mem_singleton_self x)

theorem insertCmp_map {α β : Type} (cmp : α → α → Int) (cmpb : β → β → Int)
    (f : α → β) (hf : ∀ a b, cmpb (f a) (f b) = cmp a b) (x : α) (l : List α) :
    insertCmp cmpb (f x) (l.map f) = (insertCmp cmp x l).map f := by
  induction l with
  | nil => rfl
  | cons y ys ih =>
      rw [List.map_cons, insertCmp, insertCmp, hf]
      by_cases hc : cmp y x ≤ 0
      · rw [if_pos hc, if_pos hc, ih, List.map_cons]
      · rw [if_neg hc, if_neg hc]
        rfl

theorem sortByCmp_map {α β : Type} (cmp : α → α → Int) (cmpb : β → β → Int)
    (f : α → β) (hf : ∀ a b, cmpb (f a) (f b) = cmp a b) (l : List α) :
    sortByCmp cmpb (l.map f) = (sortByCmp cmp l).map f := by
  suffices h : ∀ acc : List α,
      (l.map f).foldl (fun a x => insertCmp cmpb x a) (acc.map f) =
        (l.foldl (fun a x => insertCmp cmp x a) acc).map f by
    simpa using h []
  induction l with
  | nil => intro acc; simp
  | cons x xs ih =>
      intro acc
      rw [List.map_cons, List.foldl_cons, List.foldl_cons,
        insertCmp_map cmp cmpb f hf x acc]
      exact ih (insertCmp cmp x acc)

theorem insertCmp_congr {α : Type} (cmp cmp' : α → α → Int) (x : α) (l : List α)
    (h : ∀ y ∈ l, cmp y x = cmp' y x) :
    insertCmp cmp x l = insertCmp cmp' x l := by
  induction l with
  | nil => rfl
  | cons y ys ih =>
      rw [insertCmp, insertCmp, h y (List.mem_cons_self y ys),
        ih fun z hz => h z (List.mem_cons_of_mem y hz)]

theorem sortByCmp_congr {α : Type} (cmp cmp' : α → α → Int) (l : List α)
    (h : ∀ a ∈ l, ∀ b ∈ l, cmp a b = cmp' a b) :
    sortByCmp cmp l = sortByCmp cmp' l := by
  suffices h2 : ∀ (rest acc : List α), (∀ a ∈ rest, a ∈ l) → (∀ a ∈ acc, a ∈ l) →
      rest.foldl (fun a x => insertCmp cmp x a) acc =
        rest.foldl (fun a x => insertCmp cmp' x a) acc by
    exact h2 l [] (fun a ha => ha) (by simp)
  intro rest
  induction rest with
  | nil => intro acc _ _; rfl
  | cons x xs ih =>
      intro acc hrest hacc
      rw [List.foldl_cons, List.foldl_cons]
      rw [insertCmp_congr cmp cmp' x acc fun y hy =>
        h y (hacc y hy) x (hrest x (List.mem_cons_self x xs))]
      refine ih _ (fun a ha => hrest a (List.mem_cons_of_mem x ha)) ?_
      intro a ha
      rcases insertCmp_mem cmp' x a acc ha with rfl | ha'
      · exact hrest a (List.mem_cons_self a xs)
      · exact hacc a ha'

/-- Pairing any list with a duplicate free list yields pairwise distinct
second components. -/
theorem pairwise_snd_ne_zip {β : Type} (zs : List β) (ns : List Nat)
    (h : ns.Nodup) :
    (zs.zip ns).Pairwise (fun a b => a.2 ≠ b.2) := by
  induction zs generalizing ns with
  | nil => simp
  | cons z zs ih =>
      cases ns with
      | nil => simp
      | cons n ns' =>
          rw [List.zip_cons_cons, List.pairwise_cons]
          refine ⟨?_, ih ns' (List.Nodup.of_cons h)⟩
          intro b hb
          have hb2 : b.2 ∈ ns' := (List.of_mem_zip hb).2
          intro heq
          have heq' : n = b.2 := heq
          exact (List.nodup_cons.mp h).1 (by rw [heq']; exact hb2)

/-- Members of zipWith come from members of the two lists. -/
theorem mem_zipWith {α β γ : Type} (f : α → β → γ) (l1 : List α) (l2 : List β)
    (c : γ) (h : c ∈ List.zipWith f l1 l2) :
    ∃ a b, a ∈ l1 ∧ b ∈ l2 ∧ c = f a b := by
  induction l1 generalizing l2 with
  | nil => simp at h
  | cons x xs ih =>
      cases l2 with
      | nil => simp at h
      | cons y ys =>
          rw [List.zipWith_cons_cons] at h
          rcases List.mem_cons.mp h with rfl | h'
          · exact ⟨x, y, List.mem_cons_self x xs, List.mem_cons_self y ys, rfl⟩
          · rcases ih ys h' with ⟨a, b, ha, hb, rfl⟩
            exact ⟨a, b, List.mem_cons_of_mem x ha, List.mem_cons_of_mem y hb, rfl⟩

theorem JSList.toList_ofList (l : List JSVal) : (JSList.ofList l).toList = l := by
  induction l with
  | nil => rfl
  | cons x xs ih => rw [JSList.ofList, JSList.toList, ih]

/-! ## C1: the ordering of the output -/

/-- The group key the comparator of the source actually uses: the item
group when truthy, else the default group (a.group || defaultGroup). -/
def effGroup (dg : Int) (item : JSVal) : Int :=
  if truthy (getField item "group") then numVal (getField item "group") else dg

/-- The group key claim C1 describes: the default group exactly when the
item has no group field; an explicit 0 keeps its value. -/
def claimGroup (dg : Int) (item : JSVal) : Int :=
  if getField item "group" = .vundef then dg else numVal (getField item "group")

/-- An item whose group field is an integer number or falsy, the data
domain of the spec (group: number or undefined). -/
def numericGroup (item : JSVal) : Prop :=
  (∃ n : Int, getField item "group" = .vnum n) ∨
    truthy (getField item "group") = false

/-- Decidable form of numericGroup. -/
def numericGroupB (item : JSVal) : Bool :=
  match getField item "group" with
  | .vnum _ => true
  | g => ! truthy g

theorem numericGroupB_iff (item : JSVal) :
    numericGroupB item = true ↔ numericGroup item := by
  rw [numericGroupB, numericGroup]
  rcases h : getField item "group" with _ | _ | b | n | s | xs | fs
  all_goals simp [h, truthy]

/-- The strict lexicographic order of the amended claim on decorated
entries: ascending effective group, then constraint order, then original
index. -/
def keyLt (dg : Int) (a b : JSVal × Int × Nat) : Prop :=
  effGroup dg a.1 < effGroup dg b.1 ∨
    (effGroup dg a.1 = effGroup dg b.1 ∧
      (a.2.1 < b.2.1 ∨ (a.2.1 = b.2.1 ∧ a.2.2 < b.2.2)))

/-- The comparator on the numeric keys alone. -/
def cmpTriple (dg : Int) (a b : JSVal × Int × Nat) : Int :=
  if effGroup dg a.1 ≠ effGroup dg b.1 then effGroup dg a.1 - effGroup dg b.1
  else if a.2.1 ≠ b.2.1 then a.2.1 - b.2.1
  else (a.2.2 : Int) - (b.2.2 : Int)

theorem effVal (dg : Int) (item : JSVal) (h : numericGroup item) :
    (if truthy (getField item "group") then getField item "group" else .vnum dg) =
      .vnum (effGroup dg item) := by
  rw [effGroup]
  by_cases ht : truthy (getField item "group") = true
  · rw [if_pos ht, if_pos ht]
    rcases h with ⟨n, hn⟩ | hf
    · rw [hn]; rfl
    · rw [ht] at hf; cases hf
  · rw [if_neg ht, if_neg ht]

theorem cmpItems_eq_cmpTriple (dg : Int) (a b : JSVal × Int × Nat)
    (ha : numericGroup a.1) (hb : numericGroup b.1) :
    cmpItems dg a b = cmpTriple dg a b := by
  rw [cmpItems, cmpTriple]
  rw [effVal dg a.1 ha, effVal dg b.1 hb]
  simp only [ne_eq, JSVal.vnum.injEq, numVal]

theorem cmpTriple_total (dg : Int) (a b : JSVal × Int × Nat) :
    cmpTriple dg a b ≤ 0 ∨ cmpTriple dg b a ≤ 0 := by
  rw [cmpTriple, cmpTriple]
  split_ifs <;> omega

theorem cmpTriple_trans (dg : Int) (a b c : JSVal × Int × Nat)
    (h1 : cmpTriple dg a b ≤ 0) (h2 : cmpTriple dg b c ≤ 0) :
    cmpTriple dg a c ≤ 0 := by
  rw [cmpTriple] at h1 h2 ⊢
  split_ifs at h1 h2 ⊢ <;> omega

theorem cmpTriple_strict (dg : Int) (a b : JSVal × Int × Nat)
    (h : cmpTriple dg a b ≤ 0) (hne : a.2.2 ≠ b.2.2) : keyLt dg a b := by
  rw [cmpTriple] at h
  rw [keyLt]
  split_ifs at h <;> omega

theorem decorate_mem (l : List JSVal) (orders : List Int)
    (p : JSVal × Int × Nat) (h : p ∈ decorate l orders) : p.1 ∈ l := by
  rw [decorate] at h
  rcases List.mem_map.mp h with ⟨⟨⟨x, o⟩, i⟩, hq, rfl⟩
  exact (List.of_mem_zip (List.of_mem_zip hq).1).1

theorem decorate_idx_ne (l : List JSVal) (orders : List Int) :
    (decorate l orders).Pairwise (fun a b => a.2.2 ≠ b.2.2) := by
  rw [decorate, List.pairwise_map]
  exact pairwise_snd_ne_zip (l.zip orders) (List.range l.length) (List.nodup_range _)

theorem getField_writeAfter_ne (item : JSVal) (af : List JSVal) (k : String)
    (hk : "after" ≠ k) : getField (writeAfter item af) k = getField item k := by
  rw [writeAfter]
  rcases hv : getField item "after" with _ | _ | b | n | s | xs | fs
  case varr =>
      cases item with
      | vobj gs =>
          rw [setField, getField, getField, JSFields.lookup_set_ne gs "after" k _ hk]
      | vundef => rfl
      | vnull => rfl
      | vbool b => rfl
      | vnum n => rfl
      | vstr s => rfl
      | varr ys => rfl
  all_goals rfl

theorem numericGroup_writeAfter (item : JSVal) (af : List JSVal)
    (h : numericGroup item) : numericGroup (writeAfter item af) := by
  rw [numericGroup, getField_writeAfter_ne item af "group" (by decide)]
  exact h

theorem writeAfter_obj (fs : JSFields) (af : List JSVal) :
    ∃ gs, writeAfter (.vobj fs) af = .vobj gs := by
  rw [writeAfter]
  rcases hv : getField (.vobj fs) "after" with _ | _ | b | n | s | xs | gs
  case varr => exact ⟨fs.set "after" (.varr (JSList.ofList af)), rfl⟩
  all_goals exact ⟨fs, rfl⟩

theorem applySchemaItem_obj (cfg : SorterConfig) (x : JSVal) :
    ∃ fs, applySchemaItem cfg x = .vobj fs := by
  rw [applySchemaItem]
  by_cases ht : truthy (getField x "virtual") = true
  · rw [if_pos ht]; exact ⟨_, rfl⟩
  · rw [if_neg ht]; exact ⟨_, rfl⟩

theorem mergeVirtualsAux_obj (rest : List JSVal) :
    ∀ (vmap : List (String × JSVal)) (output : List JSVal),
    (∀ o ∈ output, ∃ fs, o = JSVal.vobj fs) →
    (∀ i ∈ rest, ∃ fs, i = JSVal.vobj fs) →
    ∀ o ∈ mergeVirtualsAux vmap output rest, ∃ fs, o = JSVal.vobj fs := by
  induction rest with
  | nil => intro vmap output hout _ o ho; exact hout o ho
  | cons item items ih =>
      intro vmap output hout hin o ho
      rw [mergeVirtualsAux] at ho
      by_cases ht : truthy (getField item "virtual") = true
      · rw [if_pos ht] at ho
        refine ih _ _ ?_ (fun i hi => hin i (List.mem_cons_of_mem item hi)) o ho
        intro o' ho'
        rcases List.mem_map.mp ho' with ⟨o0, ho0, rfl⟩
        rcases hout o0 ho0 with ⟨fs, rfl⟩
        by_cases hname : getField (JSVal.vobj fs) "name" = getField item "name"
        · rw [if_pos hname]; exact ⟨_, rfl⟩
        · rw [if_neg hname]; exact ⟨fs, rfl⟩
      · rw [if_neg ht] at ho
        rcases hv : vmLookup vmap (jsToString (getField item "name")) with _ | v0
        all_goals rw [hv] at ho
        · refine ih _ _ ?_ (fun i hi => hin i (List.mem_cons_of_mem item hi)) o ho
          intro o' ho'
          rcases List.mem_append.mp ho' with h' | h'
          · exact hout o' h'
          · have h2 := List.mem_singleton.mp h'
            subst h2
            exact hin _ (List.mem_cons_self _ _)
        · refine ih _ _ ?_ (fun i hi => hin i (List.mem_cons_of_mem item hi)) o ho
          intro o' ho'
          rcases List.mem_append.mp ho' with h' | h'
          · exact hout o' h'
          · rcases List.mem_singleton.mp h' with rfl
            exact ⟨_, rfl⟩

theorem preSort_obj (cfg : SorterConfig) (items1 : List JSVal) :
    ∀ o ∈ excludeDisabled (mergeVirtuals (applySchema cfg items1)),
      ∃ fs, o = JSVal.vobj fs := by
  intro o ho
  have ho2 := List.mem_of_mem_filter ho
  refine mergeVirtualsAux_obj (applySchema cfg items1) [] [] (by simp) ?_ o ho2
  intro i hi
  rcases List.mem_map.mp hi with ⟨x, _, rfl⟩
  exact applySchemaItem_obj cfg x

/-- C1 counterexample: the claim substitutes the default group only when
the group field is absent and says an explicit numeric group 0 is compared
as 0.  The comparator of the source reads a.group || defaultGroup, so an
explicit group 0 is replaced by the default 500: on
[{name: "a", group: 0}, {name: "b", group: 100}] the output is [b, a],
not ascending in the group order the claim describes (100 before 0). -/
theorem c1_claim_counterexample :
    runList 10 (cfgId 500) [obj [("name", .vstr "a"), ("group", .vnum 0)],
                            obj [("name", .vstr "b"), ("group", .vnum 100)]] =
      some (.ok [obj [("after", arr []), ("before", arr []),
                      ("name", .vstr "b"), ("group", .vnum 100)],
                 obj [("after", arr []), ("before", arr []),
                      ("name", .vstr "a"), ("group", .vnum 0)]]) ∧
    claimGroup 500 (obj [("after", arr []), ("before", arr []),
                         ("name", .vstr "b"), ("group", .vnum 100)]) = 100 ∧
    claimGroup 500 (obj [("after", arr []), ("before", arr []),
                         ("name", .vstr "a"), ("group", .vnum 0)]) = 0 ∧
    ¬ (claimGroup 500 (obj [("after", arr []), ("before", arr []),
                            ("name", .vstr "b"), ("group", .vnum 100)]) ≤
       claimGroup 500 (obj [("after", arr []), ("before", arr []),
                            ("name", .vstr "a"), ("group", .vnum 0)])) := by
  refine ⟨by decide, by decide, by decide, by decide⟩

/-- C1 amended: for every completed run with identity normalize and
finalize, empty schema and integer default group, on items whose surviving
records carry numeric-or-falsy group fields, the returned sequence is the
projection of a decorated list that is strictly ordered by: ascending
effective group, where the default group is substituted exactly when the
group field is falsy (absent, undefined, or an explicit 0), then ascending
constraint order, then ascending original index. -/
theorem c1_output_strictly_ordered (dg : Int) (fuel : Nat)
    (items items1 : List JSVal) (dec : List (JSVal × Int × Nat))
    (hnorm : normalizeItems (cfgId dg) items = .ok items1)
    (hg : ∀ p ∈ excludeDisabled (mergeVirtuals (applySchema (cfgId dg) items1)),
      numericGroup p)
    (hdec : sortedDecoratedF (cfgId dg) fuel
      (excludeDisabled (mergeVirtuals (applySchema (cfgId dg) items1))) = some dec) :
    dec.Pairwise (keyLt dg) ∧
      runList fuel (cfgId dg) items = some (.ok (dec.map (·.1))) := by
  set pre := excludeDisabled (mergeVirtuals (applySchema (cfgId dg) items1)) with hpre
  rw [sortedDecoratedF] at hdec
  simp only [show (cfgId dg).defaultGroup = dg from rfl] at hdec
  rcases Option.map_eq_some'.mp hdec with ⟨r, hr, hdec2⟩
  set base := decorate (writeAfterAll pre r.2) r.1 with hbase
  have hmemClaim : ∀ p ∈ base, numericGroup p.1 ∧ ∃ fs, p.1 = JSVal.vobj fs := by
    intro p hp
    have hp1 := decorate_mem _ _ p hp
    rcases mem_zipWith writeAfter pre r.2 p.1 hp1 with ⟨x, af, hx, _, hxp⟩
    constructor
    · rw [hxp]
      exact numericGroup_writeAfter x af (hg x hx)
    · rcases preSort_obj (cfgId dg) items1 x hx with ⟨fs, rfl⟩
      rw [hxp]
      exact writeAfter_obj fs af
  have hdecMem : ∀ p ∈ dec, numericGroup p.1 ∧ ∃ fs, p.1 = JSVal.vobj fs := by
    intro p hp
    rw [← hdec2] at hp
    exact hmemClaim p ((sortByCmp_perm (cmpItems dg) base).mem_iff.mp hp)
  constructor
  · -- strict ordering of the decorated output
    have hcongr : sortByCmp (cmpItems dg) base = sortByCmp (cmpTriple dg) base := by
      refine sortByCmp_congr _ _ base ?_
      intro a ha b hb
      exact cmpItems_eq_cmpTriple dg a b (hmemClaim a ha).1 (hmemClaim b hb).1
    have hsorted : dec.Pairwise (fun a b => cmpTriple dg a b ≤ 0) := by
      rw [← hdec2, hcongr]
      exact sortByCmp_sorted (cmpTriple dg) (cmpTriple_total dg)
        (fun a b c => cmpTriple_trans dg a b c) base
    have hne : dec.Pairwise (fun a b => a.2.2 ≠ b.2.2) := by
      have hb := decorate_idx_ne (writeAfterAll pre r.2) r.1
      rw [← hbase] at hb
      have hperm := sortByCmp_perm (cmpItems dg) base
      rw [← hdec2]
      exact ((hperm.pairwise_iff (fun hxy => Ne.symm hxy)).mpr hb)
    exact (hsorted.and hne).imp fun h => cmpTriple_strict dg _ _ h.1 h.2
  · -- the run returns exactly the projection of the decorated list
    rw [runList, runF]
    rw [JSList.toList_ofList, hnorm]
    dsimp only
    rw [sortItemsF, sortedDecoratedF, ← hpre, hr]
    dsimp only [Option.map_some']
    simp only [show (cfgId dg).defaultGroup = dg from rfl]
    rw [← hbase, hdec2]
    rw [finalizeItems]
    have hmapid : (dec.map (·.1)).map (cfgId dg).finalize = dec.map (·.1) := by
      rw [show (cfgId dg).finalize = fun v => v from rfl, List.map_id']
    rw [hmapid]
    rw [List.filter_eq_self.mpr]
    intro a ha
    rcases List.mem_map.mp ha with ⟨p, hp, rfl⟩
    rcases (hdecMem p hp).2 with ⟨fs, hfs⟩
    rw [hfs]
    simp

/-- Witness for the amended C1 at a concrete two item input. -/
theorem c1_output_strictly_ordered_witness :
    ([((obj [("after", arr []), ("before", arr []),
        ("name", .vstr "b"), ("group", .vnum 100)] : JSVal), (1000 : Int), 1),
      (obj [("after", arr []), ("before", arr []),
        ("name", .vstr "a"), ("group", .vnum 0)], (0 : Int), 0)].Pairwise (keyLt 500)) ∧
    runList 10 (cfgId 500) [obj [("name", .vstr "a"), ("group", .vnum 0)],
                            obj [("name", .vstr "b"), ("group", .vnum 100)]] =
      some (.ok ([((obj [("after", arr []), ("before", arr []),
        ("name", .vstr "b"), ("group", .vnum 100)] : JSVal), (1000 : Int), 1),
      (obj [("after", arr []), ("before", arr []),
        ("name", .vstr "a"), ("group", .vnum 0)], (0 : Int), 0)].map (·.1))) :=
  c1_output_strictly_ordered 500 10
    [obj [("name", .vstr "a"), ("group", .vnum 0)],
     obj [("name", .vstr "b"), ("group", .vnum 100)]]
    [obj [("name", .vstr "a"), ("group", .vnum 0)],
     obj [("name", .vstr "b"), ("group", .vnum 100)]]
    [((obj [("after", arr []), ("before", arr []),
        ("name", .vstr "b"), ("group", .vnum 100)] : JSVal), (1000 : Int), 1),
      (obj [("after", arr []), ("before", arr []),
        ("name", .vstr "a"), ("group", .vnum 0)], (0 : Int), 0)]
    (by decide)
    (fun p hp => (numericGroupB_iff p).mp (List.all_eq_true.mp (by decide) p hp))
    (by decide)

/-- Witness for C6 at a concrete non array input and at a concrete array
input with a bad normalize result. -/
theorem c6_run_error_iff_witness :
    ((∃ e, (Except.error "Items must be an array" :
        Except String (List JSVal)) = .error e) ↔
      (isArray (JSVal.vnum 3) = false ∨
        ∃ x ∈ arrElems (JSVal.vnum 3), badItem (cfgId 500) x)) ∧
    ((∃ e, (Except.error "Name is required" :
        Except String (List JSVal)) = .error e) ↔
      (isArray (arr [obj [("a", JSVal.vnum 1)]]) = false ∨
        ∃ x ∈ arrElems (arr [obj [("a", JSVal.vnum 1)]]), badItem (cfgId 500) x)) :=
  ⟨c6_run_error_iff (cfgId 500) 5 (JSVal.vnum 3) _ (by decide),
   c6_run_error_iff (cfgId 500) 5 (arr [obj [("a", JSVal.vnum 1)]]) _ (by decide)⟩

/-! ## C4: stability on constraint free inputs

The proof tracks, through every merge of the pipeline, that the group
field stays undefined and the after and before fields stay empty arrays:
then every constraint order is idx * SCALE, all effective groups equal the
default, and the sort leaves the sequence unchanged. -/

/-- Every value stored under the key is undefined. -/
def allUndefAt (fs : JSFields) (k : String) : Prop :=
  ∀ v ∈ fs.keyVals k, v = JSVal.vundef

/-- Every value stored under the key is an empty array. -/
def allNilArrAt (fs : JSFields) (k : String) : Prop :=
  ∀ v ∈ fs.keyVals k, v = JSVal.varr .nil

theorem lookupD_of_allUndef (fs : JSFields) (k : String) (h : allUndefAt fs k) :
    (fs.lookup k).getD .vundef = JSVal.vundef := by
  rcases hl : fs.lookup k with _ | v
  · rfl
  · rw [Option.getD_some]
    exact h v (JSFields.lookup_mem_keyVals fs k v hl)

theorem keyVals_set_self_sub (fs : JSFields) (k : String) (v w : JSVal)
    (h : w ∈ (fs.set k v).keyVals k) : w = v ∨ w ∈ fs.keyVals k := by
  induction fs using JSFields.inductFields with
  | hnil =>
      rw [JSFields.set, JSFields.keyVals, if_pos rfl] at h
      rcases List.mem_cons.mp h with rfl | h2
      · exact Or.inl rfl
      · rw [JSFields.keyVals] at h2; cases h2
  | hcons kk vv rest ih =>
      by_cases hk : kk = k
      · subst hk
        rw [JSFields.set, if_pos rfl, JSFields.keyVals, if_pos rfl] at h
        rw [JSFields.keyVals, if_pos rfl]
        rcases List.mem_cons.mp h with rfl | h2
        · exact Or.inl rfl
        · exact Or.inr (List.mem_cons_of_mem vv h2)
      · rw [JSFields.set, if_neg hk, JSFields.keyVals, if_neg hk] at h
        rw [JSFields.keyVals, if_neg hk]
        exact ih h

theorem mergeFields_cons_eq (des : JSFields) (prop : String) (sv : JSVal)
    (rest : JSFields) :
    mergeFields des (.cons prop sv rest) = mergeFields (mergeProp des prop sv) rest := rfl

theorem allUndefAt_mergeProp (des : JSFields) (prop k : String) (sv : JSVal)
    (hdes : allUndefAt des k) (hsv : prop = k → sv = JSVal.vundef) :
    allUndefAt (mergeProp des prop sv) k := by
  by_cases hk : prop = k
  · subst hk
    rw [hsv rfl, mergeProp, lookupD_of_allUndef des prop hdes]
    intro v hv
    exact hdes v hv
  · intro v hv
    rw [mergeProp_keyVals_ne des prop k sv hk] at hv
    exact hdes v hv

theorem allNilArrAt_mergeProp (des : JSFields) (prop k : String) (sv : JSVal)
    (hdes : allNilArrAt des k)
    (hsv : prop = k → sv = JSVal.vundef ∨ sv = JSVal.varr .nil) :
    allNilArrAt (mergeProp des prop sv) k := by
  by_cases hk : prop = k
  · subst hk
    rcases hsv rfl with rfl | rfl
    · -- undefined source value: nv is undefined, destination unchanged
      rw [mergeProp]
      have hdv : ∀ w, (des.lookup prop).getD .vundef = w →
          mergePropVal w JSVal.vundef = JSVal.vundef := by
        intro w hw
        rcases hl : des.lookup prop with _ | v
        · rw [hl] at hw; rw [← hw]; rfl
        · rw [hl, Option.getD_some] at hw
          have := hdes v (JSFields.lookup_mem_keyVals des prop v hl)
          rw [this] at hw
          rw [← hw]
          rfl
      rw [hdv _ rfl]
      simp only [if_pos rfl]
      exact hdes
    · -- empty array source value: nv is again the empty array
      rw [mergeProp]
      have hnv : mergePropVal ((des.lookup prop).getD .vundef) (JSVal.varr .nil) =
          JSVal.varr .nil := by
        rcases hl : des.lookup prop with _ | v
        · rfl
        · have := hdes v (JSFields.lookup_mem_keyVals des prop v hl)
          subst this
          rfl
      rw [hnv]
      simp only [reduceCtorEq, if_false]
      intro w hw
      rcases keyVals_set_self_sub des prop (JSVal.varr .nil) w hw with rfl | hw2
      · rfl
      · exact hdes w hw2
  · intro v hv
    rw [mergeProp_keyVals_ne des prop k sv hk] at hv
    exact hdes v hv

theorem allUndefAt_mergeFields (src : JSFields) :
    ∀ (des : JSFields) (k : String), allUndefAt des k → allUndefAt src k →
    allUndefAt (mergeFields des src) k := by
  induction src using JSFields.inductFields with
  | hnil => intro des k hdes _; exact hdes
  | hcons prop sv rest ih =>
      intro des k hdes hsrc
      rw [mergeFields_cons_eq]
      refine ih _ k ?_ ?_
      · refine allUndefAt_mergeProp des prop k sv hdes ?_
        intro hk
        subst hk
        refine hsrc sv ?_
        rw [JSFields.keyVals, if_pos rfl]
        exact List.mem_cons_self _ _
      · intro v hv
        refine hsrc v ?_
        rw [JSFields.keyVals]
        by_cases hk2 : prop = k
        · rw [if_pos hk2]; exact List.mem_cons_of_mem sv hv
        · rw [if_neg hk2]; exact hv

theorem allNilArrAt_mergeFields (src : JSFields) :
    ∀ (des : JSFields) (k : String), allNilArrAt des k →
    (∀ v ∈ src.keyVals k, v = JSVal.vundef ∨ v = JSVal.varr .nil) →
    allNilArrAt (mergeFields des src) k := by
  induction src using JSFields.inductFields with
  | hnil => intro des k hdes _; exact hdes
  | hcons prop sv rest ih =>
      intro des k hdes hsrc
      rw [mergeFields_cons_eq]
      refine ih _ k ?_ ?_
      · refine allNilArrAt_mergeProp des prop k sv hdes ?_
        intro hk
        subst hk
        refine hsrc sv ?_
        rw [JSFields.keyVals, if_pos rfl]
        exact List.mem_cons_self _ _
      · intro v hv
        refine hsrc v ?_
        rw [JSFields.keyVals]
        by_cases hk2 : prop = k
        · rw [if_pos hk2]; exact List.mem_cons_of_mem sv hv
        · rw [if_neg hk2]; exact hv

theorem keyVals_eraseKey_ne (fs : JSFields) (k k' : String) (h : k ≠ k') :
    (fs.eraseKey k).keyVals k' = fs.keyVals k' := by
  induction fs using JSFields.inductFields with
  | hnil => rfl
  | hcons kk vv rest ih =>
      by_cases hk : kk = k
      · subst hk
        rw [JSFields.eraseKey, if_pos rfl, JSFields.keyVals, if_neg h, ih]
      · rw [JSFields.eraseKey, if_neg hk, JSFields.keyVals, JSFields.keyVals]
        by_cases hk2 : kk = k'
        · rw [if_pos hk2, if_pos hk2, ih]
        · rw [if_neg hk2, if_neg hk2, ih]

/-- A constraint free record: the group field carries no value, the after
and before fields carry at most an empty array. -/
def TrivItem (v : JSVal) : Prop :=
  ∃ fs, v = JSVal.vobj fs ∧ allUndefAt fs "group" ∧
    allNilArrAt fs "after" ∧ allNilArrAt fs "before"

theorem TrivItem.mergeTwo {o src : JSVal} (ho : TrivItem o) (hs : TrivItem src) :
    TrivItem (PluginSort.merge2 o src) := by
  rcases ho with ⟨fs, rfl, hg, ha, hb⟩
  rcases hs with ⟨gs, rfl, hg2, ha2, hb2⟩
  refine ⟨_, rfl, ?_, ?_, ?_⟩
  · exact allUndefAt_mergeFields gs fs "group" hg hg2
  · exact allNilArrAt_mergeFields gs fs "after" ha (fun v hv => Or.inr (ha2 v hv))
  · exact allNilArrAt_mergeFields gs fs "before" hb (fun v hv => Or.inr (hb2 v hv))

theorem TrivItem.emitMerge {v0 item : JSVal} (hv : TrivItem v0) (hi : TrivItem item) :
    TrivItem (JSVal.vobj (mergeMany .nil [v0, item])) := by
  rcases hv with ⟨fs, rfl, hg, ha, hb⟩
  rcases hi with ⟨gs, rfl, hg2, ha2, hb2⟩
  rw [mergeMany]
  simp only [List.foldl_cons, List.foldl_nil, truthy, if_pos]
  refine ⟨_, rfl, ?_, ?_, ?_⟩
  · exact allUndefAt_mergeFields gs _ "group"
      (allUndefAt_mergeFields fs .nil "group" (by intro v hv; cases hv) hg) hg2
  · refine allNilArrAt_mergeFields gs _ "after" ?_ (fun v hv => Or.inr (ha2 v hv))
    exact allNilArrAt_mergeFields fs .nil "after" (by intro v hv; cases hv)
      (fun v hv => Or.inr (ha v hv))
  · refine allNilArrAt_mergeFields gs _ "before" ?_ (fun v hv => Or.inr (hb2 v hv))
    exact allNilArrAt_mergeFields fs .nil "before" (by intro v hv; cases hv)
      (fun v hv => Or.inr (hb v hv))

theorem TrivItem.omit {item : JSVal} (h : TrivItem item) (k : String)
    (hk1 : k ≠ "group") (hk2 : k ≠ "after") (hk3 : k ≠ "before") :
    TrivItem (omitKey item k) := by
  rcases h with ⟨fs, rfl, hg, ha, hb⟩
  refine ⟨fs.eraseKey k, rfl, ?_, ?_, ?_⟩
  · rw [allUndefAt, keyVals_eraseKey_ne fs k "group" hk1]; exact hg
  · rw [allNilArrAt, keyVals_eraseKey_ne fs k "after" hk2]; exact ha
  · rw [allNilArrAt, keyVals_eraseKey_ne fs k "before" hk3]; exact hb

theorem mergeMany_single (des : JSFields) (item : JSVal) :
    mergeMany des [item] = mergeInto des item := by
  cases item <;>
    simp [mergeMany, mergeInto, List.foldl_cons, List.foldl_nil, truthy]

theorem mergeMany_skip_undef (des : JSFields) (rest : List JSVal) :
    mergeMany des (JSVal.vundef :: rest) = mergeMany des rest := rfl

theorem applySchemaItem_cfgId (dg : Int) (item : JSVal) :
    applySchemaItem (cfgId dg) item = .vobj (mergeInto baseFields item) := by
  rw [applySchemaItem]
  by_cases ht : truthy (getField item "virtual") = true
  · rw [if_pos ht, mergeMany_single]
  · rw [if_neg ht]
    show JSVal.vobj (mergeMany baseFields [.vundef, .vundef, item]) = _
    rw [mergeMany_skip_undef, mergeMany_skip_undef, mergeMany_single]

theorem baseFields_group_keyVals : baseFields.keyVals "group" = [] := rfl

theorem baseFields_after_keyVals :
    baseFields.keyVals "after" = [JSVal.varr .nil] := rfl

theorem baseFields_before_keyVals :
    baseFields.keyVals "before" = [JSVal.varr .nil] := rfl

theorem applySchemaItem_triv (dg : Int) (item : JSVal)
    (h : ∃ fs, item = JSVal.vobj fs ∧ allUndefAt fs "group" ∧
      allUndefAt fs "after" ∧ allUndefAt fs "before") :
    TrivItem (applySchemaItem (cfgId dg) item) := by
  rcases h with ⟨fs, rfl, hg, ha, hb⟩
  rw [applySchemaItem_cfgId]
  rw [show mergeInto baseFields (JSVal.vobj fs) = mergeFields baseFields fs from rfl]
  refine ⟨_, rfl, ?_, ?_, ?_⟩
  · refine allUndefAt_mergeFields fs baseFields "group" ?_ hg
    intro v hv
    rw [baseFields_group_keyVals] at hv
    cases hv
  · refine allNilArrAt_mergeFields fs baseFields "after" ?_
      (fun v hv => Or.inl (ha v hv))
    intro v hv
    rw [baseFields_after_keyVals] at hv
    rcases List.mem_singleton.mp hv with rfl
    rfl
  · refine allNilArrAt_mergeFields fs baseFields "before" ?_
      (fun v hv => Or.inl (hb v hv))
    intro v hv
    rw [baseFields_before_keyVals] at hv
    rcases List.mem_singleton.mp hv with rfl
    rfl

theorem vmSet_mem (vmap : List (String × JSVal)) (key : String) (v : JSVal) :
    ∀ p ∈ vmSet vmap key v, p.2 = v ∨ p ∈ vmap := by
  induction vmap with
  | nil =>
      intro p hp
      rcases List.mem_singleton.mp hp with rfl
      exact Or.inl rfl
  | cons q qs ih =>
      intro p hp
      rw [vmSet] at hp
      by_cases hq : q.1 = key
      · rw [if_pos hq] at hp
        rcases List.mem_cons.mp hp with rfl | hp2
        · exact Or.inl rfl
        · exact Or.inr (List.mem_cons_of_mem q hp2)
      · rw [if_neg hq] at hp
        rcases List.mem_cons.mp hp with rfl | hp2
        · exact Or.inr (List.mem_cons_self _ _)
        · rcases ih p hp2 with h2 | h2
          · exact Or.inl h2
          · exact Or.inr (List.mem_cons_of_mem q h2)

theorem vmLookup_mem (vmap : List (String × JSVal)) (key : String) (v0 : JSVal)
    (h : vmLookup vmap key = some v0) : ∃ q ∈ vmap, q.2 = v0 := by
  induction vmap with
  | nil => cases h
  | cons q qs ih =>
      rw [vmLookup] at h
      by_cases hq : q.1 = key
      · rw [if_pos hq] at h
        injection h with h
        exact ⟨q, List.mem_cons_self q qs, h⟩
      · rw [if_neg hq] at h
        rcases ih h with ⟨r, hr, hr2⟩
        exact ⟨r, List.mem_cons_of_mem q hr, hr2⟩

theorem mergeVirtualsAux_triv (rest : List JSVal) :
    ∀ (vmap : List (String × JSVal)) (output : List JSVal),
    (∀ p ∈ vmap, TrivItem p.2) →
    (∀ o ∈ output, TrivItem o) →
    (∀ i ∈ rest, TrivItem i) →
    ∀ o ∈ mergeVirtualsAux vmap output rest, TrivItem o := by
  induction rest with
  | nil => intro vmap output _ hout _ o ho; exact hout o ho
  | cons item items ih =>
      intro vmap output hvm hout hin o ho
      have hitem : TrivItem item := hin item (List.mem_cons_self item items)
      have hrest : ∀ i ∈ items, TrivItem i :=
        fun i hi => hin i (List.mem_cons_of_mem item hi)
      rw [mergeVirtualsAux] at ho
      by_cases ht : truthy (getField item "virtual") = true
      · rw [if_pos ht] at ho
        have hpatch : TrivItem (omitKey item "virtual") :=
          hitem.omit "virtual" (by decide) (by decide) (by decide)
        refine ih _ _ ?_ ?_ hrest o ho
        · intro p hp
          rcases vmSet_mem vmap _ _ p hp with hpv | hpm
          · rcases hv2 : vmLookup vmap (jsToString (getField item "name")) with _ | v0
            · rw [hv2] at hpv
              rw [hpv]
              exact hpatch
            · rw [hv2] at hpv
              rw [hpv]
              have hv0 : TrivItem v0 := by
                rcases vmLookup_mem vmap _ v0 hv2 with ⟨q, hq, hq2⟩
                rw [← hq2]
                exact hvm q hq
              exact hv0.mergeTwo hpatch
          · exact hvm p hpm
        · intro o2 ho2
          rcases List.mem_map.mp ho2 with ⟨o0, ho0, rfl⟩
          by_cases hname : getField o0 "name" = getField item "name"
          · rw [if_pos hname]
            exact (hout o0 ho0).mergeTwo hpatch
          · rw [if_neg hname]
            exact hout o0 ho0
      · rw [if_neg ht] at ho
        rcases hv : vmLookup vmap (jsToString (getField item "name")) with _ | v0
        all_goals rw [hv] at ho
        · refine ih _ _ hvm ?_ hrest o ho
          intro o2 ho2
          rcases List.mem_append.mp ho2 with h2 | h2
          · exact hout o2 h2
          · have h3 := List.mem_singleton.mp h2
            subst h3
            exact hitem
        · refine ih _ _ hvm ?_ hrest o ho
          intro o2 ho2
          rcases List.mem_append.mp ho2 with h2 | h2
          · exact hout o2 h2
          · have h3 := List.mem_singleton.mp h2
            subst h3
            have hv0 : TrivItem v0 := by
              rcases vmLookup_mem vmap _ v0 hv with ⟨q, hq, hq2⟩
              rw [← hq2]
              exact hvm q hq
            exact hv0.emitMerge hitem

theorem normalizeItems_ok_id (dg : Int) (items : List JSVal)
    (h : ∀ i ∈ items, truthy i = true ∧ isPlainObject i = true ∧
      isString (getField i "name") = true) :
    normalizeItems (cfgId dg) items = .ok items := by
  induction items with
  | nil => rfl
  | cons x rest ih =>
      rcases h x (List.mem_cons_self x rest) with ⟨ht, hp, hs⟩
      rw [normalizeItems]
      rw [show (cfgId dg).normalize x = x from rfl]
      rw [if_pos ht, if_neg (by simp [hp]), if_neg (by simp [hs])]
      rw [ih fun i hi => h i (List.mem_cons_of_mem x hi)]

theorem convertBefore_noop (low : List (String × Nat)) (aft : List (List JSVal))
    (items : List JSVal)
    (h : ∀ item ∈ items, arrElems (getField item "before") = []) :
    convertBefore low aft items = aft := by
  rw [convertBefore]
  induction items generalizing aft with
  | nil => rfl
  | cons x rest ih =>
      rw [List.foldl_cons, h x (List.mem_cons_self x rest)]
      rw [List.foldl_nil]
      exact ih aft fun i hi => h i (List.mem_cons_of_mem x hi)

theorem getD_all_nil (l : List (List JSVal)) (i : Nat)
    (h : ∀ x ∈ l, x = []) : l.getD i [] = [] := by
  rcases hg : l.get? i with _ | x
  · rw [List.getD, hg]; rfl
  · rw [List.getD, hg, Option.getD_some]
    exact h x (List.get?_mem hg)

theorem memo_getD_set_ne (l : Memo) (i j : Nat) (v : Option Int) (h : i ≠ j) :
    (l.set i v).getD j none = l.getD j none := by
  induction l generalizing i j with
  | nil => rfl
  | cons x xs ih =>
      cases i with
      | zero =>
          cases j with
          | zero => exact absurd rfl h
          | succ j2 => rfl
      | succ i2 =>
          cases j with
          | zero => rfl
          | succ j2 =>
              rw [List.set_cons_succ]
              rw [List.getD_cons_succ, List.getD_cons_succ]
              exact ih i2 j2 (fun he => h (by rw [he]))

theorem memo_get?_set_self (l : Memo) (i : Nat) (v : Option Int)
    (h : i < l.length) : (l.set i v).get? i = some v := by
  induction l generalizing i with
  | nil => simp at h
  | cons x xs ih =>
      cases i with
      | zero => rfl
      | succ i2 =>
          rw [List.set_cons_succ, List.get?_cons_succ]
          exact ih i2 (by simpa using h)

theorem memo_get?_set_ne (l : Memo) (i j : Nat) (v : Option Int) (h : i ≠ j) :
    (l.set i v).get? j = l.get? j := by
  induction l generalizing i j with
  | nil => rfl
  | cons x xs ih =>
      cases i with
      | zero =>
          cases j with
          | zero => exact absurd rfl h
          | succ j2 => rfl
      | succ i2 =>
          cases j with
          | zero => rfl
          | succ j2 =>
              rw [List.set_cons_succ, List.get?_cons_succ, List.get?_cons_succ]
              exact ih i2 j2 (fun he => h (by rw [he]))

theorem memo_set_oor (l : Memo) (i : Nat) (v : Option Int)
    (h : l.length ≤ i) : l.set i v = l := by
  induction l generalizing i with
  | nil => rfl
  | cons x xs ih =>
      cases i with
      | zero => simp at h
      | succ i2 =>
          rw [List.set_cons_succ]
          rw [ih i2 (by simpa using h)]

theorem initF_empty (aft : List (List JSVal)) (hi : List (String × Nat))
    (fuel idx : Nat) (memo : Memo)
    (haft : aft.getD idx [] = []) (hcur : memo.getD idx none = none) :
    initF aft hi (fuel + 1) idx memo =
      some ((idx : Int) * CONSTRAINT_SCALE,
        memo.set idx (some ((idx : Int) * CONSTRAINT_SCALE))) := by
  rw [initF]
  rw [hcur]
  rw [show memoTruthy none = false from rfl]
  rw [if_neg (by simp)]
  rw [haft]
  rfl

theorem foldTop_trivial (aft : List (List JSVal)) (hi : List (String × Nat))
    (fuel : Nat) (haft : ∀ idx, aft.getD idx [] = []) :
    ∀ (idxs : List Nat) (memo : Memo),
      (∀ j ∈ idxs, memo.getD j none = none) → idxs.Nodup →
      idxs.foldlM (fun m idx => (initF aft hi (fuel + 1) idx m).map (·.2)) memo =
        some (idxs.foldl (fun (m : Memo) idx =>
          m.set idx (some ((idx : Int) * CONSTRAINT_SCALE))) memo) := by
  intro idxs
  induction idxs with
  | nil => intro memo _ _; rfl
  | cons i rest ih =>
      intro memo hnone hnd
      rw [List.foldlM_cons]
      rw [initF_empty aft hi fuel i memo (haft i) (hnone i (List.mem_cons_self i rest))]
      rw [Option.map_some']
      rw [show ∀ (x : Memo) (g : Memo → Option Memo), (some x >>= g) = g x from
        fun x g => rfl]
      rw [List.foldl_cons]
      refine ih _ ?_ (List.Nodup.of_cons hnd)
      intro j hj
      have hne : i ≠ j := by
        intro he
        subst he
        exact (List.nodup_cons.mp hnd).1 hj
      rw [memo_getD_set_ne memo i j _ hne]
      exact hnone j (List.mem_cons_of_mem i hj)

theorem foldl_set_get? (f : Nat → Option Int) (idxs : List Nat) (memo : Memo)
    (j : Nat) :
    (idxs.foldl (fun (m : Memo) idx => m.set idx (f idx)) memo).get? j =
      if j ∈ idxs ∧ j < memo.length then some (f j) else memo.get? j := by
  induction idxs generalizing memo with
  | nil => simp
  | cons i rest ih =>
      rw [List.foldl_cons, ih]
      rw [List.length_set]
      by_cases hjr : j ∈ rest
      · by_cases hlen : j < memo.length
        · rw [if_pos ⟨hjr, hlen⟩, if_pos ⟨List.mem_cons_of_mem i hjr, hlen⟩]
        · rw [if_neg (fun hc => hlen hc.2), if_neg (fun hc => hlen hc.2)]
          by_cases hij : i = j
          · subst hij
            rw [memo_set_oor memo i _ (Nat.le_of_not_lt hlen)]
          · rw [memo_get?_set_ne memo i j _ hij]
      · rw [if_neg (fun hc => hjr hc.1)]
        by_cases hij : i = j
        · subst hij
          by_cases hlen : i < memo.length
          · rw [if_pos ⟨List.mem_cons_self i rest, hlen⟩]
            exact memo_get?_set_self memo i _ hlen
          · rw [if_neg (fun hc => hlen hc.2)]
            rw [memo_set_oor memo i _ (Nat.le_of_not_lt hlen)]
        · rw [memo_get?_set_ne memo i j _ hij]
          rw [if_neg (fun hc =>
            (List.mem_cons.mp hc.1).elim (fun h2 => hij h2.symm) hjr)]

theorem replicate_getD_none (n j : Nat) :
    (List.replicate n (none : Option Int)).getD j none = none := by
  induction n generalizing j with
  | zero => rfl
  | succ m ih =>
      cases j with
      | zero => rfl
      | succ j2 =>
          rw [List.replicate_succ, List.getD_cons_succ]
          exact ih j2

theorem pairwise_fst_zip {β γ : Type} (R : β → β → Prop) (zs : List β)
    (ns : List γ) (h : zs.Pairwise R) :
    (zs.zip ns).Pairwise (fun a b => R a.1 b.1) := by
  induction zs generalizing ns with
  | nil => simp
  | cons z zs2 ih =>
      cases ns with
      | nil => simp
      | cons n ns2 =>
          rw [List.zip_cons_cons, List.pairwise_cons]
          rw [List.pairwise_cons] at h
          refine ⟨?_, ih ns2 h.2⟩
          intro b hb
          exact h.1 b.1 (List.of_mem_zip hb).1

theorem pairwise_snd_zip {β γ : Type} (R : γ → γ → Prop) (zs : List β)
    (ns : List γ) (h : ns.Pairwise R) :
    (zs.zip ns).Pairwise (fun a b => R a.2 b.2) := by
  induction zs generalizing ns with
  | nil => simp
  | cons z zs2 ih =>
      cases ns with
      | nil => simp
      | cons n ns2 =>
          rw [List.zip_cons_cons, List.pairwise_cons]
          rw [List.pairwise_cons] at h
          refine ⟨?_, ih ns2 h.2⟩
          intro b hb
          exact h.1 b.2 (List.of_mem_zip hb).2

theorem arrElems_lookupD (fs : JSFields) (k : String) (h : allNilArrAt fs k) :
    arrElems ((fs.lookup k).getD .vundef) = [] := by
  rcases hl : fs.lookup k with _ | v
  · rfl
  · have := h v (JSFields.lookup_mem_keyVals fs k v hl)
    subst this
    rfl

theorem TrivItem.after_elems {item : JSVal} (h : TrivItem item) :
    arrElems (getField item "after") = [] := by
  rcases h with ⟨fs, rfl, _, ha, _⟩
  rw [getField]
  exact arrElems_lookupD fs "after" ha

theorem TrivItem.before_elems {item : JSVal} (h : TrivItem item) :
    arrElems (getField item "before") = [] := by
  rcases h with ⟨fs, rfl, _, _, hb⟩
  rw [getField]
  exact arrElems_lookupD fs "before" hb

theorem TrivItem.group_falsy {item : JSVal} (h : TrivItem item) :
    truthy (getField item "group") = false := by
  rcases h with ⟨fs, rfl, hg, _, _⟩
  rw [getField, lookupD_of_allUndef fs "group" hg]
  rfl

theorem set_lookup_self (fs : JSFields) (k : String) (v : JSVal)
    (h : fs.lookup k = some v) : fs.set k v = fs := by
  induction fs using JSFields.inductFields with
  | hnil => cases h
  | hcons kk vv rest ih =>
      by_cases hk : kk = k
      · subst hk
        rw [JSFields.lookup, if_pos rfl] at h
        injection h with h
        rw [JSFields.set, if_pos rfl, h]
      · rw [JSFields.lookup, if_neg hk] at h
        rw [JSFields.set, if_neg hk, ih h]

theorem writeAfter_triv (item : JSVal) (h : TrivItem item) :
    writeAfter item [] = item := by
  rcases h with ⟨fs, rfl, _, ha, _⟩
  rw [writeAfter]
  rcases hl : fs.lookup "after" with _ | v
  · rw [show getField (JSVal.vobj fs) "after" = .vundef from by rw [getField, hl]; rfl]
  · have hv := ha v (JSFields.lookup_mem_keyVals fs "after" v hl)
    subst hv
    rw [show getField (JSVal.vobj fs) "after" = .varr .nil from by
      rw [getField, hl]; rfl]
    rw [setField, show JSList.ofList ([] : List JSVal) = .nil from rfl]
    rw [set_lookup_self fs "after" (.varr .nil) hl]

theorem writeAfterAll_triv (pre : List JSVal) (h : ∀ p ∈ pre, TrivItem p) :
    writeAfterAll pre (pre.map fun item => arrElems (getField item "after")) = pre := by
  induction pre with
  | nil => rfl
  | cons x xs ih =>
      rw [List.map_cons, writeAfterAll, List.zipWith_cons_cons]
      have hx := h x (List.mem_cons_self x xs)
      rw [hx.after_elems, writeAfter_triv x hx]
      rw [show List.zipWith writeAfter xs (xs.map fun item =>
        arrElems (getField item "after")) = writeAfterAll xs _ from rfl]
      rw [ih fun p hp => h p (List.mem_cons_of_mem x hp)]

theorem decorate_map_fst (l : List JSVal) (ords : List Int)
    (h : ords.length = l.length) : (decorate l ords).map (·.1) = l := by
  apply List.ext_getElem
  · simp [decorate, h]
  · intro i h1 h2
    simp [decorate, List.getElem_zip, List.getElem_range]

theorem cmpItems_triv_le (dg : Int) (a b : JSVal × Int × Nat)
    (ha : truthy (getField a.1 "group") = false)
    (hb : truthy (getField b.1 "group") = false)
    (h : a.2.1 < b.2.1) : cmpItems dg a b ≤ 0 := by
  rw [cmpItems]
  simp only [ha, hb, Bool.false_eq_true, if_false]
  rw [if_neg (by simp)]
  rw [if_pos (show ¬ a.2.1 = b.2.1 by omega)]
  omega

theorem finalizeItems_id_of_obj (dg : Int) (l : List JSVal)
    (h : ∀ p ∈ l, ∃ fs, p = JSVal.vobj fs) : finalizeItems (cfgId dg) l = l := by
  rw [finalizeItems]
  rw [show l.map (cfgId dg).finalize = l.map (fun v => v) from rfl, List.map_id']
  rw [List.filter_eq_self.mpr]
  intro a ha
  rcases h a ha with ⟨fs, rfl⟩
  simp

/-- The order table of a constraint free run: idx * SCALE for every
index. -/
def scaleOrders (n : Nat) : List Int :=
  (List.range n).map fun (i : Nat) => (i : Int) * CONSTRAINT_SCALE

theorem scaleOrders_length (n : Nat) : (scaleOrders n).length = n := by
  rw [scaleOrders, List.length_map, List.length_range]

theorem scaleOrders_pairwise (n : Nat) : (scaleOrders n).Pairwise (· < ·) := by
  rw [scaleOrders, List.pairwise_map]
  refine (List.pairwise_lt_range n).imp ?_
  intro i j hij
  rw [CONSTRAINT_SCALE]
  omega

theorem getConstraintOrders_trivial (fuel : Nat) (pre : List JSVal)
    (hTriv : ∀ p ∈ pre, TrivItem p) :
    getConstraintOrdersF (fuel + 1) pre =
      some (scaleOrders pre.length,
        pre.map (fun item => arrElems (getField item "after"))) := by
  rw [getConstraintOrdersF]
  rw [convertBefore_noop _ _ _ (fun item hi => (hTriv item hi).before_elems)]
  have haft : ∀ idx,
      (pre.map fun item => arrElems (getField item "after")).getD idx [] = [] := by
    intro idx
    apply getD_all_nil
    intro x hx
    rcases List.mem_map.mp hx with ⟨p, hp, rfl⟩
    exact (hTriv p hp).after_elems
  rw [ordersTopF]
  rw [foldTop_trivial _ _ fuel haft (List.range pre.length)
    (List.replicate pre.length none)
    (fun j _ => replicate_getD_none pre.length j) (List.nodup_range _)]
  rw [Option.map_some']
  have hmemo : (List.range pre.length).foldl
      (fun (m : Memo) idx => m.set idx (some ((idx : Int) * CONSTRAINT_SCALE)))
      (List.replicate pre.length none) =
      (List.range pre.length).map
        (fun (i : Nat) => (some ((i : Int) * CONSTRAINT_SCALE) : Option Int)) := by
    apply List.ext_get?
    intro j
    rw [foldl_set_get? (fun (i : Nat) => some ((i : Int) * CONSTRAINT_SCALE))
      (List.range pre.length) (List.replicate pre.length none) j]
    rw [List.length_replicate]
    by_cases hj : j < pre.length
    · rw [if_pos ⟨List.mem_range.mpr hj, hj⟩]
      simp [List.get?_eq_getElem?, List.getElem?_map, List.getElem?_range, hj]
    · rw [if_neg (fun hc => hj hc.2)]
      have hle := Nat.le_of_not_lt hj
      have h1 : (List.range pre.length)[j]? = none := by
        rw [List.getElem?_eq_none_iff]
        simpa using hle
      have h2 : (List.replicate pre.length (none : Option Int))[j]? = none := by
        rw [List.getElem?_eq_none_iff]
        simpa using hle
      simp [List.get?_eq_getElem?, List.getElem?_map, h1, h2]
  rw [hmemo]
  rw [List.map_map]
  rfl

theorem sortItems_trivial (dg : Int) (fuel : Nat) (pre : List JSVal)
    (hTriv : ∀ p ∈ pre, TrivItem p) :
    sortItemsF (cfgId dg) (fuel + 1) pre = some pre := by
  rw [sortItemsF, sortedDecoratedF, getConstraintOrders_trivial fuel pre hTriv]
  rw [Option.map_some', Option.map_some']
  rw [writeAfterAll_triv pre hTriv]
  have hdecOrd : (decorate pre (scaleOrders pre.length)).Pairwise
      (fun a b => a.2.1 < b.2.1) := by
    rw [decorate, List.pairwise_map]
    exact pairwise_fst_zip _ _ _ (pairwise_snd_zip _ _ _ (scaleOrders_pairwise _))
  have hsorted : (decorate pre (scaleOrders pre.length)).Pairwise
      (fun a b => cmpItems (cfgId dg).defaultGroup a b ≤ 0) := by
    refine List.Pairwise.imp_of_mem ?_ hdecOrd
    intro a b hamem hbmem hab
    have hTa := hTriv a.1 (decorate_mem _ _ a hamem)
    have hTb := hTriv b.1 (decorate_mem _ _ b hbmem)
    exact cmpItems_triv_le _ a b hTa.group_falsy hTb.group_falsy hab
  rw [sortByCmp_eq_self_of_sorted _ _ hsorted]
  rw [decorate_map_fst pre _ (scaleOrders_length pre.length)]

theorem ordersTop_fuel_zero (aft : List (List JSVal)) (hi : List (String × Nat))
    (n : Nat) (memo : Memo) (h : ordersTopF aft hi 0 n = some memo) : n = 0 := by
  cases n with
  | zero => rfl
  | succ m =>
      rw [ordersTopF, List.range_succ_eq_map, List.foldlM_cons] at h
      rw [show initF aft hi 0 0 (List.replicate (m + 1) none) = none from rfl] at h
      cases h

/-- C4: on an input in which no item carries a group, before, or after
value, a completed run returns the surviving items (after virtual merge
and the disabled filter) in exactly their original relative order: the
sort and finalize stages are the identity. -/
theorem c4_stability (dg : Int) (fuel : Nat) (items out : List JSVal)
    (hyp : ∀ item ∈ items, ∃ fs, item = JSVal.vobj fs ∧
      isString (getField item "name") = true ∧
      allUndefAt fs "group" ∧ allUndefAt fs "after" ∧ allUndefAt fs "before")
    (hrun : runList fuel (cfgId dg) items = some (.ok out)) :
    out = excludeDisabled (mergeVirtuals (applySchema (cfgId dg) items)) := by
  set pre := excludeDisabled (mergeVirtuals (applySchema (cfgId dg) items)) with hpre
  have hTriv0 : ∀ i ∈ applySchema (cfgId dg) items, TrivItem i := by
    intro i hi
    rcases List.mem_map.mp hi with ⟨x, hx, rfl⟩
    refine applySchemaItem_triv dg x ?_
    rcases hyp x hx with ⟨fs, rfl, _, hg, ha, hb⟩
    exact ⟨fs, rfl, hg, ha, hb⟩
  have hTrivM : ∀ o ∈ mergeVirtuals (applySchema (cfgId dg) items), TrivItem o :=
    mergeVirtualsAux_triv _ [] [] (by simp) (by simp) hTriv0
  have hTriv : ∀ p ∈ pre, TrivItem p :=
    fun p hp => hTrivM p (List.mem_of_mem_filter hp)
  have hObj : ∀ p ∈ pre, ∃ fs, p = JSVal.vobj fs := by
    intro p hp
    rcases hTriv p hp with ⟨fs, rfl, _⟩
    exact ⟨fs, rfl⟩
  have hid : normalizeItems (cfgId dg) items = .ok items := by
    refine normalizeItems_ok_id dg items ?_
    intro i hi
    rcases hyp i hi with ⟨fs, rfl, hs, _⟩
    exact ⟨rfl, rfl, hs⟩
  rw [runList, runF, JSList.toList_ofList, hid] at hrun
  dsimp only at hrun
  rw [← hpre] at hrun
  cases fuel with
  | zero =>
      rcases hs : sortItemsF (cfgId dg) 0 pre with _ | sorted
      · rw [hs] at hrun; cases hrun
      · rw [hs] at hrun
        dsimp only at hrun
        have hchain := hs
        rw [sortItemsF] at hchain
        rcases Option.map_eq_some'.mp hchain with ⟨dec, hdec, hdec2⟩
        rw [sortedDecoratedF] at hdec
        rcases Option.map_eq_some'.mp hdec with ⟨r, hr, hr2⟩
        rw [getConstraintOrdersF] at hr
        rcases Option.map_eq_some'.mp hr with ⟨memo, hmemo, hmemo2⟩
        have hn0 : pre.length = 0 := ordersTop_fuel_zero _ _ _ _ hmemo
        have hpre0 : pre = [] := List.length_eq_zero.mp hn0
        rw [hpre0] at hs
        have hs0 : sortItemsF (cfgId dg) 0 ([] : List JSVal) = some [] := rfl
        rw [hs0] at hs
        injection hs with hs
        subst hs
        injection hrun with hrun
        injection hrun with hrun
        rw [← hrun, hpre0]
        rfl
  | succ f =>
      rw [sortItems_trivial dg f pre hTriv] at hrun
      dsimp only at hrun
      injection hrun with hrun
      injection hrun with hrun
      rw [← hrun, finalizeItems_id_of_obj dg pre hObj]

/-- Every key value list equal to nil is trivially all undefined. -/
theorem allUndefAt_of_keyVals_nil (fs : JSFields) (k : String)
    (h : fs.keyVals k = []) : allUndefAt fs k := by
  intro v hv
  rw [h] at hv
  cases hv

/-- Witness for C4 at a concrete three item input with a disabled middle
item: the surviving items keep their original relative order. -/
theorem c4_stability_witness :
    runList 5 (cfgId 500)
      [obj [("name", .vstr "p1")],
       obj [("name", .vstr "p2"), ("disable", .vbool true)],
       obj [("name", .vstr "p3")]] =
      some (.ok (excludeDisabled (mergeVirtuals (applySchema (cfgId 500)
        [obj [("name", .vstr "p1")],
         obj [("name", .vstr "p2"), ("disable", .vbool true)],
         obj [("name", .vstr "p3")]])))) := by
  have hout := c4_stability 500 5
    [obj [("name", .vstr "p1")],
     obj [("name", .vstr "p2"), ("disable", .vbool true)],
     obj [("name", .vstr "p3")]]
    [obj [("after", arr []), ("before", arr []), ("name", .vstr "p1")],
     obj [("after", arr []), ("before", arr []), ("name", .vstr "p3")]]
    ?hyp ?hrun
  case hyp =>
    intro item hi
    simp only [List.mem_cons, List.not_mem_nil, or_false] at hi
    rcases hi with rfl | rfl | rfl
    · exact ⟨_, rfl, rfl, allUndefAt_of_keyVals_nil _ _ (by decide),
        allUndefAt_of_keyVals_nil _ _ (by decide),
        allUndefAt_of_keyVals_nil _ _ (by decide)⟩
    · exact ⟨_, rfl, rfl, allUndefAt_of_keyVals_nil _ _ (by decide),
        allUndefAt_of_keyVals_nil _ _ (by decide),
        allUndefAt_of_keyVals_nil _ _ (by decide)⟩
    · exact ⟨_, rfl, rfl, allUndefAt_of_keyVals_nil _ _ (by decide),
        allUndefAt_of_keyVals_nil _ _ (by decide),
        allUndefAt_of_keyVals_nil _ _ (by decide)⟩
  case hrun => decide
  decide

/-! ## C5: virtual merge

Names are strings (checked by normalize); the proofs track the single
string valued name key of every record through the merges. -/

theorem keyVals_single_lookup (fs : JSFields) (k : String) (v : JSVal)
    (h : fs.keyVals k = [v]) : fs.lookup k = some v := by
  induction fs using JSFields.inductFields with
  | hnil => cases h
  | hcons kk vv rest ih =>
      by_cases hk : kk = k
      · subst hk
        rw [JSFields.keyVals, if_pos rfl] at h
        injection h with h1 h2
        rw [JSFields.lookup, if_pos rfl, h1]
      · rw [JSFields.keyVals, if_neg hk] at h
        rw [JSFields.lookup, if_neg hk]
        exact ih h

theorem keyVals_set_of_nil (fs : JSFields) (k : String) (v : JSVal)
    (h : fs.keyVals k = []) : (fs.set k v).keyVals k = [v] := by
  induction fs using JSFields.inductFields with
  | hnil => rw [JSFields.set, JSFields.keyVals, if_pos rfl, JSFields.keyVals]
  | hcons kk vv rest ih =>
      by_cases hk : kk = k
      · subst hk
        rw [JSFields.keyVals, if_pos rfl] at h
        cases h
      · rw [JSFields.keyVals, if_neg hk] at h
        rw [JSFields.set, if_neg hk, JSFields.keyVals, if_neg hk]
        exact ih h

theorem keyVals_set_of_single (fs : JSFields) (k : String) (v0 v : JSVal)
    (h : fs.keyVals k = [v0]) : (fs.set k v).keyVals k = [v] := by
  induction fs using JSFields.inductFields with
  | hnil => cases h
  | hcons kk vv rest ih =>
      by_cases hk : kk = k
      · subst hk
        rw [JSFields.keyVals, if_pos rfl] at h
        injection h with h1 h2
        rw [JSFields.set, if_pos rfl, JSFields.keyVals, if_pos rfl]
        rw [h2]
      · rw [JSFields.keyVals, if_neg hk] at h
        rw [JSFields.set, if_neg hk, JSFields.keyVals, if_neg hk]
        exact ih h

theorem merge_keyVals_none (src : JSFields) :
    ∀ (des : JSFields) (k : String), src.keyVals k = [] →
    (mergeFields des src).keyVals k = des.keyVals k := by
  induction src using JSFields.inductFields with
  | hnil => intro des k _; rfl
  | hcons prop sv rest ih =>
      intro des k h
      by_cases hk : prop = k
      · subst hk
        rw [JSFields.keyVals, if_pos rfl] at h
        cases h
      · rw [JSFields.keyVals, if_neg hk] at h
        rw [mergeFields_cons_eq, ih _ k h, mergeProp_keyVals_ne des prop k sv hk]

/-- The key holds no value or a single string. -/
def StrKeyAt (fs : JSFields) (k : String) : Prop :=
  fs.keyVals k = [] ∨ ∃ t, fs.keyVals k = [JSVal.vstr t]

theorem merge_keyVals_str (src : JSFields) :
    ∀ (des : JSFields) (k : String) (s : String), StrKeyAt des k →
    src.keyVals k = [JSVal.vstr s] →
    (mergeFields des src).keyVals k = [JSVal.vstr s] := by
  induction src using JSFields.inductFields with
  | hnil => intro des k s _ h; cases h
  | hcons prop sv rest ih =>
      intro des k s hdes hsrc
      by_cases hk : prop = k
      · subst hk
        rw [JSFields.keyVals, if_pos rfl] at hsrc
        injection hsrc with h1 h2
        subst h1
        rw [mergeFields_cons_eq, merge_keyVals_none rest _ prop h2]
        rcases hdes with hnil | ⟨t, ht⟩
        · rw [mergeProp, lookupD_of_allUndef des prop ?_]
          · rw [show mergePropVal JSVal.vundef (JSVal.vstr s) = JSVal.vstr s from rfl]
            rw [if_neg (by simp)]
            exact keyVals_set_of_nil des prop _ hnil
          · intro v hv
            rw [hnil] at hv
            cases hv
        · rw [mergeProp, keyVals_single_lookup des prop _ ht, Option.getD_some]
          rw [show mergePropVal (JSVal.vstr t) (JSVal.vstr s) = JSVal.vstr s from rfl]
          rw [if_neg (by simp)]
          exact keyVals_set_of_single des prop _ _ ht
      · rw [JSFields.keyVals, if_neg hk] at hsrc
        rw [mergeFields_cons_eq]
        refine ih _ k s ?_ hsrc
        rw [StrKeyAt, mergeProp_keyVals_ne des prop k sv hk]
        exact hdes

/-- An item that is an object with a single string valued name key. -/
def NamedStr (item : JSVal) (s : String) : Prop :=
  ∃ fs, item = JSVal.vobj fs ∧ fs.keyVals "name" = [JSVal.vstr s]

theorem NamedStr.nameField {item : JSVal} {s : String} (h : NamedStr item s) :
    getField item "name" = .vstr s := by
  rcases h with ⟨fs, rfl, hk⟩
  rw [getField, keyVals_single_lookup fs "name" _ hk, Option.getD_some]

theorem NamedStr.strKey {item : JSVal} {s : String} (h : NamedStr item s) :
    ∃ fs, item = JSVal.vobj fs ∧ StrKeyAt fs "name" := by
  rcases h with ⟨fs, rfl, hk⟩
  exact ⟨fs, rfl, Or.inr ⟨s, hk⟩⟩

theorem NamedStr.mergeTwoNamed {o p : JSVal} {t s : String} (ho : NamedStr o t)
    (hp : NamedStr p s) : NamedStr (PluginSort.merge2 o p) s := by
  rcases ho with ⟨fs, rfl, hk⟩
  rcases hp with ⟨gs, rfl, hk2⟩
  rw [PluginSort.merge2, mergeMany_single]
  exact ⟨_, rfl, merge_keyVals_str gs fs "name" s (Or.inr ⟨t, hk⟩) hk2⟩

theorem NamedStr.emitMergeNamed {v0 item : JSVal} {t s : String} (hv : NamedStr v0 t)
    (hi : NamedStr item s) : NamedStr (JSVal.vobj (mergeMany .nil [v0, item])) s := by
  rcases hv with ⟨fs, rfl, hk⟩
  rcases hi with ⟨gs, rfl, hk2⟩
  rw [show mergeMany .nil [JSVal.vobj fs, JSVal.vobj gs] =
    mergeFields (mergeFields .nil fs) gs from rfl]
  refine ⟨_, rfl, merge_keyVals_str gs _ "name" s ?_ hk2⟩
  rcases hs : fs.keyVals "name" with _ | ⟨v, rest⟩
  · left
    rw [merge_keyVals_none fs .nil "name" hs]
    rfl
  · rw [hs] at hk
    injection hk with h1 h2
    subst h1 h2
    exact Or.inr ⟨t, merge_keyVals_str fs .nil "name" t (Or.inl rfl) hs⟩

theorem NamedStr.omitVirtual {item : JSVal} {s : String} (h : NamedStr item s) :
    NamedStr (omitKey item "virtual") s := by
  rcases h with ⟨fs, rfl, hk⟩
  rw [omitKey]
  exact ⟨_, rfl, by rw [keyVals_eraseKey_ne fs "virtual" "name" (by decide)]; exact hk⟩

theorem mergeVirtualsAux_name_avoid (n : String) (rest : List JSVal) :
    ∀ (vmap : List (String × JSVal)) (output : List JSVal),
    (∀ p ∈ vmap, ∃ s, NamedStr p.2 s) →
    (∀ o ∈ output, ∃ s, NamedStr o s ∧ s ≠ n) →
    (∀ i ∈ rest, (∃ s, NamedStr i s) ∧
      (getField i "name" = .vstr n → truthy (getField i "virtual") = true)) →
    ∀ o ∈ mergeVirtualsAux vmap output rest, ∃ s, NamedStr o s ∧ s ≠ n := by
  induction rest with
  | nil => intro vmap output _ hout _ o ho; exact hout o ho
  | cons item items ih =>
      intro vmap output hvm hout hin o ho
      rcases hin item (List.mem_cons_self item items) with ⟨⟨sI, hI⟩, himp⟩
      have hrest : ∀ i ∈ items, (∃ s, NamedStr i s) ∧
          (getField i "name" = .vstr n → truthy (getField i "virtual") = true) :=
        fun i hi => hin i (List.mem_cons_of_mem item hi)
      rw [mergeVirtualsAux] at ho
      by_cases ht : truthy (getField item "virtual") = true
      · rw [if_pos ht] at ho
        have hpatch : NamedStr (omitKey item "virtual") sI := hI.omitVirtual
        refine ih _ _ ?_ ?_ hrest o ho
        · intro p hp
          rcases vmSet_mem vmap _ _ p hp with hpv | hpm
          · rcases hv2 : vmLookup vmap (jsToString (getField item "name")) with _ | v0
            · rw [hv2] at hpv
              rw [hpv]
              exact ⟨sI, hpatch⟩
            · rw [hv2] at hpv
              rw [hpv]
              rcases vmLookup_mem vmap _ v0 hv2 with ⟨q, hq, hq2⟩
              rcases hvm q hq with ⟨t, hqn⟩
              rw [hq2] at hqn
              exact ⟨sI, hqn.mergeTwoNamed hpatch⟩
          · exact hvm p hpm
        · intro o2 ho2
          rcases List.mem_map.mp ho2 with ⟨o0, ho0, rfl⟩
          rcases hout o0 ho0 with ⟨sO, hO, hOn⟩
          by_cases hname : getField o0 "name" = getField item "name"
          · rw [if_pos hname]
            have : sO = sI := by
              rw [hO.nameField, hI.nameField] at hname
              injection hname
            refine ⟨sI, hO.mergeTwoNamed hpatch, ?_⟩
            rw [← this]
            exact hOn
          · rw [if_neg hname]
            exact ⟨sO, hO, hOn⟩
      · rw [if_neg ht] at ho
        have hsIn : sI ≠ n := by
          intro he
          subst he
          exact ht (himp hI.nameField)
        rcases hv : vmLookup vmap (jsToString (getField item "name")) with _ | v0
        all_goals rw [hv] at ho
        · refine ih _ _ hvm ?_ hrest o ho
          intro o2 ho2
          rcases List.mem_append.mp ho2 with h2 | h2
          · exact hout o2 h2
          · have h3 := List.mem_singleton.mp h2
            subst h3
            exact ⟨sI, hI, hsIn⟩
        · refine ih _ _ hvm ?_ hrest o ho
          intro o2 ho2
          rcases List.mem_append.mp ho2 with h2 | h2
          · exact hout o2 h2
          · have h3 := List.mem_singleton.mp h2
            subst h3
            rcases vmLookup_mem vmap _ v0 hv with ⟨q, hq, hq2⟩
            rcases hvm q hq with ⟨t, hqn⟩
            rw [hq2] at hqn
            exact ⟨sI, hqn.emitMergeNamed hI, hsIn⟩

/-- Copying a single valued source key into a destination without the key:
the value stored is mergePropVal applied at an undefined destination
slot. -/
theorem merge_keyVals_copy (src : JSFields) :
    ∀ (des : JSFields) (k : String) (v : JSVal), des.keyVals k = [] →
    src.keyVals k = [v] → v ≠ JSVal.vundef →
    (mergeFields des src).keyVals k = [mergePropVal .vundef v] := by
  induction src using JSFields.inductFields with
  | hnil => intro des k v _ h _; cases h
  | hcons prop sv rest ih =>
      intro des k v hdes hsrc hv
      by_cases hk : prop = k
      · subst hk
        rw [JSFields.keyVals, if_pos rfl] at hsrc
        injection hsrc with h1 h2
        subst h1
        rw [mergeFields_cons_eq, merge_keyVals_none rest _ prop h2]
        have hlk : (des.lookup prop).getD .vundef = JSVal.vundef :=
          lookupD_of_allUndef des prop (allUndefAt_of_keyVals_nil des prop hdes)
        rw [mergeProp, hlk]
        rw [if_neg ?ne]
        case ne =>
          cases sv with
          | vundef => exact absurd rfl hv
          | vnull => decide
          | vbool b => intro hc; cases hc
          | vnum m => intro hc; cases hc
          | vstr t => intro hc; cases hc
          | varr ss => intro hc; cases hc
          | vobj gs => intro hc; cases hc
        exact keyVals_set_of_nil des prop _ hdes
      · rw [JSFields.keyVals, if_neg hk] at hsrc
        rw [mergeFields_cons_eq]
        refine ih _ k v ?_ hsrc hv
        rw [mergeProp_keyVals_ne des prop k sv hk]
        exact hdes

/-- The copied value keeps the truthiness of the source value (a plain
object is deep copied, everything else is taken as is). -/
theorem truthy_mergePropVal_undef (v : JSVal) (h : v ≠ JSVal.vundef) :
    truthy (mergePropVal .vundef v) = truthy v := by
  cases v with
  | vundef => exact absurd rfl h
  | vnull => rfl
  | vbool b => rfl
  | vnum m => rfl
  | vstr t => rfl
  | varr ss => rfl
  | vobj gs => rfl

/-- _applySchema with the trivial schema keeps a single valued string name
and the truthiness of a single valued virtual marker. -/
theorem applySchemaItem_name (dg : Int) (fs : JSFields) (s : String)
    (h : fs.keyVals "name" = [JSVal.vstr s]) :
    ∃ gs, applySchemaItem (cfgId dg) (JSVal.vobj fs) = JSVal.vobj gs ∧
      gs.keyVals "name" = [JSVal.vstr s] ∧
      ∀ v, fs.keyVals "virtual" = [v] → truthy v = true →
        truthy (getField (JSVal.vobj gs) "virtual") = true := by
  rw [applySchemaItem_cfgId]
  rw [show mergeInto baseFields (JSVal.vobj fs) = mergeFields baseFields fs from rfl]
  refine ⟨_, rfl, merge_keyVals_str fs baseFields "name" s (Or.inl rfl) h, ?_⟩
  intro v hv htr
  have hne : v ≠ JSVal.vundef := by
    intro he
    subst he
    cases htr
  have hc := merge_keyVals_copy fs baseFields "virtual" v rfl hv hne
  rw [getField, keyVals_single_lookup _ _ _ hc, Option.getD_some]
  rw [truthy_mergePropVal_undef v hne]
  exact htr

/-- Pipeline elimination for completed identity-config runs: every output
item agrees, at every field other than the written back after array, with
some item of the pre-sort stage excludeDisabled(mergeVirtuals(applySchema(..))). -/
theorem runId_out_names (dg : Int) (fuel : Nat) (items out : List JSVal)
    (hrun : runList fuel (cfgId dg) items = some (.ok out)) :
    ∃ items1, normalizeItems (cfgId dg) items = .ok items1 ∧
      ∀ o ∈ out, ∃ x ∈ excludeDisabled (mergeVirtuals (applySchema (cfgId dg) items1)),
        ∀ k, "after" ≠ k → getField o k = getField x k := by
  rw [runList, runF, JSList.toList_ofList] at hrun
  rcases hN : normalizeItems (cfgId dg) items with e | items1
  · rw [hN] at hrun
    injection hrun with h1
    cases h1
  · rw [hN] at hrun
    dsimp only at hrun
    set pre := excludeDisabled (mergeVirtuals (applySchema (cfgId dg) items1)) with hpre
    rcases hs : sortItemsF (cfgId dg) fuel pre with _ | items5
    · rw [hs] at hrun
      cases hrun
    · rw [hs] at hrun
      dsimp only at hrun
      injection hrun with h1
      injection h1 with h2
      refine ⟨items1, rfl, ?_⟩
      intro o ho
      rw [← h2] at ho
      have ho5 : o ∈ items5 := by
        rw [finalizeItems] at ho
        rcases List.mem_filter.mp ho with ⟨hmem, _⟩
        rw [show items5.map (cfgId dg).finalize = items5.map (fun v => v) from rfl,
          List.map_id'] at hmem
        exact hmem
      have hchain := hs
      rw [sortItemsF] at hchain
      rcases Option.map_eq_some'.mp hchain with ⟨dec, hdec, hdec2⟩
      rw [sortedDecoratedF] at hdec
      rcases Option.map_eq_some'.mp hdec with ⟨r, hr, hr2⟩
      rw [← hdec2] at ho5
      rcases List.mem_map.mp ho5 with ⟨p, hp, rfl⟩
      rw [← hr2] at hp
      have hp2 : p ∈ decorate (writeAfterAll pre r.2) r.1 :=
        (sortByCmp_perm _ _).mem_iff.mp hp
      have hp3 : p.1 ∈ writeAfterAll pre r.2 := decorate_mem _ _ _ hp2
      rw [writeAfterAll] at hp3
      rcases mem_zipWith _ _ _ _ hp3 with ⟨x, af, hx, haf, heq⟩
      refine ⟨x, hx, ?_⟩
      intro k hk
      rw [heq]
      exact getField_writeAfter_ne x af k hk

/-! ## C5: the concrete two ordering scenario -/

/-- The real item {name: x, a: 1}. -/
def c5real : JSVal := obj [("name", .vstr "x"), ("a", .vnum 1)]

/-- The virtual item {name: x, virtual: true, b: 2}. -/
def c5virtual : JSVal := obj [("name", .vstr "x"), ("virtual", .vbool true), ("b", .vnum 2)]

/-- run() with the virtual item after the real item. -/
def c5outRV : Option (Except String (List JSVal)) :=
  runList 10 (cfgId 500) [c5real, c5virtual]

/-- run() with the virtual item before the real item. -/
def c5outVR : Option (Except String (List JSVal)) :=
  runList 10 (cfgId 500) [c5virtual, c5real]

/-- The single output of the real-then-virtual run. -/
def c5itemRV : JSVal :=
  obj [("after", arr []), ("before", arr []), ("name", .vstr "x"),
       ("a", .vnum 1), ("b", .vnum 2)]

/-- The single output of the virtual-then-real run. -/
def c5itemVR : JSVal :=
  obj [("after", arr []), ("before", arr []), ("name", .vstr "x"),
       ("b", .vnum 2), ("a", .vnum 1)]

/-- Equality of two records up to the order of their keys: the key
multisets agree and every key reads the same value on both sides (the
notion of object identity JavaScript deep equality uses, since key
enumeration order is not part of it). -/
def sameRecordB (u v : JSVal) : Bool :=
  match u, v with
  | .vobj fs, .vobj gs =>
      fs.keysOf.isPerm gs.keysOf &&
        fs.keysOf.all (fun k => fs.lookup k == gs.lookup k) &&
        gs.keysOf.all (fun k => fs.lookup k == gs.lookup k)
  | _, _ => false

/-- C5: virtual merge.  General part: under the identity configuration,
for well formed inputs (every item an object whose name key holds one
string) in which every item named n is virtual (its single virtual marker
is truthy), no completed run emits an item named n — virtual only names
never appear in the output.  Concrete part: with the real item
{name: x, a: 1} and the virtual item {name: x, virtual: true, b: 2}, both
orderings return exactly one item, carrying name x, a: 1 and b: 2, and the
two outputs are the same record up to key order (they differ in key order:
a before b in one, b before a in the other, so literal equality fails but
JavaScript deep equality holds). -/
theorem c5_virtual_merge (dg : Int) (n : String) (fuel : Nat)
    (items out : List JSVal)
    (hwf : ∀ i ∈ items, ∃ fs s, i = JSVal.vobj fs ∧
      fs.keyVals "name" = [JSVal.vstr s])
    (hvirt : ∀ i ∈ items, getField i "name" = .vstr n →
      ∃ fs v, i = JSVal.vobj fs ∧ fs.keyVals "virtual" = [v] ∧ truthy v = true)
    (hrun : runList fuel (cfgId dg) items = some (.ok out)) :
    (∀ o ∈ out, getField o "name" ≠ .vstr n) ∧
    c5outRV = some (.ok [c5itemRV]) ∧ c5outVR = some (.ok [c5itemVR]) ∧
    getField c5itemRV "name" = .vstr "x" ∧
    getField c5itemRV "a" = .vnum 1 ∧ getField c5itemRV "b" = .vnum 2 ∧
    sameRecordB c5itemRV c5itemVR = true := by
  refine ⟨?_, by decide, by decide, by decide, by decide, by decide, by decide⟩
  have hid : normalizeItems (cfgId dg) items = .ok items := by
    refine normalizeItems_ok_id dg items ?_
    intro i hi
    rcases hwf i hi with ⟨fs, s, rfl, hk⟩
    refine ⟨rfl, rfl, ?_⟩
    rw [getField, keyVals_single_lookup fs "name" _ hk, Option.getD_some]
    rfl
  rcases runId_out_names dg fuel items out hrun with ⟨items1, hN, hout⟩
  rw [hid] at hN
  injection hN with hN
  subst hN
  have hin : ∀ i ∈ applySchema (cfgId dg) items, (∃ s, NamedStr i s) ∧
      (getField i "name" = .vstr n → truthy (getField i "virtual") = true) := by
    intro i hi
    rcases List.mem_map.mp hi with ⟨x0, hx0, rfl⟩
    rcases hwf x0 hx0 with ⟨fs, s, rfl, hk⟩
    rcases applySchemaItem_name dg fs s hk with ⟨gs, heq, hgname, hgvirt⟩
    rw [heq]
    refine ⟨⟨s, gs, rfl, hgname⟩, ?_⟩
    intro hname
    rw [getField, keyVals_single_lookup gs "name" _ hgname, Option.getD_some] at hname
    injection hname with hsn
    subst hsn
    rcases hvirt (JSVal.vobj fs) hx0
        (by rw [getField, keyVals_single_lookup fs "name" _ hk, Option.getD_some]) with
      ⟨fs2, v, heq2, hkv, htv⟩
    injection heq2 with heq2
    subst heq2
    exact hgvirt v hkv htv
  intro o ho
  rcases hout o ho with ⟨x, hx, hall⟩
  have hname : getField o "name" = getField x "name" := hall "name" (by decide)
  have hxm : x ∈ mergeVirtuals (applySchema (cfgId dg) items) :=
    List.mem_of_mem_filter hx
  rcases mergeVirtualsAux_name_avoid n (applySchema (cfgId dg) items) [] []
      (by intro p hp; cases hp) (by intro q hq; cases hq) hin x hxm with
    ⟨s, hNs, hsn⟩
  rw [hname, hNs.nameField]
  intro hc
  injection hc with hc
  exact hsn hc

/-- Witness for C5 at a concrete input with a real item p and a virtual
only name ghost: the completed run never emits an item named ghost. -/
theorem c5_virtual_merge_witness :
    (∀ o ∈ [obj [("after", arr []), ("before", arr []), ("name", .vstr "p")]],
      getField o "name" ≠ JSVal.vstr "ghost") ∧
    c5outRV = some (.ok [c5itemRV]) ∧ c5outVR = some (.ok [c5itemVR]) ∧
    getField c5itemRV "name" = .vstr "x" ∧
    getField c5itemRV "a" = .vnum 1 ∧ getField c5itemRV "b" = .vnum 2 ∧
    sameRecordB c5itemRV c5itemVR = true := by
  refine c5_virtual_merge 500 "ghost" 10
    [obj [("name", .vstr "p")],
     obj [("name", .vstr "ghost"), ("virtual", .vbool true)]]
    [obj [("after", arr []), ("before", arr []), ("name", .vstr "p")]]
    ?_ ?_ (by decide)
  · intro i hi
    rcases List.mem_cons.mp hi with rfl | hi2
    · exact ⟨_, "p", rfl, by decide⟩
    · have h3 := List.mem_singleton.mp hi2
      subst h3
      exact ⟨_, "ghost", rfl, by decide⟩
  · intro i hi hname
    rcases List.mem_cons.mp hi with rfl | hi2
    · exact absurd hname (by decide)
    · have h3 := List.mem_singleton.mp hi2
      subst h3
      exact ⟨_, .vbool true, rfl, by decide, rfl⟩

/-! ## C10: conflict direction of the virtual merge -/

/-- A scalar value for the merge (neither an array nor a plain object; not
undefined, which the merge skips). -/
def scalarB : JSVal → Bool
  | .vundef => false
  | .varr _ => false
  | .vobj _ => false
  | _ => true

theorem scalarB_ne_undef (v : JSVal) (h : scalarB v = true) : v ≠ JSVal.vundef := by
  intro he
  subst he
  cases h

/-- The OTHER branch of _merge: a scalar source value overwrites a scalar
or absent destination slot. -/
theorem mergePropVal_scalar (d v : JSVal) (hd : d = .vundef ∨ scalarB d = true)
    (hv : scalarB v = true) : mergePropVal d v = v := by
  rcases hd with rfl | hd
  · cases v <;> simp [scalarB] at hv <;> rfl
  · cases v <;> simp [scalarB] at hv <;> cases d <;> simp [scalarB] at hd <;> rfl

/-- A real item carrying one extra field f. -/
def c10real (n f : String) (v : JSVal) : JSVal :=
  .vobj (.cons "name" (.vstr n) (.cons f v .nil))

/-- A virtual item of the same name carrying the same extra field f. -/
def c10virtual (n f : String) (w : JSVal) : JSVal :=
  .vobj (.cons "name" (.vstr n) (.cons "virtual" (.vbool true) (.cons f w .nil)))

/-- C10: conflict resolution between a virtual item and a same named real
item depends on the input order.  Virtual first: the real item is emitted
as a fresh merge with the virtual patch underneath, so the real value v
wins at the conflicting scalar field f.  Virtual second: the patch is
merged retroactively on top of the already emitted real item, so the
virtual value w wins.  Stated for every name, every field f distinct from
the name and virtual keys, and every pair of scalar values; the last two
conjuncts replay the two directions through the whole run() pipeline at a
concrete instance (field opt, real value 1, virtual value 2). -/
theorem c10_conflict_direction (n f : String) (v w : JSVal)
    (hf1 : f ≠ "name") (hf2 : f ≠ "virtual")
    (hv : scalarB v = true) (hw : scalarB w = true) :
    mergeVirtuals [c10virtual n f w, c10real n f v] =
      [.vobj (.cons "name" (.vstr n) (.cons f v .nil))] ∧
    mergeVirtuals [c10real n f v, c10virtual n f w] =
      [.vobj (.cons "name" (.vstr n) (.cons f w .nil))] ∧
    runList 10 (cfgId 500) [c10virtual "x" "opt" (.vnum 2), c10real "x" "opt" (.vnum 1)] =
      some (.ok [obj [("after", arr []), ("before", arr []),
        ("name", .vstr "x"), ("opt", .vnum 1)]]) ∧
    runList 10 (cfgId 500) [c10real "x" "opt" (.vnum 1), c10virtual "x" "opt" (.vnum 2)] =
      some (.ok [obj [("after", arr []), ("before", arr []),
        ("name", .vstr "x"), ("opt", .vnum 2)]]) := by
  have hvu := scalarB_ne_undef v hv
  have hwu := scalarB_ne_undef w hw
  have e0 : mergePropVal JSVal.vundef (JSVal.vstr n) = JSVal.vstr n := rfl
  have e1 : mergePropVal JSVal.vundef w = w := mergePropVal_scalar _ _ (Or.inl rfl) hw
  have e2 : mergePropVal JSVal.vundef v = v := mergePropVal_scalar _ _ (Or.inl rfl) hv
  have e3 : mergePropVal (JSVal.vstr n) (JSVal.vstr n) = JSVal.vstr n := rfl
  have e4 : mergePropVal w v = v := mergePropVal_scalar _ _ (Or.inr hw) hv
  have e5 : mergePropVal v w = w := mergePropVal_scalar _ _ (Or.inr hv) hw
  refine ⟨?_, ?_, by decide, by decide⟩
  · simp [mergeVirtuals, mergeVirtualsAux, c10virtual, c10real, getField,
      JSFields.lookup, truthy, omitKey, JSFields.eraseKey, vmLookup, vmSet,
      jsToString, merge2, mergeMany, mergeInto, mergeFields, mergeProp,
      e0, e1, e2, e3, e4, e5, hvu, hwu, hf2,
      Ne.symm hf1, Ne.symm hf2, JSFields.set]
  · simp [mergeVirtuals, mergeVirtualsAux, c10virtual, c10real, getField,
      JSFields.lookup, truthy, omitKey, JSFields.eraseKey, vmLookup, vmSet,
      jsToString, merge2, mergeMany, mergeInto, mergeFields, mergeProp,
      e0, e1, e2, e3, e4, e5, hvu, hwu, hf2,
      Ne.symm hf1, Ne.symm hf2, JSFields.set]

/-- Witness for C10 at name x, field opt, real value 1, virtual value 2. -/
theorem c10_conflict_direction_witness :
    mergeVirtuals [c10virtual "x" "opt" (.vnum 2), c10real "x" "opt" (.vnum 1)] =
      [.vobj (.cons "name" (.vstr "x") (.cons "opt" (.vnum 1) .nil))] ∧
    mergeVirtuals [c10real "x" "opt" (.vnum 1), c10virtual "x" "opt" (.vnum 2)] =
      [.vobj (.cons "name" (.vstr "x") (.cons "opt" (.vnum 2) .nil))] ∧
    runList 10 (cfgId 500) [c10virtual "x" "opt" (.vnum 2), c10real "x" "opt" (.vnum 1)] =
      some (.ok [obj [("after", arr []), ("before", arr []),
        ("name", .vstr "x"), ("opt", .vnum 1)]]) ∧
    runList 10 (cfgId 500) [c10real "x" "opt" (.vnum 1), c10virtual "x" "opt" (.vnum 2)] =
      some (.ok [obj [("after", arr []), ("before", arr []),
        ("name", .vstr "x"), ("opt", .vnum 2)]]) :=
  c10_conflict_direction "x" "opt" (.vnum 1) (.vnum 2)
    (by decide) (by decide) (by decide) (by decide)

/-! ## C8: the disabled filter -/

/-- Without virtual items the merge stage appends every item unchanged. -/
theorem mergeVirtualsAux_no_virtual (items : List JSVal)
    (h : ∀ i ∈ items, truthy (getField i "virtual") = false) :
    ∀ output, mergeVirtualsAux [] output items = output ++ items := by
  induction items with
  | nil => intro output; rw [mergeVirtualsAux, List.append_nil]
  | cons item rest ih =>
      intro output
      have hi := h item (List.mem_cons_self item rest)
      have hrest : ∀ i ∈ rest, truthy (getField i "virtual") = false :=
        fun i hi2 => h i (List.mem_cons_of_mem item hi2)
      simp only [mergeVirtualsAux, hi, Bool.false_eq_true, if_false, vmLookup]
      rw [ih hrest (output ++ [item]), List.append_assoc]
      rfl

/-- _mergeVirtuals is the identity on virtual free inputs. -/
theorem mergeVirtuals_no_virtual (items : List JSVal)
    (h : ∀ i ∈ items, truthy (getField i "virtual") = false) :
    mergeVirtuals items = items := by
  rw [mergeVirtuals, mergeVirtualsAux_no_virtual items h []]
  rfl

/-- _applySchema introduces no virtual marker. -/
theorem applySchemaItem_no_virtual (dg : Int) (fs : JSFields)
    (h : fs.keyVals "virtual" = []) :
    truthy (getField (applySchemaItem (cfgId dg) (JSVal.vobj fs)) "virtual") = false := by
  rw [applySchemaItem_cfgId]
  rw [show mergeInto baseFields (JSVal.vobj fs) = mergeFields baseFields fs from rfl]
  have hm : (mergeFields baseFields fs).keyVals "virtual" = [] := by
    rw [merge_keyVals_none fs baseFields "virtual" h]
    rfl
  rw [getField, JSFields.keyVals_nil_lookup _ _ hm]
  rfl

/-- _applySchema keeps a truthy single valued disable marker truthy. -/
theorem applySchemaItem_disable_truthy (dg : Int) (fs : JSFields) (v : JSVal)
    (hk : fs.keyVals "disable" = [v]) (ht : truthy v = true) :
    truthy (getField (applySchemaItem (cfgId dg) (JSVal.vobj fs)) "disable") = true := by
  have hvne : v ≠ JSVal.vundef := by
    intro he
    subst he
    cases ht
  rw [applySchemaItem_cfgId]
  rw [show mergeInto baseFields (JSVal.vobj fs) = mergeFields baseFields fs from rfl]
  have hc := merge_keyVals_copy fs baseFields "disable" v rfl hk hvne
  rw [getField, keyVals_single_lookup _ _ _ hc, Option.getD_some]
  rw [truthy_mergePropVal_undef v hvne]
  exact ht

/-- The disabled filter distributes over concatenation. -/
theorem excludeDisabled_append (A B : List JSVal) :
    excludeDisabled (A ++ B) = excludeDisabled A ++ excludeDisabled B := by
  rw [excludeDisabled, excludeDisabled, excludeDisabled, List.filter_append]

/-- A disabled singleton is filtered away. -/
theorem excludeDisabled_single (d : JSVal)
    (h : truthy (getField d "disable") = true) : excludeDisabled [d] = [] := by
  rw [excludeDisabled]
  simp [h]

/-- The virtual branch of the merge loop, with the lets spelled out. -/
theorem mergeVirtualsAux_eq_virtual (vmap : List (String × JSVal))
    (output : List JSVal) (item : JSVal) (rest : List JSVal)
    (ht : truthy (getField item "virtual") = true) :
    mergeVirtualsAux vmap output (item :: rest) =
      mergeVirtualsAux
        (vmSet vmap (jsToString (getField item "name"))
          (match vmLookup vmap (jsToString (getField item "name")) with
           | some v0 => merge2 v0 (omitKey item "virtual")
           | none => omitKey item "virtual"))
        (output.map fun o =>
          if getField o "name" = getField item "name"
          then merge2 o (omitKey item "virtual") else o)
        rest := by
  rw [mergeVirtualsAux, if_pos ht]

/-- The real branch of the merge loop, with the lets spelled out. -/
theorem mergeVirtualsAux_eq_real (vmap : List (String × JSVal))
    (output : List JSVal) (item : JSVal) (rest : List JSVal)
    (ht : truthy (getField item "virtual") = false) :
    mergeVirtualsAux vmap output (item :: rest) =
      match vmLookup vmap (jsToString (getField item "name")) with
      | some v0 =>
          mergeVirtualsAux vmap (output ++ [.vobj (mergeMany .nil [v0, item])]) rest
      | none => mergeVirtualsAux vmap (output ++ [item]) rest := by
  rw [mergeVirtualsAux, if_neg (by rw [ht]; exact Bool.false_ne_true)]

/-- A virtual map none of whose keys matches yields no patch. -/
theorem vmLookup_none_of_keys (vmap : List (String × JSVal)) (key : String)
    (h : ∀ p ∈ vmap, p.1 ≠ key) : vmLookup vmap key = none := by
  induction vmap with
  | nil => rfl
  | cons q rest ih =>
      rcases q with ⟨k, v⟩
      rw [vmLookup, if_neg (h (k, v) (List.mem_cons_self _ _))]
      exact ih fun p hp => h p (List.mem_cons_of_mem _ hp)

/-- Keys of the virtual map after a write: the written key or an old
entry. -/
theorem vmSet_mem_key (vmap : List (String × JSVal)) (key : String) (v : JSVal) :
    ∀ p ∈ vmSet vmap key v, p.1 = key ∨ p ∈ vmap := by
  induction vmap with
  | nil =>
      intro p hp
      rcases List.mem_singleton.mp hp with rfl
      exact Or.inl rfl
  | cons q rest ih =>
      rcases q with ⟨k, w⟩
      intro p hp
      rw [vmSet] at hp
      by_cases hk : k = key
      · rw [if_pos hk] at hp
        rcases List.mem_cons.mp hp with rfl | hp2
        · exact Or.inl hk
        · exact Or.inr (List.mem_cons_of_mem _ hp2)
      · rw [if_neg hk] at hp
        rcases List.mem_cons.mp hp with rfl | hp2
        · exact Or.inr (List.mem_cons_self _ _)
        · rcases ih p hp2 with h1 | h2
          · exact Or.inl h1
          · exact Or.inr (List.mem_cons_of_mem _ h2)

/-- Running the merge loop over a suffix none of whose virtual items names
ne0 carries an already emitted item named ne0 through unchanged: the
output decomposes around it and without it the same run emits exactly the
remaining items.  The virtual map needs no hypothesis: both runs evolve it
identically. -/
theorem mergeVirtualsAux_extra (ne0 : String) :
    ∀ (B : List JSVal) (vmap : List (String × JSVal)) (outA outB : List JSVal)
      (e : JSVal), NamedStr e ne0 →
    (∀ v ∈ B, truthy (getField v "virtual") = true →
      getField v "name" ≠ JSVal.vstr ne0) →
    ∃ outA2 outB2,
      mergeVirtualsAux vmap (outA ++ e :: outB) B = outA2 ++ e :: outB2 ∧
      mergeVirtualsAux vmap (outA ++ outB) B = outA2 ++ outB2 := by
  intro B
  induction B with
  | nil =>
      intro vmap outA outB e _ _
      exact ⟨outA, outB, rfl, rfl⟩
  | cons item rest ih =>
      intro vmap outA outB e hE hB
      have hrest : ∀ v ∈ rest, truthy (getField v "virtual") = true →
          getField v "name" ≠ JSVal.vstr ne0 :=
        fun v hv => hB v (List.mem_cons_of_mem item hv)
      by_cases ht : truthy (getField item "virtual") = true
      · rw [mergeVirtualsAux_eq_virtual vmap _ item rest ht,
          mergeVirtualsAux_eq_virtual vmap _ item rest ht]
        have hne2 := hB item (List.mem_cons_self item rest) ht
        simp only [List.map_append, List.map_cons]
        rw [show (if getField e "name" = getField item "name"
            then merge2 e (omitKey item "virtual") else e) = e from
          if_neg (by rw [hE.nameField]; exact fun hc => hne2 hc.symm)]
        exact ih _ _ _ e hE hrest
      · have ht2 : truthy (getField item "virtual") = false :=
          Bool.eq_false_iff.mpr ht
        rw [mergeVirtualsAux_eq_real vmap _ item rest ht2,
          mergeVirtualsAux_eq_real vmap _ item rest ht2]
        rcases hv : vmLookup vmap (jsToString (getField item "name")) with _ | v0
        · dsimp only
          rw [show (outA ++ e :: outB) ++ [item] = outA ++ e :: (outB ++ [item]) from by
            rw [List.append_assoc, List.cons_append]]
          rw [List.append_assoc]
          exact ih vmap outA (outB ++ [item]) e hE hrest
        · dsimp only
          rw [show (outA ++ e :: outB) ++ [JSVal.vobj (mergeMany .nil [v0, item])] =
            outA ++ e :: (outB ++ [JSVal.vobj (mergeMany .nil [v0, item])]) from by
            rw [List.append_assoc, List.cons_append]]
          rw [List.append_assoc]
          exact ih vmap outA (outB ++ [JSVal.vobj (mergeMany .nil [v0, item])]) e hE hrest

/-- Inserting a non virtual item named nd into the merge input, when no
virtual map key and no virtual item of the input names nd, inserts exactly
its emission into the output and changes nothing else: the before segment
evolves vmap and output identically in both runs, the item is emitted
unpatched (no vmap entry under its name), and the after segment never
patches it. -/
theorem mergeVirtualsAux_skip (nd : String) :
    ∀ (A : List JSVal) (vmap : List (String × JSVal)) (output : List JSVal)
      (sd : JSVal) (B : List JSVal),
    (∀ p ∈ vmap, (∃ t, NamedStr p.2 t) ∧ p.1 ≠ nd) →
    (∀ i ∈ A, ∃ s, NamedStr i s ∧ (truthy (getField i "virtual") = true → s ≠ nd)) →
    (∀ v ∈ B, truthy (getField v "virtual") = true →
      getField v "name" ≠ JSVal.vstr nd) →
    NamedStr sd nd →
    truthy (getField sd "virtual") = false →
    ∃ outA2 outB2,
      mergeVirtualsAux vmap output (A ++ sd :: B) = outA2 ++ sd :: outB2 ∧
      mergeVirtualsAux vmap output (A ++ B) = outA2 ++ outB2 := by
  intro A
  induction A with
  | nil =>
      intro vmap output sd B hvm _ hB hsd hsdnv
      rw [List.nil_append, List.nil_append]
      rw [mergeVirtualsAux_eq_real vmap output sd B hsdnv]
      have hnone : vmLookup vmap (jsToString (getField sd "name")) = none := by
        rw [hsd.nameField]
        exact vmLookup_none_of_keys vmap nd fun p hp => (hvm p hp).2
      rw [hnone]
      dsimp only
      obtain ⟨outA2, outB2, h1, h2⟩ :=
        mergeVirtualsAux_extra nd B vmap output [] sd hsd hB
      refine ⟨outA2, outB2, h1, ?_⟩
      rw [List.append_nil] at h2
      exact h2
  | cons a A2 ih =>
      intro vmap output sd B hvm hA hB hsd hsdnv
      rcases hA a (List.mem_cons_self a A2) with ⟨sa, hNa, himp⟩
      have hA2 : ∀ i ∈ A2, ∃ s, NamedStr i s ∧
          (truthy (getField i "virtual") = true → s ≠ nd) :=
        fun i hi => hA i (List.mem_cons_of_mem a hi)
      rw [List.cons_append, List.cons_append]
      by_cases ht : truthy (getField a "virtual") = true
      · rw [mergeVirtualsAux_eq_virtual vmap output a _ ht,
          mergeVirtualsAux_eq_virtual vmap output a _ ht]
        refine ih _ _ sd B ?_ hA2 hB hsd hsdnv
        intro p hp
        have hsane : sa ≠ nd := himp ht
        have hkeya : jsToString (getField a "name") = sa := by
          rw [hNa.nameField]
          rfl
        constructor
        · rcases vmSet_mem vmap _ _ p hp with hpv | hpm
          · rcases hv2 : vmLookup vmap (jsToString (getField a "name")) with _ | v0
            · rw [hv2] at hpv
              rw [hpv]
              exact ⟨sa, hNa.omitVirtual⟩
            · rw [hv2] at hpv
              rw [hpv]
              rcases vmLookup_mem vmap _ v0 hv2 with ⟨q, hq, hq2⟩
              rcases (hvm q hq).1 with ⟨t, hqn⟩
              rw [hq2] at hqn
              exact ⟨sa, hqn.mergeTwoNamed hNa.omitVirtual⟩
          · exact (hvm p hpm).1
        · rcases vmSet_mem_key vmap _ _ p hp with hpk | hpm
          · rw [hpk, hkeya]
            exact hsane
          · exact (hvm p hpm).2
      · have ht2 : truthy (getField a "virtual") = false :=
          Bool.eq_false_iff.mpr ht
        rw [mergeVirtualsAux_eq_real vmap output a _ ht2,
          mergeVirtualsAux_eq_real vmap output a _ ht2]
        rcases hv : vmLookup vmap (jsToString (getField a "name")) with _ | v0
        · dsimp only
          exact ih vmap (output ++ [a]) sd B hvm hA2 hB hsd hsdnv
        · dsimp only
          exact ih vmap (output ++ [JSVal.vobj (mergeMany .nil [v0, a])]) sd B
            hvm hA2 hB hsd hsdnv

/-- The literal claim fails: deleting a disabled item is observable when a
later virtual item patches its name, because the patch lands on the
emitted (still present) item and can flip its disable flag.  With the
disabled real item present the run returns the patched item; with it
deleted the virtual item alone produces nothing. -/
theorem c8_claim_counterexample :
    runList 10 (cfgId 500)
      [obj [("name", .vstr "x"), ("disable", .vbool true)],
       obj [("name", .vstr "x"), ("virtual", .vbool true), ("disable", .vbool false)]] =
      some (.ok [obj [("after", arr []), ("before", arr []), ("name", .vstr "x"),
        ("disable", .vbool false)]]) ∧
    runList 10 (cfgId 500)
      [obj [("name", .vstr "x"), ("virtual", .vbool true), ("disable", .vbool false)]] =
      some (.ok []) ∧
    truthy (getField (obj [("name", .vstr "x"), ("disable", .vbool true)]) "disable") = true :=
  ⟨by decide, by decide, by decide⟩

/-- C8 amended: (1) under the identity configuration no completed run ever
returns an item whose disable field is truthy; (2) for every well formed
input (objects with single string valued names) containing a non virtual
disabled item d (single truthy disable value), run() on the input equals
run() on the input with d deleted - at every fuel, with arbitrary group,
after and before constraints and arbitrary other virtual items - provided
no item sharing d's name carries a virtual marker.  That proviso is
exactly what the counterexample forces: a virtual item sharing d's name
patches the emitted d in place and can flip its disable flag, while after
deletion the virtual item alone emits nothing. -/
theorem c8_disable_filter (dg : Int) (fuel0 fuel : Nat)
    (items out pre post : List JSVal) (d : JSVal) (nd : String)
    (hrunA : runList fuel0 (cfgId dg) items = some (.ok out))
    (hwf : ∀ i ∈ pre ++ [d] ++ post, ∃ fs s, i = JSVal.vobj fs ∧
      fs.keyVals "name" = [JSVal.vstr s])
    (hd : ∃ fs, d = JSVal.vobj fs ∧ fs.keyVals "name" = [JSVal.vstr nd] ∧
      (∃ v, fs.keyVals "disable" = [v] ∧ truthy v = true) ∧
      fs.keyVals "virtual" = [])
    (hnv : ∀ i ∈ pre ++ post, getField i "name" = JSVal.vstr nd →
      ∃ fs, i = JSVal.vobj fs ∧ fs.keyVals "virtual" = []) :
    (∀ o ∈ out, truthy (getField o "disable") = false) ∧
    runList fuel (cfgId dg) (pre ++ [d] ++ post) =
      runList fuel (cfgId dg) (pre ++ post) := by
  constructor
  · rcases runId_out_names dg fuel0 items out hrunA with ⟨items1, hN, hout⟩
    intro o ho
    rcases hout o ho with ⟨x, hx, hall⟩
    rw [hall "disable" (by decide)]
    rw [excludeDisabled] at hx
    rcases List.mem_filter.mp hx with ⟨_, hpred⟩
    simpa using hpred
  · have hwf2 : ∀ i ∈ pre ++ post, ∃ fs s, i = JSVal.vobj fs ∧
        fs.keyVals "name" = [JSVal.vstr s] := by
      intro i hi
      refine hwf i ?_
      simp only [List.mem_append] at hi ⊢
      tauto
    have hn1 : normalizeItems (cfgId dg) (pre ++ [d] ++ post) =
        .ok (pre ++ [d] ++ post) := by
      refine normalizeItems_ok_id dg _ ?_
      intro i hi
      rcases hwf i hi with ⟨fs, s, rfl, hk⟩
      refine ⟨rfl, rfl, ?_⟩
      rw [getField, keyVals_single_lookup fs "name" _ hk, Option.getD_some]
      rfl
    have hn2 : normalizeItems (cfgId dg) (pre ++ post) = .ok (pre ++ post) := by
      refine normalizeItems_ok_id dg _ ?_
      intro i hi
      rcases hwf2 i hi with ⟨fs, s, rfl, hk⟩
      refine ⟨rfl, rfl, ?_⟩
      rw [getField, keyVals_single_lookup fs "name" _ hk, Option.getD_some]
      rfl
    rw [runList, runList, runF, runF, JSList.toList_ofList, JSList.toList_ofList,
      hn1, hn2]
    dsimp only
    have hpre2 : excludeDisabled (mergeVirtuals
          (applySchema (cfgId dg) (pre ++ [d] ++ post))) =
        excludeDisabled (mergeVirtuals (applySchema (cfgId dg) (pre ++ post))) := by
      rcases hd with ⟨dfs, hdeq, hdn, ⟨dv, hdk, hdt⟩, hdvirt⟩
      subst hdeq
      have hsdN : NamedStr (applySchemaItem (cfgId dg) (JSVal.vobj dfs)) nd := by
        rcases applySchemaItem_name dg dfs nd hdn with ⟨gs, hg, hgk, _⟩
        exact ⟨gs, hg, hgk⟩
      have hsdnv : truthy (getField (applySchemaItem (cfgId dg)
          (JSVal.vobj dfs)) "virtual") = false :=
        applySchemaItem_no_virtual dg dfs hdvirt
      have hsddis : truthy (getField (applySchemaItem (cfgId dg)
          (JSVal.vobj dfs)) "disable") = true :=
        applySchemaItem_disable_truthy dg dfs dv hdk hdt
      have hseg : ∀ x ∈ pre ++ post, ∃ s,
          NamedStr (applySchemaItem (cfgId dg) x) s ∧
          (truthy (getField (applySchemaItem (cfgId dg) x) "virtual") = true →
            s ≠ nd) := by
        intro x hx
        have hx0 : x ∈ pre ++ [JSVal.vobj dfs] ++ post := by
          simp only [List.mem_append] at hx ⊢
          tauto
        rcases hwf x hx0 with ⟨fs, s, rfl, hk⟩
        rcases applySchemaItem_name dg fs s hk with ⟨gs, hg, hgk, _⟩
        refine ⟨s, ⟨gs, hg, hgk⟩, ?_⟩
        intro htv hsn
        subst hsn
        have hxname : getField (JSVal.vobj fs) "name" = JSVal.vstr s := by
          rw [getField, keyVals_single_lookup fs "name" _ hk, Option.getD_some]
        rcases hnv (JSVal.vobj fs) hx hxname with ⟨fs2, heq2, hvx⟩
        injection heq2 with heq3
        subst heq3
        rw [applySchemaItem_no_virtual dg fs hvx] at htv
        cases htv
      rw [applySchema, applySchema, List.map_append, List.map_append,
        List.map_append]
      rw [show List.map (applySchemaItem (cfgId dg)) [JSVal.vobj dfs] =
        [applySchemaItem (cfgId dg) (JSVal.vobj dfs)] from rfl]
      rw [mergeVirtuals, mergeVirtuals]
      rw [show (List.map (applySchemaItem (cfgId dg)) pre ++
          [applySchemaItem (cfgId dg) (JSVal.vobj dfs)]) ++
          List.map (applySchemaItem (cfgId dg)) post =
        List.map (applySchemaItem (cfgId dg)) pre ++
          applySchemaItem (cfgId dg) (JSVal.vobj dfs) ::
          List.map (applySchemaItem (cfgId dg)) post from by
        rw [List.append_assoc]
        rfl]
      obtain ⟨outA2, outB2, h1, h2⟩ := mergeVirtualsAux_skip nd
        (List.map (applySchemaItem (cfgId dg)) pre) [] []
        (applySchemaItem (cfgId dg) (JSVal.vobj dfs))
        (List.map (applySchemaItem (cfgId dg)) post)
        (fun p hp => absurd hp (List.not_mem_nil p))
        (by intro i hi
            rcases List.mem_map.mp hi with ⟨x, hx, rfl⟩
            exact hseg x (List.mem_append.mpr (Or.inl hx)))
        (by intro v hv htv
            rcases List.mem_map.mp hv with ⟨x, hx, rfl⟩
            rcases hseg x (List.mem_append.mpr (Or.inr hx)) with ⟨s, hNs, himp⟩
            rw [hNs.nameField]
            intro hc
            injection hc with hc2
            exact himp htv hc2)
        hsdN hsdnv
      rw [h1, h2]
      rw [show outA2 ++ applySchemaItem (cfgId dg) (JSVal.vobj dfs) :: outB2 =
        (outA2 ++ [applySchemaItem (cfgId dg) (JSVal.vobj dfs)]) ++ outB2 from by
        rw [List.append_assoc]
        rfl]
      rw [excludeDisabled_append, excludeDisabled_append, excludeDisabled_append]
      rw [excludeDisabled_single _ hsddis]
      rw [List.append_nil]
    rw [hpre2]

/-- Witness for C8 at an input carrying after constraints and an unrelated
virtual item: the run with the disabled item q returns only items with
falsy disable fields, and deleting q leaves the whole run unchanged. -/
theorem c8_disable_filter_witness :
    (∀ o ∈ [obj [("after", arr []), ("before", arr []), ("name", .vstr "p")],
            obj [("after", arr [.vstr "p"]), ("before", arr []), ("name", .vstr "r")]],
      truthy (getField o "disable") = false) ∧
    runList 10 (cfgId 500)
      ([obj [("name", .vstr "p")],
        obj [("name", .vstr "w"), ("virtual", .vbool true), ("extra", .vnum 7)]] ++
       [obj [("name", .vstr "q"), ("disable", .vbool true), ("after", arr [.vstr "p"])]] ++
       [obj [("name", .vstr "r"), ("after", arr [.vstr "p"])]]) =
    runList 10 (cfgId 500)
      ([obj [("name", .vstr "p")],
        obj [("name", .vstr "w"), ("virtual", .vbool true), ("extra", .vnum 7)]] ++
       [obj [("name", .vstr "r"), ("after", arr [.vstr "p"])]]) := by
  refine c8_disable_filter 500 10 10
    ([obj [("name", .vstr "p")],
      obj [("name", .vstr "w"), ("virtual", .vbool true), ("extra", .vnum 7)]] ++
     [obj [("name", .vstr "q"), ("disable", .vbool true), ("after", arr [.vstr "p"])]] ++
     [obj [("name", .vstr "r"), ("after", arr [.vstr "p"])]])
    [obj [("after", arr []), ("before", arr []), ("name", .vstr "p")],
     obj [("after", arr [.vstr "p"]), ("before", arr []), ("name", .vstr "r")]]
    [obj [("name", .vstr "p")],
     obj [("name", .vstr "w"), ("virtual", .vbool true), ("extra", .vnum 7)]]
    [obj [("name", .vstr "r"), ("after", arr [.vstr "p"])]]
    (obj [("name", .vstr "q"), ("disable", .vbool true), ("after", arr [.vstr "p"])])
    "q" (by decide) ?_ ?_ ?_
  · intro i hi
    simp only [List.mem_append, List.mem_cons, List.not_mem_nil, or_false] at hi
    rcases hi with ((rfl | rfl) | rfl) | rfl
    · exact ⟨_, "p", rfl, by decide⟩
    · exact ⟨_, "w", rfl, by decide⟩
    · exact ⟨_, "q", rfl, by decide⟩
    · exact ⟨_, "r", rfl, by decide⟩
  · exact ⟨_, rfl, by decide, ⟨.vbool true, by decide, rfl⟩, by decide⟩
  · intro i hi hname
    simp only [List.mem_append, List.mem_cons, List.not_mem_nil, or_false] at hi
    rcases hi with (rfl | rfl) | rfl
    · exact absurd hname (by decide)
    · exact absurd hname (by decide)
    · exact absurd hname (by decide)

/-! ## C2: the constraint order recurrence

The after table and high index map are fixed after the before conversion;
resTargets lists the after targets of an index that resolve to a recorded
highIndex, in source order. -/

def resolveTarget (hi : List (String × Nat)) (t : JSVal) : Option Nat :=
  indexMaps.vmLookupN hi (jsToString t)

def resTargets (aft : List (List JSVal)) (hi : List (String × Nat)) (i : Nat) : List Nat :=
  (aft.getD i []).filterMap (resolveTarget hi)

/-- One step of the running max of _init: the bump test
if (!max || val > max) of the source replaces an unset or zero max and any
smaller max. -/
def jsMaxStep (acc : Option Int) (val : Int) : Option Int :=
  match acc with
  | none => some val
  | some mx => if mx = 0 ∨ val > mx then some val else some mx

/-- The running max over the resolved target orders. -/
def specMax (l : List Int) : Option Int := l.foldl jsMaxStep none

/-- The closed form of the order table on acyclic constraint graphs,
written from the (amended) claim: the recursion of the claim formula, with
the falsy max fallback of the source.  The first argument is recursion
fuel; when acyclicity is certified by a rank function that decreases along
resolving edges, fuel rank i computes index i exactly. -/
def specOrder (aft : List (List JSVal)) (hi : List (String × Nat)) : Nat → Nat → Int
  | 0, i => (i : Int) * CONSTRAINT_SCALE
  | fuel + 1, i =>
      match specMax ((resTargets aft hi i).map (specOrder aft hi fuel)) with
      | none => (i : Int) * CONSTRAINT_SCALE
      | some mx => if mx ≠ 0 then mx + 1 else (i : Int) * CONSTRAINT_SCALE

/-- The claimed order of index i on a rank certified acyclic graph. -/
def specOrderR (aft : List (List JSVal)) (hi : List (String × Nat))
    (rank : Nat → Nat) (i : Nat) : Int :=
  specOrder aft hi (rank i) i

theorem specOrder_empty (aft : List (List JSVal)) (hi : List (String × Nat))
    (i : Nat) (h : resTargets aft hi i = []) :
    ∀ f, specOrder aft hi f i = (i : Int) * CONSTRAINT_SCALE := by
  intro f
  cases f with
  | zero => rfl
  | succ g => rw [specOrder, h]; rfl

theorem specOrder_congr_rank (aft : List (List JSVal)) (hi : List (String × Nat))
    (n : Nat) (rank : Nat → Nat)
    (hb : ∀ j, j < n → ∀ h ∈ resTargets aft hi j, h < n ∧ rank h < rank j) :
    ∀ r i, i < n → rank i ≤ r → ∀ f1 f2, rank i ≤ f1 → rank i ≤ f2 →
    specOrder aft hi f1 i = specOrder aft hi f2 i := by
  intro r
  induction r using Nat.strong_induction_on with
  | _ r ih =>
      intro i hin hir f1 f2 h1 h2
      cases hrk : rank i with
      | zero =>
          have hres : resTargets aft hi i = [] := by
            rcases he : resTargets aft hi i with _ | ⟨h, rest⟩
            · rfl
            · have hlt := (hb i hin h (he ▸ List.mem_cons_self h rest)).2
              rw [hrk] at hlt
              exact absurd hlt (Nat.not_lt_zero _)
          rw [specOrder_empty aft hi i hres f1, specOrder_empty aft hi i hres f2]
      | succ m =>
          rw [hrk] at h1 h2 hir
          rcases Nat.exists_eq_add_of_le h1 with ⟨k1, rfl⟩
          rcases Nat.exists_eq_add_of_le h2 with ⟨k2, rfl⟩
          rw [show m + 1 + k1 = (m + k1) + 1 from by omega]
          rw [show m + 1 + k2 = (m + k2) + 1 from by omega]
          rw [specOrder, specOrder]
          have hmap : (resTargets aft hi i).map (specOrder aft hi (m + k1)) =
              (resTargets aft hi i).map (specOrder aft hi (m + k2)) := by
            apply List.map_congr_left
            intro h hmem
            rcases hb i hin h hmem with ⟨hhn, hhr⟩
            rw [hrk] at hhr
            rw [ih m (by omega) h hhn (by omega) (m + k1) (rank h) (by omega)
              (Nat.le_refl _)]
            rw [ih m (by omega) h hhn (by omega) (m + k2) (rank h) (by omega)
              (Nat.le_refl _)]
          rw [hmap]



theorem initF_eq_hit (aft : List (List JSVal)) (hi : List (String × Nat))
    (fuel idx : Nat) (memo : Memo)
    (h : memoTruthy (memo.getD idx none) = true) :
    initF aft hi (fuel + 1) idx memo = some ((memo.getD idx none).getD 0, memo) := by
  simp only [initF, h]
  simp

theorem initF_eq_empty (aft : List (List JSVal)) (hi : List (String × Nat))
    (fuel idx : Nat) (memo : Memo)
    (h : memoTruthy (memo.getD idx none) = false)
    (hne : aft.getD idx [] = []) :
    initF aft hi (fuel + 1) idx memo =
      some ((idx : Int) * CONSTRAINT_SCALE,
        memo.set idx (some ((idx : Int) * CONSTRAINT_SCALE))) := by
  have hne2 : aft[idx]?.getD [] = [] := by
    rw [← List.getD_eq_getElem?_getD]
    exact hne
  simp only [initF, h]
  simp [hne2]

theorem initF_eq_fold (aft : List (List JSVal)) (hi : List (String × Nat))
    (fuel idx : Nat) (memo : Memo)
    (h : memoTruthy (memo.getD idx none) = false)
    (hne : ¬ aft.getD idx [] = []) :
    initF aft hi (fuel + 1) idx memo =
      match (aft.getD idx []).foldl (targetStep aft hi fuel idx)
          (some (none, memo.set idx (some ((idx : Int) * CONSTRAINT_SCALE)))) with
      | none => none
      | some (maxOpt, m) =>
          some ((match maxOpt with
            | some mx => if mx ≠ 0 then mx + 1 else (idx : Int) * CONSTRAINT_SCALE
            | none => (idx : Int) * CONSTRAINT_SCALE),
            m.set idx (some (match maxOpt with
              | some mx => if mx ≠ 0 then mx + 1 else (idx : Int) * CONSTRAINT_SCALE
              | none => (idx : Int) * CONSTRAINT_SCALE))) := by
  have hne3 : ¬ ((aft.getD idx []).isEmpty = true) := by
    simpa using hne
  simp only [initF, h, Bool.false_eq_true, if_false]
  rw [if_neg hne3]
  rfl



theorem memo_getD_set_self (l : Memo) (i : Nat) (v : Option Int) (h : i < l.length) :
    (l.set i v).getD i none = v := by
  rw [List.getD, memo_get?_set_self l i v h]
  rfl

theorem foldl_targetStep_none (aft : List (List JSVal)) (hi : List (String × Nat))
    (fuel idx : Nat) : ∀ ts : List JSVal,
    ts.foldl (targetStep aft hi fuel idx) none = none := by
  intro ts
  induction ts with
  | nil => rfl
  | cons t ts2 ih =>
      rw [List.foldl_cons, show targetStep aft hi fuel idx none t = none from rfl]
      exact ih

/-- The provisional memo entry at an index during the target loop: the
scaled index before the first bump, the running max plus one after. -/
def provEntry (idx : Nat) : Option Int → Option Int
  | none => some ((idx : Int) * CONSTRAINT_SCALE)
  | some mx => some (mx + 1)

/-- The recurrence formula of the (amended) claim, reading the orders of
the resolved targets through f: the scaled index when no target resolves
or the running max is zero, the max plus one otherwise. -/
def claimOrder (aft : List (List JSVal)) (hi : List (String × Nat))
    (f : Nat → Int) (i : Nat) : Int :=
  match specMax ((resTargets aft hi i).map f) with
  | none => (i : Int) * CONSTRAINT_SCALE
  | some mx => if mx ≠ 0 then mx + 1 else (i : Int) * CONSTRAINT_SCALE

theorem specOrderR_claimOrder (aft : List (List JSVal)) (hi : List (String × Nat))
    (n : Nat) (rank : Nat → Nat)
    (hb : ∀ j, j < n → ∀ h ∈ resTargets aft hi j, h < n ∧ rank h < rank j)
    (i : Nat) (hin : i < n) :
    specOrderR aft hi rank i = claimOrder aft hi (specOrderR aft hi rank) i := by
  cases hrk : rank i with
  | zero =>
      have hres : resTargets aft hi i = [] := by
        rcases he : resTargets aft hi i with _ | ⟨h, rest⟩
        · rfl
        · have hlt := (hb i hin h (he ▸ List.mem_cons_self h rest)).2
          rw [hrk] at hlt
          exact absurd hlt (Nat.not_lt_zero _)
      rw [claimOrder, hres, specOrderR, hrk]
      rfl
  | succ m =>
      rw [specOrderR, hrk, specOrder, claimOrder]
      have hmap : (resTargets aft hi i).map (specOrder aft hi m) =
          (resTargets aft hi i).map (specOrderR aft hi rank) := by
        apply List.map_congr_left
        intro h hmem
        rcases hb i hin h hmem with ⟨hhn, hhr⟩
        rw [hrk] at hhr
        rw [show specOrderR aft hi rank h = specOrder aft hi (rank h) h from rfl]
        exact specOrder_congr_rank aft hi n rank hb (rank h) h hhn (Nat.le_refl _)
          m (rank h) (by omega) (Nat.le_refl _)
      rw [hmap]



theorem targetFold_spec (aft : List (List JSVal)) (hi : List (String × Nat)) (n : Nat)
    (rank : Nat → Nat) (fuel : Nat)
    (IH : ∀ i2 memo2 res2 (S2 : Nat → Prop), i2 < n → ¬ S2 i2 →
      (∀ j, S2 j → rank i2 < rank j) → memo2.length = n →
      (∀ j, j < n → ¬ S2 j → memo2.getD j none = none ∨
        memo2.getD j none = some (specOrderR aft hi rank j)) →
      initF aft hi fuel i2 memo2 = some res2 →
      res2.1 = specOrderR aft hi rank i2 ∧ res2.2.length = n ∧
      res2.2.getD i2 none = some (specOrderR aft hi rank i2) ∧
      (∀ j, j < n → ¬ S2 j → res2.2.getD j none = none ∨
        res2.2.getD j none = some (specOrderR aft hi rank j)) ∧
      (∀ j, S2 j → res2.2.getD j none = memo2.getD j none) ∧
      (∀ j, j < n → ¬ S2 j → memo2.getD j none = some (specOrderR aft hi rank j) →
        res2.2.getD j none = some (specOrderR aft hi rank j)))
    (i : Nat) (hin : i < n) (S : Nat → Prop) (hiS : ¬ S i)
    (hSrk : ∀ j, S j → rank i < rank j) (memo : Memo) :
    ∀ (ts : List JSVal) (maxOpt : Option Int) (m : Memo) (res : Option Int × Memo),
    (∀ t ∈ ts, ∀ h, indexMaps.vmLookupN hi (jsToString t) = some h →
      h < n ∧ rank h < rank i) →
    m.length = n →
    (∀ j, j < n → ¬ S j → j ≠ i → m.getD j none = none ∨
      m.getD j none = some (specOrderR aft hi rank j)) →
    m.getD i none = provEntry i maxOpt →
    (∀ j, S j → m.getD j none = memo.getD j none) →
    (∀ j, j < n → ¬ S j → j ≠ i → memo.getD j none = some (specOrderR aft hi rank j) →
      m.getD j none = some (specOrderR aft hi rank j)) →
    ts.foldl (targetStep aft hi fuel i) (some (maxOpt, m)) = some res →
    res.1 = ((ts.filterMap (resolveTarget hi)).map
      (specOrderR aft hi rank)).foldl jsMaxStep maxOpt ∧
    res.2.length = n ∧
    (∀ j, j < n → ¬ S j → j ≠ i → res.2.getD j none = none ∨
      res.2.getD j none = some (specOrderR aft hi rank j)) ∧
    res.2.getD i none = provEntry i res.1 ∧
    (∀ j, S j → res.2.getD j none = memo.getD j none) ∧
    (∀ j, j < n → ¬ S j → j ≠ i → memo.getD j none = some (specOrderR aft hi rank j) →
      res.2.getD j none = some (specOrderR aft hi rank j)) := by
  intro ts
  induction ts with
  | nil =>
      intro maxOpt m res _ hlen hmid hprov hfr hpres hfold
      rw [List.foldl_nil] at hfold
      injection hfold with hfold
      subst hfold
      exact ⟨rfl, hlen, hmid, hprov, hfr, hpres⟩
  | cons t ts2 ih =>
      intro maxOpt m res hts hlen hmid hprov hfr hpres hfold
      rw [List.foldl_cons] at hfold
      rw [List.filterMap_cons]
      have hts2 : ∀ t2 ∈ ts2, ∀ h, indexMaps.vmLookupN hi (jsToString t2) = some h →
          h < n ∧ rank h < rank i :=
        fun t2 ht2 => hts t2 (List.mem_cons_of_mem t ht2)
      simp only [targetStep] at hfold
      rcases hres : indexMaps.vmLookupN hi (jsToString t) with _ | h
      all_goals rw [hres] at hfold
      all_goals rw [show resolveTarget hi t = indexMaps.vmLookupN hi (jsToString t)
        from rfl, hres]
      · exact ih maxOpt m res hts2 hlen hmid hprov hfr hpres hfold
      · rcases hts t (List.mem_cons_self t ts2) h hres with ⟨hhn, hhr⟩
        dsimp only at hfold
        rcases hinit : initF aft hi fuel h m with _ | vm1
        · rw [hinit] at hfold
          rw [foldl_targetStep_none] at hfold
          cases hfold
        · rcases vm1 with ⟨val, m1⟩
          rw [hinit] at hfold
          dsimp only at hfold
          have hcall := IH h m (val, m1) (fun j => S j ∨ j = i) hhn
            (by intro hor
                rcases hor with hS | he
                · exact absurd (hSrk h hS) (Nat.lt_asymm hhr)
                · rw [he] at hhr
                  exact absurd hhr (Nat.lt_irrefl _))
            (by intro j hor
                rcases hor with hS | he
                · exact Nat.lt_trans hhr (hSrk j hS)
                · rw [he]
                  exact hhr)
            hlen
            (by intro j hj hnS
                exact hmid j hj (fun hS => hnS (Or.inl hS)) (fun he => hnS (Or.inr he)))
            hinit
          rcases hcall with ⟨hval, hlen1, hself1, hnoc1, hfr1, hpres1⟩
          have hv2 : val = specOrderR aft hi rank h := hval
          subst hv2
          have hmid1 : ∀ j, j < n → ¬ S j → j ≠ i → m1.getD j none = none ∨
              m1.getD j none = some (specOrderR aft hi rank j) := by
            intro j hj hnS hne
            exact hnoc1 j hj (fun hor => hor.elim hnS hne)
          have hprov1 : m1.getD i none = provEntry i maxOpt := by
            rw [hfr1 i (Or.inr rfl)]
            exact hprov
          have hfrm1 : ∀ j, S j → m1.getD j none = memo.getD j none := by
            intro j hj
            rw [hfr1 j (Or.inl hj)]
            exact hfr j hj
          have hpres2 : ∀ j, j < n → ¬ S j → j ≠ i →
              memo.getD j none = some (specOrderR aft hi rank j) →
              m1.getD j none = some (specOrderR aft hi rank j) := by
            intro j hj hnS hne hsome
            exact hpres1 j hj (fun hor => hor.elim hnS hne) (hpres j hj hnS hne hsome)
          rw [List.map_cons, List.foldl_cons]
          cases maxOpt with
          | none =>
              rw [show (match (none : Option Int) with
                  | none => true
                  | some mx => decide (mx = 0 ∨ specOrderR aft hi rank h > mx)) = true
                from rfl, if_pos rfl] at hfold
              have hout := ih (some (specOrderR aft hi rank h))
                (m1.set i (some (specOrderR aft hi rank h + 1))) res hts2
                (by rw [List.length_set]; exact hlen1)
                (by intro j hj hnS hne
                    rw [memo_getD_set_ne m1 i j _ (fun he => hne he.symm)]
                    exact hmid1 j hj hnS hne)
                (by rw [memo_getD_set_self m1 i _ (by rw [hlen1]; exact hin)]
                    rfl)
                (by intro j hjS
                    rw [memo_getD_set_ne m1 i j _ (fun he => hiS (by rw [he]; exact hjS))]
                    exact hfrm1 j hjS)
                (by intro j hj hnS hne hsome
                    rw [memo_getD_set_ne m1 i j _ (fun he => hne he.symm)]
                    exact hpres2 j hj hnS hne hsome)
                hfold
              rw [show jsMaxStep none (specOrderR aft hi rank h) =
                some (specOrderR aft hi rank h) from rfl]
              exact hout
          | some mx =>
              rw [show (match (some mx : Option Int) with
                  | none => true
                  | some mx => decide (mx = 0 ∨ specOrderR aft hi rank h > mx)) =
                  decide (mx = 0 ∨ specOrderR aft hi rank h > mx) from rfl] at hfold
              rw [show jsMaxStep (some mx) (specOrderR aft hi rank h) =
                if mx = 0 ∨ specOrderR aft hi rank h > mx
                then some (specOrderR aft hi rank h)
                else some mx from rfl]
              by_cases hbump : mx = 0 ∨ specOrderR aft hi rank h > mx
              · rw [if_pos (show decide (mx = 0 ∨ specOrderR aft hi rank h > mx) = true
                  from by simpa using hbump)] at hfold
                have hout := ih (some (specOrderR aft hi rank h))
                  (m1.set i (some (specOrderR aft hi rank h + 1))) res hts2
                  (by rw [List.length_set]; exact hlen1)
                  (by intro j hj hnS hne
                      rw [memo_getD_set_ne m1 i j _ (fun he => hne he.symm)]
                      exact hmid1 j hj hnS hne)
                  (by rw [memo_getD_set_self m1 i _ (by rw [hlen1]; exact hin)]
                      rfl)
                  (by intro j hjS
                      rw [memo_getD_set_ne m1 i j _ (fun he => hiS (by rw [he]; exact hjS))]
                      exact hfrm1 j hjS)
                  (by intro j hj hnS hne hsome
                      rw [memo_getD_set_ne m1 i j _ (fun he => hne he.symm)]
                      exact hpres2 j hj hnS hne hsome)
                  hfold
                rw [if_pos hbump]
                exact hout
              · rw [if_neg (show ¬ decide (mx = 0 ∨ specOrderR aft hi rank h > mx) = true
                  from by simpa using hbump)] at hfold
                have hout := ih (some mx) m1 res hts2 hlen1 hmid1 hprov1 hfrm1 hpres2 hfold
                rw [if_neg hbump]
                exact hout



theorem initF_spec (aft : List (List JSVal)) (hi : List (String × Nat)) (n : Nat)
    (rank : Nat → Nat)
    (hb : ∀ j, j < n → ∀ h ∈ resTargets aft hi j, h < n ∧ rank h < rank j) :
    ∀ fuel i memo res (S : Nat → Prop), i < n → ¬ S i →
    (∀ j, S j → rank i < rank j) → memo.length = n →
    (∀ j, j < n → ¬ S j → memo.getD j none = none ∨
      memo.getD j none = some (specOrderR aft hi rank j)) →
    initF aft hi fuel i memo = some res →
    res.1 = specOrderR aft hi rank i ∧ res.2.length = n ∧
    res.2.getD i none = some (specOrderR aft hi rank i) ∧
    (∀ j, j < n → ¬ S j → res.2.getD j none = none ∨
      res.2.getD j none = some (specOrderR aft hi rank j)) ∧
    (∀ j, S j → res.2.getD j none = memo.getD j none) ∧
    (∀ j, j < n → ¬ S j → memo.getD j none = some (specOrderR aft hi rank j) →
      res.2.getD j none = some (specOrderR aft hi rank j)) := by
  intro fuel
  induction fuel with
  | zero =>
      intro i memo res S _ _ _ _ _ hrun
      cases hrun
  | succ f ih =>
      intro i memo res S hin hiS hSrk hlen hpre hrun
      by_cases hhit : memoTruthy (memo.getD i none) = true
      · rw [initF_eq_hit aft hi f i memo hhit] at hrun
        injection hrun with hrun
        subst hrun
        rcases hpre i hin hiS with hc | hc
        · rw [hc] at hhit
          cases hhit
        · exact ⟨by rw [hc]; rfl, hlen, hc, hpre, fun j _ => rfl,
            fun j hj hnS hs => hs⟩
      · have hh : memoTruthy (memo.getD i none) = false :=
          Bool.eq_false_iff.mpr (fun hc => hhit hc)
        by_cases hemp : aft.getD i [] = []
        · rw [initF_eq_empty aft hi f i memo hh hemp] at hrun
          injection hrun with hrun
          subst hrun
          have hres0 : resTargets aft hi i = [] := by
            rw [resTargets, hemp]
            rfl
          have hspec : specOrderR aft hi rank i = (i : Int) * CONSTRAINT_SCALE := by
            rw [show specOrderR aft hi rank i = specOrder aft hi (rank i) i from rfl]
            exact specOrder_empty aft hi i hres0 (rank i)
          refine ⟨by rw [hspec], by rw [List.length_set]; exact hlen, ?_, ?_, ?_, ?_⟩
          · rw [memo_getD_set_self memo i _ (by rw [hlen]; exact hin), hspec]
          · intro j hj hnS
            by_cases hji : j = i
            · subst hji
              rw [memo_getD_set_self memo j _ (by rw [hlen]; exact hin), hspec]
              exact Or.inr rfl
            · rw [memo_getD_set_ne memo i j _ (fun he => hji he.symm)]
              exact hpre j hj hnS
          · intro j hjS
            rw [memo_getD_set_ne memo i j _ (fun he => hiS (by rw [he]; exact hjS))]
          · intro j hj hnS hsome
            by_cases hji : j = i
            · subst hji
              rw [memo_getD_set_self memo j _ (by rw [hlen]; exact hin), hspec]
            · rw [memo_getD_set_ne memo i j _ (fun he => hji he.symm)]
              exact hsome
        · rw [initF_eq_fold aft hi f i memo hh hemp] at hrun
          rcases hfold : (aft.getD i []).foldl (targetStep aft hi f i)
              (some (none, memo.set i (some ((i : Int) * CONSTRAINT_SCALE)))) with _ | acc
          · rw [hfold] at hrun
            cases hrun
          · rcases acc with ⟨maxOpt, m⟩
            rw [hfold] at hrun
            dsimp only at hrun
            have hts : ∀ t ∈ aft.getD i [], ∀ h,
                indexMaps.vmLookupN hi (jsToString t) = some h →
                h < n ∧ rank h < rank i := by
              intro t ht h hresv
              refine hb i hin h ?_
              rw [resTargets]
              exact List.mem_filterMap.mpr ⟨t, ht, hresv⟩
            have hstep := targetFold_spec aft hi n rank f ih i hin S hiS hSrk memo
              (aft.getD i []) none (memo.set i (some ((i : Int) * CONSTRAINT_SCALE)))
              (maxOpt, m) hts
              (by rw [List.length_set]; exact hlen)
              (by intro j hj hnS hne
                  rw [memo_getD_set_ne memo i j _ (fun he => hne he.symm)]
                  exact hpre j hj hnS)
              (by rw [memo_getD_set_self memo i _ (by rw [hlen]; exact hin)]
                  rfl)
              (by intro j hjS
                  rw [memo_getD_set_ne memo i j _ (fun he => hiS (by rw [he]; exact hjS))])
              (by intro j hj hnS hne hsome
                  rw [memo_getD_set_ne memo i j _ (fun he => hne he.symm)]
                  exact hsome)
              hfold
            rcases hstep with ⟨hmax, hlenm, hmidm, hprovm, hfrm, hpresm⟩
            have hmaxeq : specMax ((resTargets aft hi i).map (specOrderR aft hi rank)) =
                maxOpt := by
              rw [show specMax ((resTargets aft hi i).map (specOrderR aft hi rank)) =
                (((aft.getD i []).filterMap (resolveTarget hi)).map
                  (specOrderR aft hi rank)).foldl jsMaxStep none from rfl]
              exact hmax.symm
            have hclaim := specOrderR_claimOrder aft hi n rank hb i hin
            cases maxOpt with
            | none =>
                have hspec : specOrderR aft hi rank i = (i : Int) * CONSTRAINT_SCALE := by
                  rw [hclaim, claimOrder, hmaxeq]
                dsimp only at hrun
                injection hrun with hrun
                subst hrun
                refine ⟨by rw [hspec], by rw [List.length_set]; exact hlenm, ?_, ?_, ?_, ?_⟩
                · rw [memo_getD_set_self m i _ (by rw [hlenm]; exact hin), hspec]
                · intro j hj hnS
                  by_cases hji : j = i
                  · subst hji
                    rw [memo_getD_set_self m j _ (by rw [hlenm]; exact hin), hspec]
                    exact Or.inr rfl
                  · rw [memo_getD_set_ne m i j _ (fun he => hji he.symm)]
                    exact hmidm j hj hnS hji
                · intro j hjS
                  rw [memo_getD_set_ne m i j _ (fun he => hiS (by rw [he]; exact hjS))]
                  exact hfrm j hjS
                · intro j hj hnS hsome
                  by_cases hji : j = i
                  · subst hji
                    rw [memo_getD_set_self m j _ (by rw [hlenm]; exact hin), hspec]
                  · rw [memo_getD_set_ne m i j _ (fun he => hji he.symm)]
                    exact hpresm j hj hnS hji hsome
            | some mx =>
                have hspec : specOrderR aft hi rank i =
                    if mx ≠ 0 then mx + 1 else (i : Int) * CONSTRAINT_SCALE := by
                  rw [hclaim, claimOrder, hmaxeq]
                dsimp only at hrun
                injection hrun with hrun
                subst hrun
                refine ⟨by rw [hspec], by rw [List.length_set]; exact hlenm, ?_, ?_, ?_, ?_⟩
                · rw [memo_getD_set_self m i _ (by rw [hlenm]; exact hin), hspec]
                · intro j hj hnS
                  by_cases hji : j = i
                  · subst hji
                    rw [memo_getD_set_self m j _ (by rw [hlenm]; exact hin), hspec]
                    exact Or.inr rfl
                  · rw [memo_getD_set_ne m i j _ (fun he => hji he.symm)]
                    exact hmidm j hj hnS hji
                · intro j hjS
                  rw [memo_getD_set_ne m i j _ (fun he => hiS (by rw [he]; exact hjS))]
                  exact hfrm j hjS
                · intro j hj hnS hsome
                  by_cases hji : j = i
                  · subst hji
                    rw [memo_getD_set_self m j _ (by rw [hlenm]; exact hin), hspec]
                  · rw [memo_getD_set_ne m i j _ (fun he => hji he.symm)]
                    exact hpresm j hj hnS hji hsome



theorem ordersTop_aux (aft : List (List JSVal)) (hi : List (String × Nat)) (n : Nat)
    (rank : Nat → Nat)
    (hb : ∀ j, j < n → ∀ h ∈ resTargets aft hi j, h < n ∧ rank h < rank j)
    (fuel : Nat) (memoFin : Memo) :
    ∀ (m : Nat) (k : Nat) (memo : Memo), k + m = n → memo.length = n →
    (∀ j, j < n → memo.getD j none = none ∨
      memo.getD j none = some (specOrderR aft hi rank j)) →
    (∀ j, j < k → memo.getD j none = some (specOrderR aft hi rank j)) →
    (List.range' k m).foldlM
      (fun memo idx => (initF aft hi fuel idx memo).map (·.2)) memo = some memoFin →
    memoFin.length = n ∧
    ∀ j, j < n → memoFin.getD j none = some (specOrderR aft hi rank j) := by
  intro m
  induction m with
  | zero =>
      intro k memo hk hlen _ hlo hfold
      rw [List.range'_zero, List.foldlM_nil] at hfold
      injection hfold with hfold
      subst hfold
      exact ⟨hlen, fun j hj => hlo j (by omega)⟩
  | succ m2 ih =>
      intro k memo hk hlen hnoc hlo hfold
      rw [show List.range' k (m2 + 1) = k :: List.range' (k + 1) m2 from rfl,
        List.foldlM_cons] at hfold
      rcases hinit : initF aft hi fuel k memo with _ | r
      · rw [hinit] at hfold
        cases hfold
      · rw [hinit] at hfold
        rw [Option.map_some'] at hfold
        rw [show ∀ (x : Memo) (g : Memo → Option Memo), (some x >>= g) = g x from
          fun x g => rfl] at hfold
        have hcall := initF_spec aft hi n rank hb fuel k memo r (fun _ => False)
          (by omega) (fun hc => hc) (fun j hj => False.elim hj) hlen
          (fun j hj _ => hnoc j hj) hinit
        rcases hcall with ⟨_, hlen2, hself2, hnoc2, _, hpres2⟩
        refine ih (k + 1) r.2 (by omega) hlen2
          (fun j hj => hnoc2 j hj (fun hc => hc)) ?_ hfold
        intro j hj
        rcases Nat.lt_or_eq_of_le (Nat.le_of_lt_succ hj) with hj2 | hj2
        · exact hpres2 j (by omega) (fun hc => hc) (hlo j hj2)
        · subst hj2
          exact hself2

theorem ordersTop_spec (aft : List (List JSVal)) (hi : List (String × Nat)) (n : Nat)
    (rank : Nat → Nat)
    (hb : ∀ j, j < n → ∀ h ∈ resTargets aft hi j, h < n ∧ rank h < rank j)
    (fuel : Nat) (memoFin : Memo) (h : ordersTopF aft hi fuel n = some memoFin) :
    memoFin.length = n ∧
    ∀ j, j < n → memoFin.getD j none = some (specOrderR aft hi rank j) := by
  rw [ordersTopF] at h
  rw [show List.range n = List.range' 0 n from by rw [List.range_eq_range']] at h
  exact ordersTop_aux aft hi n rank hb fuel memoFin n 0
    (List.replicate n none) (by omega) (List.length_replicate n none)
    (fun j _ => Or.inl (replicate_getD_none n j))
    (fun j hj => absurd hj (Nat.not_lt_zero j)) h



/-- The after table of _getConstraintOrders after the before conversion. -/
def afterTable (items : List JSVal) : List (List JSVal) :=
  convertBefore (indexMaps items).1
    (items.map fun item => arrElems (getField item "after")) items

theorem getConstraintOrdersF_eq (fuel : Nat) (items : List JSVal) :
    getConstraintOrdersF fuel items =
      (ordersTopF (afterTable items) (indexMaps items).2 fuel items.length).map
        (fun memo => (memo.map (fun o => o.getD 0), afterTable items)) := rfl

theorem claimOrder_congr (aft : List (List JSVal)) (hi : List (String × Nat))
    (f g : Nat → Int) (i : Nat) (h : ∀ t ∈ resTargets aft hi i, f t = g t) :
    claimOrder aft hi f i = claimOrder aft hi g i := by
  rw [claimOrder, claimOrder, List.map_congr_left h]

/-- Two items, the second after the first. -/
def c2items : List JSVal :=
  [obj [("name", .vstr "a")],
   obj [("name", .vstr "b"), ("after", arr [.vstr "a"])]]

/-- Their pre-sort pipeline stage. -/
def c2pre : List JSVal :=
  excludeDisabled (mergeVirtuals (applySchema (cfgId 500) c2items))

/-- Two items forming a circular reference (a after b, b after a). -/
def c2cyc : List JSVal :=
  [obj [("name", .vstr "a"), ("after", arr [.vstr "b"])],
   obj [("name", .vstr "b"), ("after", arr [.vstr "a"])]]

/-- Their pre-sort pipeline stage. -/
def c2cycPre : List JSVal :=
  excludeDisabled (mergeVirtuals (applySchema (cfgId 500) c2cyc))

/-- Two items with a forward reference: the first is after the second. -/
def c2fwd : List JSVal :=
  [obj [("name", .vstr "b"), ("after", arr [.vstr "c"])],
   obj [("name", .vstr "c")]]

/-- Their pre-sort pipeline stage. -/
def c2fwdPre : List JSVal :=
  excludeDisabled (mergeVirtuals (applySchema (cfgId 500) c2fwd))

/-- C2 amended: for every completed order computation on an acyclic
constraint graph - acyclicity certified by a rank function that strictly
decreases along every resolving after edge, backward or forward - the
order table satisfies the recurrence of the claim corrected by the falsy
fallback of the source: order(i) is i * SCALE when item i has no after
target resolving to a recorded highIndex OR when the running maximum of
the resolved target orders is zero (the source tests the max for
truthiness), and that maximum plus one otherwise, where the running
maximum replaces an unset or zero accumulator and any smaller one (the
source test is !max || val > max).  On circular graphs the recurrence can
fail (see the counterexample: the two cycle completes with orders
[1003, 1002], and 1002 differs from the 1003 + 1 the recurrence demands),
because the memoised recursion reads provisional values. -/
theorem c2_order_recurrence (fuel : Nat) (pre : List JSVal)
    (orders : List Int) (aftOut : List (List JSVal)) (rank : Nat → Nat)
    (hb : ∀ i, i < pre.length →
      ∀ h ∈ resTargets (afterTable pre) (indexMaps pre).2 i,
        h < pre.length ∧ rank h < rank i)
    (hrun : getConstraintOrdersF fuel pre = some (orders, aftOut)) :
    ∀ i, i < pre.length →
      orders.getD i 0 =
        claimOrder (afterTable pre) (indexMaps pre).2 (fun j => orders.getD j 0) i := by
  rw [getConstraintOrdersF_eq] at hrun
  rcases Option.map_eq_some'.mp hrun with ⟨memo, hmemo, heq⟩
  cases heq
  rcases ordersTop_spec (afterTable pre) (indexMaps pre).2 pre.length rank hb fuel
    memo hmemo with ⟨hlen, hval⟩
  have hgi : ∀ j, j < pre.length →
      ((memo.map (fun o => o.getD 0)).getD j 0 =
        specOrderR (afterTable pre) (indexMaps pre).2 rank j) := by
    intro j hj
    have hmj := hval j hj
    rcases hq : memo.get? j with _ | e
    · rw [List.getD, hq] at hmj
      cases hmj
    · rw [List.getD, hq, Option.getD_some] at hmj
      subst hmj
      rw [List.getD, List.get?_eq_getElem?, List.getElem?_map]
      rw [show memo[j]? =
          some (some (specOrderR (afterTable pre) (indexMaps pre).2 rank j))
        from by rw [← List.get?_eq_getElem?]; exact hq]
      rfl
  intro i hi
  rw [hgi i hi]
  rw [specOrderR_claimOrder (afterTable pre) (indexMaps pre).2 pre.length rank hb i hi]
  refine claimOrder_congr _ _ _ _ i ?_
  intro t ht
  rcases hb i hi t ht with ⟨htn, _⟩
  rw [hgi t htn]



/-- The literal claim fails on [{name: a}, {name: b, after: [a]}]: item b
has a resolving after target (a, highIndex 0, order 0), so the claim
demands order 0 + 1 = 1 for b, but the source treats the running max 0 as
falsy and falls back to idx * SCALE = 1000.  And the restriction of the
amendment to acyclic graphs is forced: on the two cycle
[{name: a, after: [b]}, {name: b, after: [a]}] the computation completes
with orders [1003, 1002], and at index 1 (whose resolving target 0 has
order 1003) the recurrence demands 1003 + 1 = 1004, not 1002: the cycle
re-enters the memo at a provisional value, so even the corrected
recurrence fails on circular graphs. -/
theorem c2_claim_counterexample :
    ((getConstraintOrdersF 10 c2pre).map (fun r => r.1) = some [0, 1000] ∧
     (indexMaps c2pre).2 = [("a", 0), ("b", 1)] ∧
     afterTable c2pre = [[], [JSVal.vstr "a"]] ∧
     resTargets (afterTable c2pre) (indexMaps c2pre).2 1 = [0] ∧
     ¬ (1000 : Int) = 0 + 1) ∧
    ((getConstraintOrdersF 10 c2cycPre).map (fun r => r.1) = some [1003, 1002] ∧
     resTargets (afterTable c2cycPre) (indexMaps c2cycPre).2 1 = [0] ∧
     claimOrder (afterTable c2cycPre) (indexMaps c2cycPre).2
       (fun j => ([1003, 1002] : List Int).getD j 0) 1 = 1004 ∧
     ¬ ([1003, 1002] : List Int).getD 1 0 = 1004) := by
  exact ⟨⟨by decide, by decide, by decide, by decide, by decide⟩,
    ⟨by decide, by decide, by decide, by decide⟩⟩

/-- Witness for C2 at two inputs: the backward edge pair (table [0, 1000],
rank the identity) and the forward reference pair (table [1001, 1000],
rank reversed): the completed tables satisfy the amended recurrence at
every index. -/
theorem c2_order_recurrence_witness :
    (([0, 1000] : List Int).getD 0 0 =
      claimOrder (afterTable c2pre) (indexMaps c2pre).2
        (fun j => ([0, 1000] : List Int).getD j 0) 0 ∧
     ([0, 1000] : List Int).getD 1 0 =
      claimOrder (afterTable c2pre) (indexMaps c2pre).2
        (fun j => ([0, 1000] : List Int).getD j 0) 1) ∧
    (([1001, 1000] : List Int).getD 0 0 =
      claimOrder (afterTable c2fwdPre) (indexMaps c2fwdPre).2
        (fun j => ([1001, 1000] : List Int).getD j 0) 0 ∧
     ([1001, 1000] : List Int).getD 1 0 =
      claimOrder (afterTable c2fwdPre) (indexMaps c2fwdPre).2
        (fun j => ([1001, 1000] : List Int).getD j 0) 1) :=
  ⟨⟨c2_order_recurrence 10 c2pre [0, 1000] [[], [JSVal.vstr "a"]] (fun j => j)
      (by decide) (by decide) 0 (by decide),
    c2_order_recurrence 10 c2pre [0, 1000] [[], [JSVal.vstr "a"]] (fun j => j)
      (by decide) (by decide) 1 (by decide)⟩,
   ⟨c2_order_recurrence 10 c2fwdPre [1001, 1000] [[JSVal.vstr "c"], []] (fun j => 1 - j)
      (by decide) (by decide) 0 (by decide),
    c2_order_recurrence 10 c2fwdPre [1001, 1000] [[JSVal.vstr "c"], []] (fun j => 1 - j)
      (by decide) (by decide) 1 (by decide)⟩⟩

/-! ## C9: before and after equivalence -/

/-- Positional reading of zip. -/
theorem zip_getElem2 {α β : Type} : ∀ (l1 : List α) (l2 : List β) (i : Nat),
    (l1.zip l2)[i]? = l1[i]?.bind fun a => l2[i]?.map fun b => (a, b) := by
  intro l1
  induction l1 with
  | nil => intro l2 i; rfl
  | cons a t1 ih =>
      intro l2 i
      cases l2 with
      | nil => cases i <;> simp
      | cons b t2 =>
          cases i with
          | zero => simp [List.zip_cons_cons]
          | succ j =>
              rw [List.zip_cons_cons, List.getElem?_cons_succ, List.getElem?_cons_succ,
                List.getElem?_cons_succ]
              exact ih t2 j

/-- Positional reading of zipWith. -/
theorem zipWith_getElem2 {α β γ : Type} (f : α → β → γ) :
    ∀ (l1 : List α) (l2 : List β) (i : Nat),
    (List.zipWith f l1 l2)[i]? = l1[i]?.bind fun a => l2[i]?.map fun b => f a b := by
  intro l1
  induction l1 with
  | nil => intro l2 i; rfl
  | cons a t1 ih =>
      intro l2 i
      cases l2 with
      | nil => cases i <;> simp
      | cons b t2 =>
          cases i with
          | zero => simp [List.zipWith_cons_cons]
          | succ j =>
              rw [List.zipWith_cons_cons, List.getElem?_cons_succ, List.getElem?_cons_succ,
                List.getElem?_cons_succ]
              exact ih t2 j

/-- Positional reading of the decoration: entry j pairs item j with order j
and the index j itself. -/
theorem decorate_getElem2 (l : List JSVal) (o : List Int) (j : Nat) :
    (decorate l o)[j]? = l[j]?.bind fun x => o[j]?.map fun v => (x, v, j) := by
  rw [decorate, List.getElem?_map, zip_getElem2, zip_getElem2]
  rcases hx : l[j]? with _ | x
  · rfl
  · have hj : j < l.length := by
      have := List.getElem?_eq_some_iff.mp hx
      rcases this with ⟨hj, _⟩
      exact hj
    have hr : (List.range l.length)[j]? = some j := by
      rw [List.getElem?_range hj]
    rw [hr]
    rcases o[j]? with _ | v <;> rfl



/-- Replacing every payload by the item at the same index of another list
of equal length turns one decoration into the other. -/
theorem decorate_map_payload (l1 l2 : List JSVal) (o : List Int)
    (hlen : l1.length = l2.length)
    (f : JSVal × Int × Nat → JSVal × Int × Nat)
    (hf : ∀ x v k, f (x, v, k) = (l2.getD k .vundef, v, k)) :
    (decorate l1 o).map f = decorate l2 o := by
  apply List.ext_getElem?
  intro j
  rw [List.getElem?_map, decorate_getElem2, decorate_getElem2]
  rcases hx : l1[j]? with _ | x
  · have hx2 : l2[j]? = none := by
      rw [List.getElem?_eq_none_iff] at hx ⊢
      rw [← hlen]
      exact hx
    rw [hx2]
    rfl
  · have hj : j < l2.length := by
      rw [← hlen]
      exact (List.getElem?_eq_some_iff.mp hx).1
    rcases hx2 : l2[j]? with _ | y
    · rw [List.getElem?_eq_none_iff] at hx2
      omega
    · rcases hv : o[j]? with _ | v
      · rfl
      · rw [show (some x).bind (fun x => (some v).map fun v2 => (x, v2, j)) =
          some (x, v, j) from rfl]
        rw [Option.map_some', hf]
        rw [show l2.getD j .vundef = (l2[j]?).getD .vundef from by
          rw [List.getD_eq_getElem?_getD]]
        rw [hx2]
        rfl

/-- A decorated entry carries the item stored at its own index. -/
theorem decorate_mem_struct (l : List JSVal) (o : List Int)
    (p : JSVal × Int × Nat) (hp : p ∈ decorate l o) :
    l[p.2.2]? = some p.1 := by
  rcases List.mem_iff_getElem?.mp hp with ⟨j, hj⟩
  rw [decorate_getElem2] at hj
  rcases hx : l[j]? with _ | x
  · rw [hx] at hj
    cases hj
  · rw [hx] at hj
    rcases hv : o[j]? with _ | v
    · rw [hv] at hj
      cases hj
    · rw [hv] at hj
      rw [show (some x).bind (fun x => (some v).map fun v2 => (x, v2, j)) =
        some (x, v, j) from rfl] at hj
      injection hj with hj
      rw [← hj]
      exact hx

/-- The comparator reads only the group of the payload and the decoration
pair, so payloads with equal group fields compare equally. -/
theorem cmpItems_congr_payload (dg : Int) (a b a2 b2 : JSVal × Int × Nat)
    (hga : getField a2.1 "group" = getField a.1 "group")
    (hgb : getField b2.1 "group" = getField b.1 "group")
    (hoa : a2.2 = a.2) (hob : b2.2 = b.2) :
    cmpItems dg a2 b2 = cmpItems dg a b := by
  rw [cmpItems, cmpItems, hga, hgb, hoa, hob]



/-- _sortItems emits the same name sequence on two pre-sort stages of equal
length with pointwise equal names and groups, equal index maps and an
equal after table: the order computation and the stable sort read nothing
else of the items. -/
theorem sortItems_names_congr (cfg : SorterConfig) (fuel : Nat) (pre1 pre2 : List JSVal)
    (hlen : pre1.length = pre2.length)
    (hpt : ∀ k, k < pre1.length →
      getField (pre1.getD k .vundef) "name" = getField (pre2.getD k .vundef) "name" ∧
      getField (pre1.getD k .vundef) "group" = getField (pre2.getD k .vundef) "group")
    (hmaps : indexMaps pre1 = indexMaps pre2)
    (haft : afterTable pre1 = afterTable pre2) :
    (sortItemsF cfg fuel pre1).map (List.map (fun o => getField o "name")) =
      (sortItemsF cfg fuel pre2).map (List.map (fun o => getField o "name")) := by
  rw [sortItemsF, sortItemsF, sortedDecoratedF, sortedDecoratedF,
    getConstraintOrdersF_eq, getConstraintOrdersF_eq, haft, hmaps, hlen]
  rcases h : ordersTopF (afterTable pre2) (indexMaps pre2).2 fuel pre2.length with _ | memo
  · rfl
  · simp only [Option.map_some']
    congr 1
    rw [List.map_map, List.map_map]
    set ords := memo.map (fun o => o.getD 0) with hords
    set aftT := afterTable pre2 with haftT
    set l1 := writeAfterAll pre1 aftT with hl1
    set l2 := writeAfterAll pre2 aftT with hl2
    have hl : l1.length = l2.length := by
      rw [hl1, hl2, writeAfterAll, writeAfterAll, List.length_zipWith,
        List.length_zipWith, hlen]
    have hpt2 : ∀ k, k < l1.length →
        getField (l1.getD k .vundef) "name" = getField (l2.getD k .vundef) "name" ∧
        getField (l1.getD k .vundef) "group" = getField (l2.getD k .vundef) "group" := by
      intro k hk
      have hk1 : k < pre1.length := by
        rw [hl1, writeAfterAll, List.length_zipWith] at hk
        omega
      have hk2 : k < pre2.length := by rw [← hlen]; exact hk1
      have hka : k < aftT.length := by
        rw [hl1, writeAfterAll, List.length_zipWith] at hk
        omega
      rcases List.getElem?_eq_some_iff.mpr ⟨hk1, rfl⟩ with hx1
      have hx1 : pre1[k]? = some pre1[k] := List.getElem?_eq_some_iff.mpr ⟨hk1, rfl⟩
      have hx2 : pre2[k]? = some pre2[k] := List.getElem?_eq_some_iff.mpr ⟨hk2, rfl⟩
      have hxa : aftT[k]? = some aftT[k] := List.getElem?_eq_some_iff.mpr ⟨hka, rfl⟩
      have he1 : l1.getD k .vundef = writeAfter pre1[k] aftT[k] := by
        rw [List.getD_eq_getElem?_getD, hl1, writeAfterAll, zipWith_getElem2,
          hx1, hxa]
        rfl
      have he2 : l2.getD k .vundef = writeAfter pre2[k] aftT[k] := by
        rw [List.getD_eq_getElem?_getD, hl2, writeAfterAll, zipWith_getElem2,
          hx2, hxa]
        rfl
      have hp1 : pre1.getD k .vundef = pre1[k] := by
        rw [List.getD_eq_getElem?_getD, hx1]
        rfl
      have hp2 : pre2.getD k .vundef = pre2[k] := by
        rw [List.getD_eq_getElem?_getD, hx2]
        rfl
      rcases hpt k hk1 with ⟨hn, hg⟩
      rw [hp1, hp2] at hn hg
      constructor
      · rw [he1, he2, getField_writeAfter_ne _ _ _ (by decide),
          getField_writeAfter_ne _ _ _ (by decide)]
        exact hn
      · rw [he1, he2, getField_writeAfter_ne _ _ _ (by decide),
          getField_writeAfter_ne _ _ _ (by decide)]
        exact hg
    have hd2 : (decorate l1 ords).map
        (fun e => (l2.getD e.2.2 .vundef, e.2.1, e.2.2)) = decorate l2 ords :=
      decorate_map_payload l1 l2 ords hl _ (fun x v k => rfl)
    rw [← hd2]
    rw [sortByCmp_map (fun a b => cmpItems cfg.defaultGroup
        ((fun e => (l2.getD e.2.2 .vundef, e.2.1, e.2.2)) a)
        ((fun e => (l2.getD e.2.2 .vundef, e.2.1, e.2.2)) b))
      (cmpItems cfg.defaultGroup)
      (fun e => (l2.getD e.2.2 .vundef, e.2.1, e.2.2))
      (fun a b => rfl) (decorate l1 ords)]
    have hidx : ∀ e, e ∈ decorate l1 ords → l1[e.2.2]? = some e.1 :=
      fun e he => decorate_mem_struct l1 ords e he
    have hgeq : ∀ e, e ∈ decorate l1 ords →
        getField (l2.getD e.2.2 .vundef) "name" = getField e.1 "name" ∧
        getField (l2.getD e.2.2 .vundef) "group" = getField e.1 "group" := by
      intro e he
      have hsome := hidx e he
      have hklt : e.2.2 < l1.length := (List.getElem?_eq_some_iff.mp hsome).1
      have hval : l1.getD e.2.2 .vundef = e.1 := by
        rw [List.getD_eq_getElem?_getD, hsome]
        rfl
      rcases hpt2 e.2.2 hklt with ⟨hn, hg⟩
      rw [hval] at hn hg
      exact ⟨hn.symm, hg.symm⟩
    have hcongr : sortByCmp (fun a b => cmpItems cfg.defaultGroup
        (l2.getD a.2.2 .vundef, a.2.1, a.2.2) (l2.getD b.2.2 .vundef, b.2.1, b.2.2))
        (decorate l1 ords) =
        sortByCmp (cmpItems cfg.defaultGroup) (decorate l1 ords) := by
      refine sortByCmp_congr _ _ _ ?_
      intro a ha b hb
      refine cmpItems_congr_payload cfg.defaultGroup a b _ _ ?_ ?_ rfl rfl
      · exact (hgeq a ha).2
      · exact (hgeq b hb).2
    rw [hcongr]
    rw [List.map_map]
    refine List.map_congr_left ?_
    intro e he
    have hemem : e ∈ decorate l1 ords :=
      (sortByCmp_perm (cmpItems cfg.defaultGroup) (decorate l1 ords)).mem_iff.mp he
    exact ((hgeq e hemem).1).symm



/-- An input item with a name, a group and explicit after/before arrays. -/
def mkItem (n : String) (g : JSVal) (af bf : List JSVal) : JSVal :=
  obj [("name", .vstr n), ("group", g), ("after", arr af), ("before", arr bf)]

/-- Its _applySchema image: the base after/before arrays merged over,
keeping key insertion order after, before, name, group. -/
def schemedItem (n : String) (g : JSVal) (af bf : List JSVal) : JSVal :=
  .vobj (.cons "after" (.varr (JSList.ofList af))
    (.cons "before" (.varr (JSList.ofList bf))
      (.cons "name" (.vstr n) (.cons "group" g .nil))))

/-- _applySchema evaluates mkItem to schemedItem (scalar group values copy
as they are). -/
theorem applySchemaItem_mkItem (dg : Int) (n : String) (g : JSVal)
    (af bf : List JSVal) (hg : scalarB g = true) :
    applySchemaItem (cfgId dg) (mkItem n g af bf) = schemedItem n g af bf := by
  have hgu := scalarB_ne_undef g hg
  have e1 : mergePropVal JSVal.vundef (JSVal.vstr n) = JSVal.vstr n := rfl
  have e2 : mergePropVal JSVal.vundef g = g := mergePropVal_scalar _ _ (Or.inl rfl) hg
  rw [applySchemaItem_cfgId]
  rw [show mkItem n g af bf = JSVal.vobj (.cons "name" (.vstr n) (.cons "group" g
    (.cons "after" (.varr (JSList.ofList af)) (.cons "before" (.varr (JSList.ofList bf))
    .nil)))) from rfl]
  rw [show mergeInto baseFields (JSVal.vobj (.cons "name" (.vstr n) (.cons "group" g
    (.cons "after" (.varr (JSList.ofList af)) (.cons "before" (.varr (JSList.ofList bf))
    .nil))))) = mergeFields baseFields (.cons "name" (.vstr n) (.cons "group" g
    (.cons "after" (.varr (JSList.ofList af)) (.cons "before" (.varr (JSList.ofList bf))
    .nil)))) from rfl]
  rw [schemedItem]
  simp [mergeFields, mergeProp, baseFields, JSFields.lookup, JSFields.set,
    e1, e2, hgu, mergePropVal]
  exact ⟨rfl, rfl⟩



/-- The sorted items of an all-object pre-sort stage are objects. -/
theorem sortItemsF_obj (dg : Int) (fuel : Nat) (pre l : List JSVal)
    (hpre : ∀ p ∈ pre, ∃ fs, p = JSVal.vobj fs)
    (hs : sortItemsF (cfgId dg) fuel pre = some l) :
    ∀ o ∈ l, ∃ fs, o = JSVal.vobj fs := by
  intro o ho
  rw [sortItemsF] at hs
  rcases Option.map_eq_some'.mp hs with ⟨dec, hdec, hdec2⟩
  rw [sortedDecoratedF] at hdec
  rcases Option.map_eq_some'.mp hdec with ⟨r, _, hr2⟩
  rw [← hdec2] at ho
  rcases List.mem_map.mp ho with ⟨p, hp, rfl⟩
  rw [← hr2] at hp
  have hp2 : p ∈ decorate (writeAfterAll pre r.2) r.1 :=
    (sortByCmp_perm _ _).mem_iff.mp hp
  have hp3 : p.1 ∈ writeAfterAll pre r.2 := decorate_mem _ _ _ hp2
  rw [writeAfterAll] at hp3
  rcases mem_zipWith _ _ _ _ hp3 with ⟨x, af, hx, _, heq⟩
  rcases hpre x hx with ⟨fs, rfl⟩
  rw [heq]
  exact writeAfter_obj fs af

/-- Two well formed identity-config runs whose sort stages agree on names
agree on the names of the full run (finalize is the identity and drops
nothing on object outputs). -/
theorem runList_names_congr (dg : Int) (fuel : Nat) (items1 items2 : List JSVal)
    (hwf1 : ∀ i ∈ items1, truthy i = true ∧ isPlainObject i = true ∧
      isString (getField i "name") = true)
    (hwf2 : ∀ i ∈ items2, truthy i = true ∧ isPlainObject i = true ∧
      isString (getField i "name") = true)
    (hcong : (sortItemsF (cfgId dg) fuel
        (excludeDisabled (mergeVirtuals (applySchema (cfgId dg) items1)))).map
          (List.map (fun o => getField o "name")) =
      (sortItemsF (cfgId dg) fuel
        (excludeDisabled (mergeVirtuals (applySchema (cfgId dg) items2)))).map
          (List.map (fun o => getField o "name"))) :
    (runList fuel (cfgId dg) items1).map
      (Except.map (List.map (fun o => getField o "name"))) =
    (runList fuel (cfgId dg) items2).map
      (Except.map (List.map (fun o => getField o "name"))) := by
  rw [runList, runList, runF, runF, JSList.toList_ofList, JSList.toList_ofList,
    normalizeItems_ok_id dg items1 hwf1, normalizeItems_ok_id dg items2 hwf2]
  dsimp only
  set pre1 := excludeDisabled (mergeVirtuals (applySchema (cfgId dg) items1)) with hpre1
  set pre2 := excludeDisabled (mergeVirtuals (applySchema (cfgId dg) items2)) with hpre2
  rcases h1 : sortItemsF (cfgId dg) fuel pre1 with _ | l1
  · rw [h1] at hcong
    have h2 : sortItemsF (cfgId dg) fuel pre2 = none := by
      rcases h2a : sortItemsF (cfgId dg) fuel pre2 with _ | l2
      · rfl
      · rw [h2a] at hcong
        cases hcong
    rw [h2]
  · rw [h1] at hcong
    rcases h2 : sortItemsF (cfgId dg) fuel pre2 with _ | l2
    · rw [h2] at hcong
      cases hcong
    · rw [h2] at hcong
      rw [Option.map_some', Option.map_some'] at hcong
      injection hcong with hnames
      dsimp only
      rw [finalizeItems_id_of_obj dg l1
        (sortItemsF_obj dg fuel pre1 l1 (preSort_obj (cfgId dg) items1) h1)]
      rw [finalizeItems_id_of_obj dg l2
        (sortItemsF_obj dg fuel pre2 l2 (preSort_obj (cfgId dg) items2) h2)]
      rw [Option.map_some', Option.map_some']
      rw [show ∀ l : List JSVal, Except.map (List.map (fun o => getField o "name"))
        (Except.ok l : Except String (List JSVal)) =
        .ok (l.map (fun o => getField o "name")) from fun l => rfl]
      rw [show ∀ l : List JSVal, Except.map (List.map (fun o => getField o "name"))
        (Except.ok l : Except String (List JSVal)) =
        .ok (l.map (fun o => getField o "name")) from fun l => rfl]
      rw [hnames]



/-- Positional reading of set. -/
theorem getElem2_set {α : Type} : ∀ (l : List α) (i j : Nat) (v : α),
    (l.set i v)[j]? = if i = j ∧ i < l.length then some v else l[j]? := by
  intro l
  induction l with
  | nil =>
      intro i j v
      rw [if_neg (fun hc => Nat.not_lt_zero i hc.2)]
      cases i <;> rfl
  | cons x t ih =>
      intro i j v
      cases i with
      | zero =>
          cases j with
          | zero =>
              rw [List.set_cons_zero, List.getElem?_cons_zero,
                if_pos ⟨rfl, Nat.succ_pos _⟩]
          | succ j2 =>
              rw [List.set_cons_zero,
                if_neg (fun hc => Nat.succ_ne_zero j2 hc.1.symm),
                List.getElem?_cons_succ, List.getElem?_cons_succ]
      | succ i2 =>
          cases j with
          | zero =>
              rw [List.set_cons_succ, List.getElem?_cons_zero,
                if_neg (fun hc => Nat.succ_ne_zero i2 hc.1),
                List.getElem?_cons_zero]
          | succ j2 =>
              rw [List.set_cons_succ]
              rw [List.getElem?_cons_succ, List.getElem?_cons_succ, ih i2 j2 v]
              by_cases hc : i2 = j2 ∧ i2 < t.length
              · rw [if_pos hc, if_pos (show i2 + 1 = j2 + 1 ∧ i2 + 1 < (x :: t).length
                  from ⟨by omega, by rw [List.length_cons]; omega⟩)]
              · rw [if_neg hc, if_neg (show ¬ (i2 + 1 = j2 + 1 ∧
                    i2 + 1 < (x :: t).length) from fun hc2 => hc
                  ⟨Nat.succ_injective hc2.1,
                    by have h3 := hc2.2; rw [List.length_cons] at h3; omega⟩)]




/-- Entries of two lists that differ at one position agree elsewhere. -/
theorem getElem2_one_off {α : Type} : ∀ (N K : List α) (b1 b2 : α) (j : Nat),
    j ≠ N.length → (N ++ b1 :: K)[j]? = (N ++ b2 :: K)[j]? := by
  intro N
  induction N with
  | nil =>
      intro K b1 b2 j hj
      cases j with
      | zero => exact absurd rfl hj
      | succ j2 => rfl
  | cons x t ih =>
      intro K b1 b2 j hj
      cases j with
      | zero =>
          rw [List.cons_append, List.cons_append, List.getElem?_cons_zero,
            List.getElem?_cons_zero]
      | succ j2 =>
          rw [List.cons_append, List.cons_append, List.getElem?_cons_succ,
            List.getElem?_cons_succ]
          refine ih K b1 b2 j2 ?_
          rw [List.length_cons] at hj
          omega

/-- The entry at the seam of an append-cons list. -/
theorem getElem2_seg_mid {α : Type} : ∀ (N K : List α) (b : α),
    (N ++ b :: K)[N.length]? = some b := by
  intro N
  induction N with
  | nil =>
      intro K b
      rw [List.nil_append, List.length_nil, List.getElem?_cons_zero]
  | cons x t ih =>
      intro K b
      rw [List.cons_append, List.length_cons, List.getElem?_cons_succ]
      exact ih K b

/-- The default read at the seam of an append-cons list. -/
theorem getD_seg_mid {α : Type} (d : α) : ∀ (N K : List α) (b : α),
    (N ++ b :: K).getD N.length d = b := by
  intro N K b
  rw [List.getD_eq_getElem?_getD, getElem2_seg_mid]
  rfl

/-- Defaulted entries of two one-hole lists: equal away from the hole, the
respective fillers at the hole. -/
theorem getD_seg1 {α : Type} (d : α) (b1 b2 : α) :
    ∀ (Y Z : List α) (k : Nat),
    (Y ++ b1 :: Z).getD k d = (Y ++ b2 :: Z).getD k d ∨
      ((Y ++ b1 :: Z).getD k d = b1 ∧ (Y ++ b2 :: Z).getD k d = b2) := by
  intro Y
  induction Y with
  | nil =>
      intro Z k
      cases k with
      | zero => exact Or.inr ⟨rfl, rfl⟩
      | succ k2 => exact Or.inl rfl
  | cons y t ih =>
      intro Z k
      cases k with
      | zero => exact Or.inl rfl
      | succ k2 =>
          rw [List.cons_append, List.cons_append, List.getD_cons_succ,
            List.getD_cons_succ]
          exact ih Z k2

/-- Defaulted entries of two two-hole lists. -/
theorem getD_seg2 {α : Type} (d : α) (a1 a2 b1 b2 : α) :
    ∀ (X Y Z : List α) (k : Nat),
    (X ++ a1 :: (Y ++ b1 :: Z)).getD k d = (X ++ a2 :: (Y ++ b2 :: Z)).getD k d ∨
      ((X ++ a1 :: (Y ++ b1 :: Z)).getD k d = a1 ∧
        (X ++ a2 :: (Y ++ b2 :: Z)).getD k d = a2) ∨
      ((X ++ a1 :: (Y ++ b1 :: Z)).getD k d = b1 ∧
        (X ++ a2 :: (Y ++ b2 :: Z)).getD k d = b2) := by
  intro X
  induction X with
  | nil =>
      intro Y Z k
      cases k with
      | zero => exact Or.inr (Or.inl ⟨rfl, rfl⟩)
      | succ k2 =>
          rcases getD_seg1 d b1 b2 Y Z k2 with h | h
          · exact Or.inl h
          · exact Or.inr (Or.inr h)
  | cons x t ih =>
      intro Y Z k
      cases k with
      | zero => exact Or.inl rfl
      | succ k2 =>
          rw [List.cons_append, List.cons_append, List.getD_cons_succ,
            List.getD_cons_succ]
          exact ih Y Z k2

/-- One step of the index map fold of _getConstraintOrders, as a named
function (definitionally the lambda of indexMaps). -/
def imStep (lohi : List (String × Nat) × List (String × Nat)) (p : JSVal × Nat) :
    List (String × Nat) × List (String × Nat) :=
  let (lo, hi) := lohi
  let key := jsToString (getField p.1 "name")
  let lo' := match indexMaps.vmLookupN lo key with
    | none => lo ++ [(key, p.2)]
    | some _ => lo
  let hi' := match indexMaps.vmLookupN hi key with
    | none => hi ++ [(key, p.2)]
    | some h => if p.2 > h then indexMaps.vmSetN hi key p.2 else hi
  (lo', hi')

theorem indexMaps_eq_fold (items : List JSVal) :
    indexMaps items =
      (items.zip (List.range items.length)).foldl imStep ([], []) := rfl

theorem imStep_eq (lo hi : List (String × Nat)) (x : JSVal) (n : Nat) :
    imStep (lo, hi) (x, n) =
      ((match indexMaps.vmLookupN lo (jsToString (getField x "name")) with
        | none => lo ++ [(jsToString (getField x "name"), n)]
        | some _ => lo),
       (match indexMaps.vmLookupN hi (jsToString (getField x "name")) with
        | none => hi ++ [(jsToString (getField x "name"), n)]
        | some h => if n > h then
            indexMaps.vmSetN hi (jsToString (getField x "name")) n
          else hi)) := rfl

/-- The index map fold reads only the coerced names of the items. -/
theorem imFold_congr :
    ∀ (items1 items2 : List JSVal) (ns : List Nat)
      (acc : List (String × Nat) × List (String × Nat)),
    items1.map (fun i => jsToString (getField i "name")) =
      items2.map (fun i => jsToString (getField i "name")) →
    (items1.zip ns).foldl imStep acc = (items2.zip ns).foldl imStep acc := by
  intro items1
  induction items1 with
  | nil =>
      intro items2 ns acc h
      cases items2 with
      | nil => rfl
      | cons y t => cases h
  | cons x t1 ih =>
      intro items2 ns acc h
      cases items2 with
      | nil => cases h
      | cons y t2 =>
          rw [List.map_cons, List.map_cons] at h
          injection h with h1 h2
          cases ns with
          | nil => rfl
          | cons n nt =>
              rw [List.zip_cons_cons, List.zip_cons_cons, List.foldl_cons,
                List.foldl_cons]
              rcases acc with ⟨lo, hi⟩
              rw [show imStep (lo, hi) (x, n) = imStep (lo, hi) (y, n) from by
                rw [imStep_eq, imStep_eq]
                simp only [h1]]
              exact ih t2 nt _ h2

/-- The index maps depend only on the coerced names. -/
theorem indexMaps_congr (items1 items2 : List JSVal)
    (h : items1.map (fun i => jsToString (getField i "name")) =
      items2.map (fun i => jsToString (getField i "name"))) :
    indexMaps items1 = indexMaps items2 := by
  have hlen : items1.length = items2.length := by
    have h2 := congrArg List.length h
    rw [List.length_map, List.length_map] at h2
    exact h2
  rw [indexMaps_eq_fold, indexMaps_eq_fold, hlen]
  exact imFold_congr items1 items2 (List.range items2.length) ([], []) h

theorem vmLookupN_append (m2 : List (String × Nat)) :
    ∀ (m1 : List (String × Nat)) (key : String),
    indexMaps.vmLookupN (m1 ++ m2) key =
      match indexMaps.vmLookupN m1 key with
      | some v => some v
      | none => indexMaps.vmLookupN m2 key := by
  intro m1
  induction m1 with
  | nil => intro key; rfl
  | cons q rest ih =>
      intro key
      rcases q with ⟨k, v⟩
      rw [List.cons_append, indexMaps.vmLookupN, indexMaps.vmLookupN]
      by_cases hk : k = key
      · rw [if_pos hk, if_pos hk]
      · rw [if_neg hk, if_neg hk]
        exact ih key

theorem vmLookupN_mem :
    ∀ (m : List (String × Nat)) (key : String) (v : Nat),
    indexMaps.vmLookupN m key = some v → (key, v) ∈ m := by
  intro m
  induction m with
  | nil => intro key v h; cases h
  | cons q rest ih =>
      intro key v h
      rcases q with ⟨k, w⟩
      rw [indexMaps.vmLookupN] at h
      by_cases hk : k = key
      · rw [if_pos hk] at h
        injection h with h2
        subst hk
        subst h2
        exact List.mem_cons_self _ _
      · rw [if_neg hk] at h
        exact List.mem_cons_of_mem _ (ih key v h)

/-- A name present in the low map survives the rest of the fold with its
value (the fold only appends new names). -/
theorem imFold_low_stable :
    ∀ (items : List JSVal) (ns : List Nat) (lo hi : List (String × Nat))
      (key : String) (v : Nat),
    indexMaps.vmLookupN lo key = some v →
    indexMaps.vmLookupN (((items.zip ns).foldl imStep (lo, hi)).1) key = some v := by
  intro items
  induction items with
  | nil =>
      intro ns lo hi key v h
      rw [show (([] : List JSVal).zip ns) = [] from rfl, List.foldl_nil]
      exact h
  | cons x t ih =>
      intro ns lo hi key v h
      cases ns with
      | nil =>
          rw [List.zip_nil_right, List.foldl_nil]
          exact h
      | cons n nt =>
          rw [List.zip_cons_cons, List.foldl_cons, imStep_eq]
          rcases hkx : indexMaps.vmLookupN lo (jsToString (getField x "name"))
            with _ | w
          · dsimp only
            refine ih nt _ _ key v ?_
            rw [vmLookupN_append, h]
          · dsimp only
            exact ih nt _ _ key v h

/-- The first occurrence of a name fixes its low index: an unseen name is
recorded at the index where it first appears. -/
theorem imFold_low_first :
    ∀ (X : List JSVal) (b : JSVal) (Y : List JSVal) (k0 : Nat)
      (lo hi : List (String × Nat)) (key : String),
    indexMaps.vmLookupN lo key = none →
    (∀ x ∈ X, jsToString (getField x "name") ≠ key) →
    jsToString (getField b "name") = key →
    indexMaps.vmLookupN
      ((((X ++ b :: Y).zip (List.range' k0 (X ++ b :: Y).length)).foldl imStep
        (lo, hi)).1) key = some (k0 + X.length) := by
  intro X
  induction X with
  | nil =>
      intro b Y k0 lo hi key hlo _ hb
      rw [List.nil_append, List.length_nil, Nat.add_zero]
      rw [show (b :: Y).length = Y.length + 1 from rfl]
      rw [show List.range' k0 (Y.length + 1) = k0 :: List.range' (k0 + 1) Y.length
        from rfl]
      rw [List.zip_cons_cons, List.foldl_cons, imStep_eq, hb, hlo]
      dsimp only
      refine imFold_low_stable Y _ _ _ key k0 ?_
      rw [vmLookupN_append, hlo]
      rw [show indexMaps.vmLookupN [(key, k0)] key = some k0 from by
        rw [indexMaps.vmLookupN, if_pos rfl]]
  | cons x t ih =>
      intro b Y k0 lo hi key hlo hX hb
      rw [List.cons_append]
      rw [show (x :: (t ++ b :: Y)).length = (t ++ b :: Y).length + 1 from rfl]
      rw [show List.range' k0 ((t ++ b :: Y).length + 1) =
        k0 :: List.range' (k0 + 1) (t ++ b :: Y).length from rfl]
      rw [List.zip_cons_cons, List.foldl_cons, imStep_eq]
      have hxk : jsToString (getField x "name") ≠ key :=
        hX x (List.mem_cons_self _ _)
      rw [show k0 + (x :: t).length = (k0 + 1) + t.length from by
        rw [List.length_cons]; omega]
      rcases hkx : indexMaps.vmLookupN lo (jsToString (getField x "name"))
        with _ | w
      · dsimp only
        refine ih b Y (k0 + 1) _ _ key ?_
          (fun z hz => hX z (List.mem_cons_of_mem _ hz)) hb
        rw [vmLookupN_append, hlo]
        rw [show indexMaps.vmLookupN [(jsToString (getField x "name"), k0)] key =
          none from by rw [indexMaps.vmLookupN, if_neg hxk]; rfl]
      · dsimp only
        exact ih b Y (k0 + 1) lo _ key hlo
          (fun z hz => hX z (List.mem_cons_of_mem _ hz)) hb

/-- lowIndices[name] is the index of the first item with that name. -/
theorem indexMaps_low_first (X : List JSVal) (b : JSVal) (Y : List JSVal)
    (key : String)
    (hX : ∀ x ∈ X, jsToString (getField x "name") ≠ key)
    (hb : jsToString (getField b "name") = key) :
    indexMaps.vmLookupN (indexMaps (X ++ b :: Y)).1 key = some X.length := by
  rw [indexMaps_eq_fold]
  rw [show List.range (X ++ b :: Y).length =
    List.range' 0 (X ++ b :: Y).length from by rw [List.range_eq_range']]
  have h := imFold_low_first X b Y 0 [] [] key rfl hX hb
  rw [Nat.zero_add] at h
  exact h

/-- Every low map entry points at an item carrying that name. -/
theorem imFold_low_sound (full : List JSVal) :
    ∀ (items : List JSVal) (k0 : Nat) (lo hi : List (String × Nat)),
    (∀ p ∈ lo, p.2 < full.length ∧
      jsToString (getField (full.getD p.2 JSVal.vundef) "name") = p.1) →
    (∀ j, j < items.length →
      items.getD j JSVal.vundef = full.getD (k0 + j) JSVal.vundef) →
    k0 + items.length ≤ full.length →
    ∀ p ∈ (((items.zip (List.range' k0 items.length)).foldl imStep (lo, hi)).1),
    p.2 < full.length ∧
      jsToString (getField (full.getD p.2 JSVal.vundef) "name") = p.1 := by
  intro items
  induction items with
  | nil =>
      intro k0 lo hi hinv _ _ p hp
      rw [List.length_nil, List.range'_zero, List.zip_nil_right,
        List.foldl_nil] at hp
      exact hinv p hp
  | cons x t ih =>
      intro k0 lo hi hinv hidx hle p hp
      rw [show (x :: t).length = t.length + 1 from rfl] at hp hle hidx
      rw [show List.range' k0 (t.length + 1) =
        k0 :: List.range' (k0 + 1) t.length from rfl,
        List.zip_cons_cons, List.foldl_cons, imStep_eq] at hp
      have hx0 : x = full.getD k0 JSVal.vundef := by
        have h0 := hidx 0 (by omega)
        rw [Nat.add_zero] at h0
        exact h0
      have hidx2 : ∀ j, j < t.length →
          t.getD j JSVal.vundef = full.getD (k0 + 1 + j) JSVal.vundef := by
        intro j hj
        have h2 := hidx (j + 1) (by omega)
        rw [show k0 + (j + 1) = k0 + 1 + j from by omega] at h2
        exact h2
      rcases hkx : indexMaps.vmLookupN lo (jsToString (getField x "name"))
        with _ | w
      · rw [hkx] at hp
        dsimp only at hp
        refine ih (k0 + 1) _ _ ?_ hidx2 (by omega) p hp
        intro q hq
        rcases List.mem_append.mp hq with hq1 | hq2
        · exact hinv q hq1
        · rcases List.mem_singleton.mp hq2 with rfl
          refine ⟨show k0 < full.length by omega, ?_⟩
          show jsToString (getField (full.getD k0 JSVal.vundef) "name") =
            jsToString (getField x "name")
          rw [← hx0]
      · rw [hkx] at hp
        dsimp only at hp
        exact ih (k0 + 1) lo _ hinv hidx2 (by omega) p hp

/-- A low map hit names the item that sits at the returned index. -/
theorem indexMaps_low_sound (items : List JSVal) (key : String) (j : Nat)
    (h : indexMaps.vmLookupN (indexMaps items).1 key = some j) :
    j < items.length ∧
      jsToString (getField (items.getD j JSVal.vundef) "name") = key := by
  rw [indexMaps_eq_fold] at h
  rw [show List.range items.length = List.range' 0 items.length from by
    rw [List.range_eq_range']] at h
  have hmem := vmLookupN_mem _ key j h
  exact imFold_low_sound items items 0 [] []
    (fun p hp => absurd hp (List.not_mem_nil p))
    (fun j2 _ => by rw [Nat.zero_add])
    (by omega) (key, j) hmem

/-- One push of the before conversion, as a named function. -/
def cbPush (low : List (String × Nat)) (name0 : JSVal)
    (aft2 : List (List JSVal)) (target : JSVal) : List (List JSVal) :=
  match indexMaps.vmLookupN low (jsToString target) with
  | some idx => aft2.set idx (aft2.getD idx [] ++ [name0])
  | none => aft2

/-- One item of the before conversion, as a named function (definitionally
the lambda of convertBefore). -/
def cbStep (low : List (String × Nat)) (aft : List (List JSVal))
    (item : JSVal) : List (List JSVal) :=
  (arrElems (getField item "before")).foldl
    (fun aft2 target =>
      match indexMaps.vmLookupN low (jsToString target) with
      | some idx => aft2.set idx (aft2.getD idx [] ++ [getField item "name"])
      | none => aft2)
    aft

theorem convertBefore_eq_fold (low : List (String × Nat))
    (aft0 : List (List JSVal)) (items : List JSVal) :
    convertBefore low aft0 items = items.foldl (cbStep low) aft0 := rfl

theorem cbStep_eq (low : List (String × Nat)) (a : List (List JSVal))
    (item : JSVal) :
    cbStep low a item =
      (arrElems (getField item "before")).foldl
        (cbPush low (getField item "name")) a := rfl

theorem cbStep_nil_before (low : List (String × Nat)) (a : List (List JSVal))
    (item : JSVal) (h : arrElems (getField item "before") = []) :
    cbStep low a item = a := by
  rw [cbStep_eq, h, List.foldl_nil]

theorem cbStep_single (low : List (String × Nat)) (a : List (List JSVal))
    (item : JSVal) (t : JSVal) (idx : Nat)
    (h : arrElems (getField item "before") = [t])
    (hl : indexMaps.vmLookupN low (jsToString t) = some idx) :
    cbStep low a item = a.set idx (a.getD idx [] ++ [getField item "name"]) := by
  rw [cbStep_eq, h, List.foldl_cons, List.foldl_nil, cbPush, hl]

/-- Pushing targets that never resolve to iB keeps entry iB untouched and
preserves the pointwise relation of two tables that differ only at iB. -/
theorem cbPush_fold_rel (low : List (String × Nat)) (iB : Nat) (name0 : JSVal) :
    ∀ (ts : List JSVal) (a1 a2 : List (List JSVal)),
    a1.length = a2.length →
    (∀ j, j ≠ iB → a1[j]? = a2[j]?) →
    (∀ t ∈ ts, indexMaps.vmLookupN low (jsToString t) ≠ some iB) →
    (ts.foldl (cbPush low name0) a1).length = a1.length ∧
    (ts.foldl (cbPush low name0) a2).length = a2.length ∧
    (∀ j, j ≠ iB → (ts.foldl (cbPush low name0) a1)[j]? =
      (ts.foldl (cbPush low name0) a2)[j]?) ∧
    (ts.foldl (cbPush low name0) a1)[iB]? = a1[iB]? ∧
    (ts.foldl (cbPush low name0) a2)[iB]? = a2[iB]? := by
  intro ts
  induction ts with
  | nil =>
      intro a1 a2 hlen hoff _
      exact ⟨rfl, rfl, hoff, rfl, rfl⟩
  | cons t ts2 ih =>
      intro a1 a2 hlen hoff hts
      rw [List.foldl_cons, List.foldl_cons]
      have hnt : indexMaps.vmLookupN low (jsToString t) ≠ some iB :=
        hts t (List.mem_cons_self _ _)
      have hts2 : ∀ t2 ∈ ts2, indexMaps.vmLookupN low (jsToString t2) ≠ some iB :=
        fun t2 h2 => hts t2 (List.mem_cons_of_mem _ h2)
      rcases hkt : indexMaps.vmLookupN low (jsToString t) with _ | idx
      · rw [show cbPush low name0 a1 t = a1 from by rw [cbPush, hkt]]
        rw [show cbPush low name0 a2 t = a2 from by rw [cbPush, hkt]]
        exact ih a1 a2 hlen hoff hts2
      · have hne : idx ≠ iB := fun he => hnt (he ▸ hkt)
        have hidxeq : a1.getD idx [] = a2.getD idx [] := by
          rw [List.getD_eq_getElem?_getD, List.getD_eq_getElem?_getD, hoff idx hne]
        rw [show cbPush low name0 a1 t =
          a1.set idx (a1.getD idx [] ++ [name0]) from by rw [cbPush, hkt]]
        rw [show cbPush low name0 a2 t =
          a2.set idx (a2.getD idx [] ++ [name0]) from by rw [cbPush, hkt]]
        have hout := ih (a1.set idx (a1.getD idx [] ++ [name0]))
          (a2.set idx (a2.getD idx [] ++ [name0]))
          (by rw [List.length_set, List.length_set, hlen])
          (by intro j hj
              rw [getElem2_set, getElem2_set, hidxeq, hlen]
              by_cases hc : idx = j ∧ idx < a2.length
              · rw [if_pos hc, if_pos hc]
              · rw [if_neg hc, if_neg hc]
                exact hoff j hj)
          hts2
        rcases hout with ⟨o1, o2, o3, o4, o5⟩
        refine ⟨by rw [o1, List.length_set], by rw [o2, List.length_set], o3, ?_, ?_⟩
        · rw [o4, getElem2_set, if_neg (fun hc => hne hc.1)]
        · rw [o5, getElem2_set, if_neg (fun hc => hne hc.1)]

/-- The item level version of cbPush_fold_rel. -/
theorem cbFold_rel (low : List (String × Nat)) (iB : Nat) :
    ∀ (items : List JSVal) (a1 a2 : List (List JSVal)),
    a1.length = a2.length →
    (∀ j, j ≠ iB → a1[j]? = a2[j]?) →
    (∀ i ∈ items, ∀ t ∈ arrElems (getField i "before"),
      indexMaps.vmLookupN low (jsToString t) ≠ some iB) →
    (items.foldl (cbStep low) a1).length = a1.length ∧
    (items.foldl (cbStep low) a2).length = a2.length ∧
    (∀ j, j ≠ iB → (items.foldl (cbStep low) a1)[j]? =
      (items.foldl (cbStep low) a2)[j]?) ∧
    (items.foldl (cbStep low) a1)[iB]? = a1[iB]? ∧
    (items.foldl (cbStep low) a2)[iB]? = a2[iB]? := by
  intro items
  induction items with
  | nil =>
      intro a1 a2 hlen hoff _
      exact ⟨rfl, rfl, hoff, rfl, rfl⟩
  | cons i items2 ih =>
      intro a1 a2 hlen hoff hts
      rw [List.foldl_cons, List.foldl_cons, cbStep_eq, cbStep_eq]
      have hstep := cbPush_fold_rel low iB (getField i "name")
        (arrElems (getField i "before")) a1 a2 hlen hoff
        (hts i (List.mem_cons_self _ _))
      rcases hstep with ⟨s1, s2, s3, s4, s5⟩
      have hrest := ih _ _ (by rw [s1, s2, hlen]) s3
        (fun i2 h2 => hts i2 (List.mem_cons_of_mem _ h2))
      rcases hrest with ⟨r1, r2, r3, r4, r5⟩
      refine ⟨by rw [r1, s1], by rw [r2, s2], r3, ?_, ?_⟩
      · rw [r4, s4]
      · rw [r5, s5]

/-- The after and before element lists of a schemed item. -/
theorem schemedItem_after_elems (n : String) (g : JSVal) (af bf : List JSVal) :
    arrElems (getField (schemedItem n g af bf) "after") = af := by
  rw [show getField (schemedItem n g af bf) "after" =
    JSVal.varr (JSList.ofList af) from rfl]
  rw [show arrElems (JSVal.varr (JSList.ofList af)) =
    (JSList.ofList af).toList from rfl]
  rw [JSList.toList_ofList]

theorem schemedItem_before_elems (n : String) (g : JSVal) (af bf : List JSVal) :
    arrElems (getField (schemedItem n g af bf) "before") = bf := by
  rw [show getField (schemedItem n g af bf) "before" =
    JSVal.varr (JSList.ofList bf) from rfl]
  rw [show arrElems (JSVal.varr (JSList.ofList bf)) =
    (JSList.ofList bf).toList from rfl]
  rw [JSList.toList_ofList]

/-- The coerced name of a schemed item. -/
theorem schemedItem_nameStr (n : String) (g : JSVal) (af bf : List JSVal) :
    jsToString (getField (schemedItem n g af bf) "name") = n := rfl

/-- The coerced name of an item with a single string valued name key. -/
theorem NamedStr.nameStr {item : JSVal} {s : String} (h : NamedStr item s) :
    jsToString (getField item "name") = s := by
  rw [h.nameField]
  rfl

/-- Merging a single valued source key over a single valued destination
key stores mergePropVal of the pair. -/
theorem merge_keyVals_pair (src : JSFields) :
    ∀ (des : JSFields) (k : String) (d0 v : JSVal), des.keyVals k = [d0] →
    src.keyVals k = [v] → mergePropVal d0 v ≠ JSVal.vundef →
    (mergeFields des src).keyVals k = [mergePropVal d0 v] := by
  induction src using JSFields.inductFields with
  | hnil => intro des k d0 v _ h _; cases h
  | hcons prop sv rest ih =>
      intro des k d0 v hdes hsrc hnv
      by_cases hk : prop = k
      · subst hk
        rw [JSFields.keyVals, if_pos rfl] at hsrc
        injection hsrc with h1 h2
        subst h1
        rw [mergeFields_cons_eq, merge_keyVals_none rest _ prop h2]
        rw [mergeProp, keyVals_single_lookup des prop d0 hdes, Option.getD_some]
        rw [if_neg hnv]
        exact keyVals_set_of_single des prop d0 _ hdes
      · rw [JSFields.keyVals, if_neg hk] at hsrc
        rw [mergeFields_cons_eq]
        refine ih _ k d0 v ?_ hsrc hnv
        rw [mergeProp_keyVals_ne des prop k sv hk]
        exact hdes

/-- A key absent from both the base and the item is falsy after
_applySchema. -/
theorem applySchemaItem_falsy_absent (dg : Int) (fs : JSFields) (k : String)
    (hbase : baseFields.keyVals k = []) (h : fs.keyVals k = []) :
    truthy (getField (applySchemaItem (cfgId dg) (JSVal.vobj fs)) k) = false := by
  rw [applySchemaItem_cfgId]
  rw [show mergeInto baseFields (JSVal.vobj fs) = mergeFields baseFields fs from rfl]
  have hm : (mergeFields baseFields fs).keyVals k = [] := by
    rw [merge_keyVals_none fs baseFields k h]
    exact hbase
  rw [getField, JSFields.keyVals_nil_lookup _ _ hm]
  rfl

/-- An item without a before key gets the fresh empty before array. -/
theorem applySchemaItem_before_nil (dg : Int) (fs : JSFields)
    (h : fs.keyVals "before" = []) :
    arrElems (getField (applySchemaItem (cfgId dg) (JSVal.vobj fs)) "before") =
      [] := by
  rw [applySchemaItem_cfgId]
  rw [show mergeInto baseFields (JSVal.vobj fs) = mergeFields baseFields fs from rfl]
  have hm : (mergeFields baseFields fs).keyVals "before" = [JSVal.varr .nil] := by
    rw [merge_keyVals_none fs baseFields "before" h]
    rfl
  rw [getField, keyVals_single_lookup _ _ _ hm, Option.getD_some]
  rfl

/-- An item with a single array valued before key keeps its elements: the
array concatenates onto the fresh empty base array. -/
theorem applySchemaItem_before_arr (dg : Int) (fs : JSFields) (bs : JSList)
    (h : fs.keyVals "before" = [JSVal.varr bs]) :
    arrElems (getField (applySchemaItem (cfgId dg) (JSVal.vobj fs)) "before") =
      bs.toList := by
  rw [applySchemaItem_cfgId]
  rw [show mergeInto baseFields (JSVal.vobj fs) = mergeFields baseFields fs from rfl]
  have hm : (mergeFields baseFields fs).keyVals "before" = [JSVal.varr bs] := by
    have hp := merge_keyVals_pair fs baseFields "before" (JSVal.varr .nil)
      (JSVal.varr bs) rfl h (fun hc => by cases hc)
    rw [show mergePropVal (JSVal.varr .nil) (JSVal.varr bs) =
      JSVal.varr bs from rfl] at hp
    exact hp
  rw [getField, keyVals_single_lookup _ _ _ hm, Option.getD_some]
  rfl

/-- The disabled filter keeps every item with a falsy disable field. -/
theorem excludeDisabled_id (items : List JSVal)
    (h : ∀ i ∈ items, truthy (getField i "disable") = false) :
    excludeDisabled items = items := by
  rw [excludeDisabled]
  refine List.filter_eq_self.mpr ?_
  intro a ha
  simp [h a ha]

/-- Folding the before conversion over two segment configurations that
differ only in the single before edge of A and the matching extra after
element of B yields the same table: A's push lands exactly on entry
V.length (B's slot), where the explicit after edge of the second
configuration already sits; items before A never touch that slot, and
after A's step the two tables coincide, so the remaining steps agree. -/
theorem cbFold_seg (low : List (String × Nat)) (nA : String) (tB : JSVal)
    (X Y Z : List JSVal) (V K : List (List JSVal)) (aB : List JSVal)
    (sA1 sA2 sB1 sB2 : JSVal)
    (hA1b : arrElems (getField sA1 "before") = [tB])
    (hA1n : getField sA1 "name" = JSVal.vstr nA)
    (hA2b : arrElems (getField sA2 "before") = [])
    (hB1b : arrElems (getField sB1 "before") = [])
    (hB2b : arrElems (getField sB2 "before") = [])
    (hlook : indexMaps.vmLookupN low (jsToString tB) = some V.length)
    (htgX : ∀ i ∈ X, ∀ t ∈ arrElems (getField i "before"),
      indexMaps.vmLookupN low (jsToString t) ≠ some V.length) :
    (X ++ sA1 :: (Y ++ sB1 :: Z)).foldl (cbStep low) (V ++ aB :: K) =
      (X ++ sA2 :: (Y ++ sB2 :: Z)).foldl (cbStep low)
        (V ++ (aB ++ [JSVal.vstr nA]) :: K) := by
  have hT1 : (X ++ sA1 :: (Y ++ sB1 :: Z)).foldl (cbStep low) (V ++ aB :: K) =
      Z.foldl (cbStep low)
        (cbStep low
          (Y.foldl (cbStep low)
            (cbStep low (X.foldl (cbStep low) (V ++ aB :: K)) sA1)) sB1) := by
    rw [List.foldl_append, List.foldl_cons, List.foldl_append, List.foldl_cons]
  have hT2 : (X ++ sA2 :: (Y ++ sB2 :: Z)).foldl (cbStep low)
        (V ++ (aB ++ [JSVal.vstr nA]) :: K) =
      Z.foldl (cbStep low)
        (cbStep low
          (Y.foldl (cbStep low)
            (cbStep low (X.foldl (cbStep low)
              (V ++ (aB ++ [JSVal.vstr nA]) :: K)) sA2)) sB2) := by
    rw [List.foldl_append, List.foldl_cons, List.foldl_append, List.foldl_cons]
  rw [hT1, hT2]
  have relX := cbFold_rel low V.length X (V ++ aB :: K)
    (V ++ (aB ++ [JSVal.vstr nA]) :: K)
    (by simp only [List.length_append, List.length_cons])
    (fun j hj => getElem2_one_off V K aB (aB ++ [JSVal.vstr nA]) j hj)
    htgX
  rcases relX with ⟨x1, x2, x3, x4, x5⟩
  have hS1iB : (X.foldl (cbStep low) (V ++ aB :: K))[V.length]? = some aB := by
    rw [x4]
    exact getElem2_seg_mid V K aB
  have hS2iB : (X.foldl (cbStep low)
      (V ++ (aB ++ [JSVal.vstr nA]) :: K))[V.length]? =
      some (aB ++ [JSVal.vstr nA]) := by
    rw [x5]
    exact getElem2_seg_mid V K _
  have hA1 : cbStep low (X.foldl (cbStep low) (V ++ aB :: K)) sA1 =
      (X.foldl (cbStep low) (V ++ aB :: K)).set V.length
        (aB ++ [JSVal.vstr nA]) := by
    rw [cbStep_single low _ sA1 tB V.length hA1b hlook]
    rw [List.getD_eq_getElem?_getD, hS1iB, hA1n]
    rfl
  have hA2 : cbStep low (X.foldl (cbStep low)
      (V ++ (aB ++ [JSVal.vstr nA]) :: K)) sA2 =
      X.foldl (cbStep low) (V ++ (aB ++ [JSVal.vstr nA]) :: K) :=
    cbStep_nil_before low _ sA2 hA2b
  have hAeq : (X.foldl (cbStep low) (V ++ aB :: K)).set V.length
      (aB ++ [JSVal.vstr nA]) =
      X.foldl (cbStep low) (V ++ (aB ++ [JSVal.vstr nA]) :: K) := by
    have hlt : V.length < (X.foldl (cbStep low) (V ++ aB :: K)).length := by
      rw [x1]
      simp only [List.length_append, List.length_cons]
      omega
    refine List.ext_getElem? ?_
    intro j
    by_cases hj : V.length = j
    · subst hj
      rw [getElem2_set, if_pos ⟨rfl, hlt⟩, hS2iB]
    · rw [getElem2_set, if_neg (fun hc => hj hc.1)]
      exact x3 j (fun he => hj he.symm)
  rw [hA1, hA2, hAeq]
  rw [cbStep_nil_before low _ sB1 hB1b, cbStep_nil_before low _ sB2 hB2b]

/-- Index maps and after tables of the two segment configurations agree:
all names are pointwise equal, so the index maps coincide; the before edge
of A is pushed onto the after entry of the lowest indexed item named nB -
exactly B's index, since no earlier item is named nB - landing where the
explicit after edge of the second configuration already sits; only a
before target of an item preceding A could interleave with that push, so
only those items are restricted. -/
theorem c9_tables_seg (nA nB : String) (gA gB : JSVal) (aB : List JSVal)
    (X Y Z : List JSVal) (hne : nA ≠ nB)
    (hXname : ∀ x ∈ X ++ Y, jsToString (getField x "name") ≠ nB)
    (htg : ∀ x ∈ X, ∀ t ∈ arrElems (getField x "before"),
      jsToString t ≠ nB) :
    indexMaps (X ++ schemedItem nA gA [] [JSVal.vstr nB] ::
        (Y ++ schemedItem nB gB aB [] :: Z)) =
      indexMaps (X ++ schemedItem nA gA [] [] ::
        (Y ++ schemedItem nB gB (aB ++ [JSVal.vstr nA]) [] :: Z)) ∧
    afterTable (X ++ schemedItem nA gA [] [JSVal.vstr nB] ::
        (Y ++ schemedItem nB gB aB [] :: Z)) =
      afterTable (X ++ schemedItem nA gA [] [] ::
        (Y ++ schemedItem nB gB (aB ++ [JSVal.vstr nA]) [] :: Z)) := by
  have hmaps : indexMaps (X ++ schemedItem nA gA [] [JSVal.vstr nB] ::
      (Y ++ schemedItem nB gB aB [] :: Z)) =
      indexMaps (X ++ schemedItem nA gA [] [] ::
        (Y ++ schemedItem nB gB (aB ++ [JSVal.vstr nA]) [] :: Z)) := by
    refine indexMaps_congr _ _ ?_
    simp only [List.map_append, List.map_cons]
    rfl
  refine ⟨hmaps, ?_⟩
  rw [afterTable, afterTable, convertBefore_eq_fold, convertBefore_eq_fold,
    ← hmaps]
  have hiB : indexMaps.vmLookupN (indexMaps (X ++ schemedItem nA gA [] [JSVal.vstr nB] ::
      (Y ++ schemedItem nB gB aB [] :: Z))).1 nB =
      some (X ++ schemedItem nA gA [] [JSVal.vstr nB] :: Y).length := by
    rw [show X ++ schemedItem nA gA [] [JSVal.vstr nB] ::
        (Y ++ schemedItem nB gB aB [] :: Z) =
        (X ++ schemedItem nA gA [] [JSVal.vstr nB] :: Y) ++
          schemedItem nB gB aB [] :: Z from by
      rw [List.append_assoc, List.cons_append]]
    refine indexMaps_low_first (X ++ schemedItem nA gA [] [JSVal.vstr nB] :: Y)
      (schemedItem nB gB aB []) Z nB ?_ ?_
    · intro x hx
      rcases List.mem_append.mp hx with hx1 | hx2
      · exact hXname x (List.mem_append.mpr (Or.inl hx1))
      · rcases List.mem_cons.mp hx2 with rfl | hx3
        · rw [schemedItem_nameStr]
          exact hne
        · exact hXname x (List.mem_append.mpr (Or.inr hx3))
    · rw [schemedItem_nameStr]
  have hatB : (X ++ schemedItem nA gA [] [JSVal.vstr nB] ::
      (Y ++ schemedItem nB gB aB [] :: Z)).getD
        (X ++ schemedItem nA gA [] [JSVal.vstr nB] :: Y).length JSVal.vundef =
      schemedItem nB gB aB [] := by
    rw [show X ++ schemedItem nA gA [] [JSVal.vstr nB] ::
        (Y ++ schemedItem nB gB aB [] :: Z) =
        (X ++ schemedItem nA gA [] [JSVal.vstr nB] :: Y) ++
          schemedItem nB gB aB [] :: Z from by
      rw [List.append_assoc, List.cons_append]]
    exact getD_seg_mid _ _ _ _
  have hnotiB : ∀ t2 : JSVal, jsToString t2 ≠ nB →
      indexMaps.vmLookupN (indexMaps (X ++ schemedItem nA gA [] [JSVal.vstr nB] ::
        (Y ++ schemedItem nB gB aB [] :: Z))).1 (jsToString t2) ≠
      some (X ++ schemedItem nA gA [] [JSVal.vstr nB] :: Y).length := by
    intro t2 ht2 hc
    rcases indexMaps_low_sound _ (jsToString t2) _ hc with ⟨_, hname⟩
    rw [hatB, schemedItem_nameStr] at hname
    exact ht2 hname.symm
  have haft1 : (X ++ schemedItem nA gA [] [JSVal.vstr nB] ::
      (Y ++ schemedItem nB gB aB [] :: Z)).map
        (fun item => arrElems (getField item "after")) =
      (X.map (fun item => arrElems (getField item "after")) ++
        [] :: Y.map (fun item => arrElems (getField item "after"))) ++
      aB :: Z.map (fun item => arrElems (getField item "after")) := by
    simp only [List.map_append, List.map_cons]
    rw [schemedItem_after_elems, schemedItem_after_elems]
    rw [List.append_assoc, List.cons_append]
  have haft2 : (X ++ schemedItem nA gA [] [] ::
      (Y ++ schemedItem nB gB (aB ++ [JSVal.vstr nA]) [] :: Z)).map
        (fun item => arrElems (getField item "after")) =
      (X.map (fun item => arrElems (getField item "after")) ++
        [] :: Y.map (fun item => arrElems (getField item "after"))) ++
      (aB ++ [JSVal.vstr nA]) ::
        Z.map (fun item => arrElems (getField item "after")) := by
    simp only [List.map_append, List.map_cons]
    rw [schemedItem_after_elems, schemedItem_after_elems]
    rw [List.append_assoc, List.cons_append]
  rw [haft1, haft2]
  have hVlen : (X.map (fun item => arrElems (getField item "after")) ++
      [] :: Y.map (fun item => arrElems (getField item "after"))).length =
      (X ++ schemedItem nA gA [] [JSVal.vstr nB] :: Y).length := by
    simp only [List.length_append, List.length_cons, List.length_map]
  refine cbFold_seg _ nA (JSVal.vstr nB) X Y Z _ _ aB _ _ _ _
    (schemedItem_before_elems nA gA [] [JSVal.vstr nB]) rfl
    (schemedItem_before_elems nA gA [] [])
    (schemedItem_before_elems nB gB aB [])
    (schemedItem_before_elems nB gB (aB ++ [JSVal.vstr nA]) [])
    ?_ ?_
  · show indexMaps.vmLookupN _ nB = _
    rw [hVlen]
    exact hiB
  · intro i hi t ht
    rw [hVlen]
    exact hnotiB t (htg i hi t ht)
/-- C9: an input in which item A declares before: [B] produces the same
name sequence from run() as the otherwise identical input in which
instead B declares after: [A] appended to its other after constraints;
stated for every pair of distinct names, every pair of scalar group
values, every further after list of B, every fuel (the two runs complete
or diverge together), and every surrounding context P, Q, R of well
formed, non virtual, non disabled items none of which is named nB (A and
B each occur exactly once); only the items of P - those preceding A -
must not carry a before target naming nB, since such a push would
interleave with the converted edge (items after A push onto B's entry
identically in both runs).  The before constraint is converted into an
after edge pushed onto the after list of the lowest indexed occurrence
of its target, which is exactly B's entry (c9_tables_seg). -/
theorem c9_before_after_equivalence (dg : Int) (fuel : Nat) (nA nB : String)
    (gA gB : JSVal) (aB : List JSVal) (P Q R : List JSVal) (hne : nA ≠ nB)
    (hgA : scalarB gA = true) (hgB : scalarB gB = true)
    (hctx : ∀ x ∈ P ++ Q ++ R, ∃ fs s, x = JSVal.vobj fs ∧
      fs.keyVals "name" = [JSVal.vstr s] ∧ s ≠ nB ∧
      fs.keyVals "virtual" = [] ∧ fs.keyVals "disable" = [])
    (hbP : ∀ x ∈ P, ∃ fs, x = JSVal.vobj fs ∧
      (fs.keyVals "before" = [] ∨ ∃ bs, fs.keyVals "before" = [JSVal.varr bs] ∧
        ∀ t ∈ bs.toList, jsToString t ≠ nB)) :
    (runList fuel (cfgId dg)
      (P ++ [mkItem nA gA [] [JSVal.vstr nB]] ++ Q ++ [mkItem nB gB aB []] ++ R)).map
      (Except.map (List.map (fun o => getField o "name"))) =
    (runList fuel (cfgId dg)
      (P ++ [mkItem nA gA [] []] ++ Q ++
        [mkItem nB gB (aB ++ [JSVal.vstr nA]) []] ++ R)).map
      (Except.map (List.map (fun o => getField o "name"))) := by
  have hmemP : ∀ x ∈ P, x ∈ P ++ Q ++ R := fun x hx =>
    List.mem_append.mpr (Or.inl (List.mem_append.mpr (Or.inl hx)))
  have hmemQ : ∀ x ∈ Q, x ∈ P ++ Q ++ R := fun x hx =>
    List.mem_append.mpr (Or.inl (List.mem_append.mpr (Or.inr hx)))
  have hmemR : ∀ x ∈ R, x ∈ P ++ Q ++ R := fun x hx =>
    List.mem_append.mpr (Or.inr hx)
  have hwfP : ∀ x ∈ P ++ Q ++ R, truthy x = true ∧ isPlainObject x = true ∧
      isString (getField x "name") = true := by
    intro x hx
    rcases hctx x hx with ⟨fs, s, rfl, hk, _⟩
    refine ⟨rfl, rfl, ?_⟩
    rw [getField, keyVals_single_lookup fs "name" _ hk, Option.getD_some]
    rfl
  have hschCtx : ∀ x ∈ P ++ Q ++ R,
      (∃ s, NamedStr (applySchemaItem (cfgId dg) x) s ∧ s ≠ nB) ∧
      truthy (getField (applySchemaItem (cfgId dg) x) "virtual") = false ∧
      truthy (getField (applySchemaItem (cfgId dg) x) "disable") = false := by
    intro x hx
    rcases hctx x hx with ⟨fs, s, rfl, hk, hsnB, hv, hd⟩
    rcases applySchemaItem_name dg fs s hk with ⟨gs, hg, hgk, _⟩
    exact ⟨⟨s, ⟨gs, hg, hgk⟩, hsnB⟩,
      applySchemaItem_no_virtual dg fs hv,
      applySchemaItem_falsy_absent dg fs "disable" rfl hd⟩
  have hbfP : ∀ x ∈ P,
      ∀ t ∈ arrElems (getField (applySchemaItem (cfgId dg) x) "before"),
      jsToString t ≠ nB := by
    intro x hx t ht
    rcases hbP x hx with ⟨fs, rfl, hbf⟩
    rcases hbf with hb0 | ⟨bs, hbk, hbt⟩
    · rw [applySchemaItem_before_nil dg fs hb0] at ht
      exact absurd ht (List.not_mem_nil t)
    · rw [applySchemaItem_before_arr dg fs bs hbk] at ht
      exact hbt t ht
  apply runList_names_congr
  · intro i hi
    simp only [List.mem_append, List.mem_singleton] at hi
    rcases hi with (((hP | rfl) | hQ) | rfl) | hR
    · exact hwfP i (hmemP i hP)
    · exact ⟨rfl, rfl, rfl⟩
    · exact hwfP i (hmemQ i hQ)
    · exact ⟨rfl, rfl, rfl⟩
    · exact hwfP i (hmemR i hR)
  · intro i hi
    simp only [List.mem_append, List.mem_singleton] at hi
    rcases hi with (((hP | rfl) | hQ) | rfl) | hR
    · exact hwfP i (hmemP i hP)
    · exact ⟨rfl, rfl, rfl⟩
    · exact hwfP i (hmemQ i hQ)
    · exact ⟨rfl, rfl, rfl⟩
    · exact hwfP i (hmemR i hR)
  · rw [show applySchema (cfgId dg) (P ++ [mkItem nA gA [] [JSVal.vstr nB]] ++ Q ++
        [mkItem nB gB aB []] ++ R) =
      P.map (applySchemaItem (cfgId dg)) ++ schemedItem nA gA [] [JSVal.vstr nB] ::
        (Q.map (applySchemaItem (cfgId dg)) ++ schemedItem nB gB aB [] ::
          R.map (applySchemaItem (cfgId dg))) from by
      rw [applySchema]
      simp only [List.map_append, List.map_cons, List.map_nil,
        List.append_assoc, List.singleton_append, List.cons_append,
        List.nil_append]
      rw [applySchemaItem_mkItem dg nA gA [] [JSVal.vstr nB] hgA,
        applySchemaItem_mkItem dg nB gB aB [] hgB]]
    rw [show applySchema (cfgId dg) (P ++ [mkItem nA gA [] []] ++ Q ++
        [mkItem nB gB (aB ++ [JSVal.vstr nA]) []] ++ R) =
      P.map (applySchemaItem (cfgId dg)) ++ schemedItem nA gA [] [] ::
        (Q.map (applySchemaItem (cfgId dg)) ++
          schemedItem nB gB (aB ++ [JSVal.vstr nA]) [] ::
          R.map (applySchemaItem (cfgId dg))) from by
      rw [applySchema]
      simp only [List.map_append, List.map_cons, List.map_nil,
        List.append_assoc, List.singleton_append, List.cons_append,
        List.nil_append]
      rw [applySchemaItem_mkItem dg nA gA [] [] hgA,
        applySchemaItem_mkItem dg nB gB (aB ++ [JSVal.vstr nA]) [] hgB]]
    have hnv1 : ∀ i ∈ P.map (applySchemaItem (cfgId dg)) ++
        schemedItem nA gA [] [JSVal.vstr nB] ::
        (Q.map (applySchemaItem (cfgId dg)) ++ schemedItem nB gB aB [] ::
          R.map (applySchemaItem (cfgId dg))),
        truthy (getField i "virtual") = false := by
      intro i hi
      simp only [List.mem_append, List.mem_cons] at hi
      rcases hi with hP | rfl | hQ | rfl | hR
      · rcases List.mem_map.mp hP with ⟨x, hx, rfl⟩
        exact (hschCtx x (hmemP x hx)).2.1
      · rfl
      · rcases List.mem_map.mp hQ with ⟨x, hx, rfl⟩
        exact (hschCtx x (hmemQ x hx)).2.1
      · rfl
      · rcases List.mem_map.mp hR with ⟨x, hx, rfl⟩
        exact (hschCtx x (hmemR x hx)).2.1
    have hnv2 : ∀ i ∈ P.map (applySchemaItem (cfgId dg)) ++
        schemedItem nA gA [] [] ::
        (Q.map (applySchemaItem (cfgId dg)) ++
          schemedItem nB gB (aB ++ [JSVal.vstr nA]) [] ::
          R.map (applySchemaItem (cfgId dg))),
        truthy (getField i "virtual") = false := by
      intro i hi
      simp only [List.mem_append, List.mem_cons] at hi
      rcases hi with hP | rfl | hQ | rfl | hR
      · rcases List.mem_map.mp hP with ⟨x, hx, rfl⟩
        exact (hschCtx x (hmemP x hx)).2.1
      · rfl
      · rcases List.mem_map.mp hQ with ⟨x, hx, rfl⟩
        exact (hschCtx x (hmemQ x hx)).2.1
      · rfl
      · rcases List.mem_map.mp hR with ⟨x, hx, rfl⟩
        exact (hschCtx x (hmemR x hx)).2.1
    have hnd1 : ∀ i ∈ P.map (applySchemaItem (cfgId dg)) ++
        schemedItem nA gA [] [JSVal.vstr nB] ::
        (Q.map (applySchemaItem (cfgId dg)) ++ schemedItem nB gB aB [] ::
          R.map (applySchemaItem (cfgId dg))),
        truthy (getField i "disable") = false := by
      intro i hi
      simp only [List.mem_append, List.mem_cons] at hi
      rcases hi with hP | rfl | hQ | rfl | hR
      · rcases List.mem_map.mp hP with ⟨x, hx, rfl⟩
        exact (hschCtx x (hmemP x hx)).2.2
      · rfl
      · rcases List.mem_map.mp hQ with ⟨x, hx, rfl⟩
        exact (hschCtx x (hmemQ x hx)).2.2
      · rfl
      · rcases List.mem_map.mp hR with ⟨x, hx, rfl⟩
        exact (hschCtx x (hmemR x hx)).2.2
    have hnd2 : ∀ i ∈ P.map (applySchemaItem (cfgId dg)) ++
        schemedItem nA gA [] [] ::
        (Q.map (applySchemaItem (cfgId dg)) ++
          schemedItem nB gB (aB ++ [JSVal.vstr nA]) [] ::
          R.map (applySchemaItem (cfgId dg))),
        truthy (getField i "disable") = false := by
      intro i hi
      simp only [List.mem_append, List.mem_cons] at hi
      rcases hi with hP | rfl | hQ | rfl | hR
      · rcases List.mem_map.mp hP with ⟨x, hx, rfl⟩
        exact (hschCtx x (hmemP x hx)).2.2
      · rfl
      · rcases List.mem_map.mp hQ with ⟨x, hx, rfl⟩
        exact (hschCtx x (hmemQ x hx)).2.2
      · rfl
      · rcases List.mem_map.mp hR with ⟨x, hx, rfl⟩
        exact (hschCtx x (hmemR x hx)).2.2
    rw [mergeVirtuals_no_virtual _ hnv1, mergeVirtuals_no_virtual _ hnv2,
      excludeDisabled_id _ hnd1, excludeDisabled_id _ hnd2]
    have hseg := c9_tables_seg nA nB gA gB aB
      (P.map (applySchemaItem (cfgId dg))) (Q.map (applySchemaItem (cfgId dg)))
      (R.map (applySchemaItem (cfgId dg))) hne
      (by intro x hx
          rcases List.mem_append.mp hx with h1 | h2
          · rcases List.mem_map.mp h1 with ⟨x0, hx0, rfl⟩
            rcases (hschCtx x0 (hmemP x0 hx0)).1 with ⟨s, hNs, hsnB⟩
            rw [hNs.nameStr]
            exact hsnB
          · rcases List.mem_map.mp h2 with ⟨x0, hx0, rfl⟩
            rcases (hschCtx x0 (hmemQ x0 hx0)).1 with ⟨s, hNs, hsnB⟩
            rw [hNs.nameStr]
            exact hsnB)
      (by intro x hx t ht
          rcases List.mem_map.mp hx with ⟨x0, hx0, rfl⟩
          exact hbfP x0 hx0 t ht)
    refine sortItems_names_congr (cfgId dg) fuel _ _ ?_ ?_ hseg.1 hseg.2
    · simp only [List.length_append, List.length_cons]
    · intro k hk
      rcases getD_seg2 JSVal.vundef (schemedItem nA gA [] [JSVal.vstr nB])
        (schemedItem nA gA [] []) (schemedItem nB gB aB [])
        (schemedItem nB gB (aB ++ [JSVal.vstr nA]) [])
        (P.map (applySchemaItem (cfgId dg))) (Q.map (applySchemaItem (cfgId dg)))
        (R.map (applySchemaItem (cfgId dg))) k with heq | ⟨e1, e2⟩ | ⟨e1, e2⟩
      · exact ⟨by rw [heq], by rw [heq]⟩
      · rw [e1, e2]
        exact ⟨rfl, rfl⟩
      · rw [e1, e2]
        exact ⟨rfl, rfl⟩

/-- Witness for C9 at names a, b with default groups, a further after
constraint on b, and a three item context: p before the pair (carrying
its own before constraint on r), m between the pair and r after it. -/
theorem c9_before_after_equivalence_witness :
    (runList 10 (cfgId 500)
      ([obj [("name", .vstr "p"), ("before", arr [.vstr "r"])]] ++
        [mkItem "a" (.vnum 500) [] [JSVal.vstr "b"]] ++
        [obj [("name", .vstr "m")]] ++
        [mkItem "b" (.vnum 500) [.vstr "m"] []] ++
        [obj [("name", .vstr "r")]])).map
      (Except.map (List.map (fun o => getField o "name"))) =
    (runList 10 (cfgId 500)
      ([obj [("name", .vstr "p"), ("before", arr [.vstr "r"])]] ++
        [mkItem "a" (.vnum 500) [] []] ++
        [obj [("name", .vstr "m")]] ++
        [mkItem "b" (.vnum 500) ([.vstr "m"] ++ [JSVal.vstr "a"]) []] ++
        [obj [("name", .vstr "r")]])).map
      (Except.map (List.map (fun o => getField o "name"))) := by
  refine c9_before_after_equivalence 500 10 "a" "b" (.vnum 500) (.vnum 500)
    [.vstr "m"]
    [obj [("name", .vstr "p"), ("before", arr [.vstr "r"])]]
    [obj [("name", .vstr "m")]]
    [obj [("name", .vstr "r")]]
    (by decide) (by decide) (by decide) ?_ ?_
  · intro x hx
    simp only [List.mem_append, List.mem_singleton] at hx
    rcases hx with (rfl | rfl) | rfl
    · exact ⟨_, "p", rfl, by decide, by decide, by decide, by decide⟩
    · exact ⟨_, "m", rfl, by decide, by decide, by decide, by decide⟩
    · exact ⟨_, "r", rfl, by decide, by decide, by decide, by decide⟩
  · intro x hx
    rcases List.mem_singleton.mp hx with rfl
    exact ⟨_, rfl,
      Or.inr ⟨JSList.cons (.vstr "r") .nil, by decide, by decide⟩⟩


/-! ## C7: copying and reference sharing

Reference identity is invisible in the value model, so the merge of
src/utils/merge/lib/merge.js is re-embedded on an explicit heap: cells are
arrays or records of primitive values and addresses, the heap is the
allocation-ordered cell list, and mutation is explicit heap update. -/

/-- A primitive (non reference) JavaScript value. -/
inductive HScalar where
  | hundef : HScalar
  | hnull : HScalar
  | hbool : Bool → HScalar
  | hnum : Int → HScalar
  | hstr : String → HScalar
deriving DecidableEq, Repr

/-- A value slot: a primitive or the address of a heap cell. -/
inductive HVal where
  | prim : HScalar → HVal
  | ref : Nat → HVal
deriving DecidableEq, Repr

/-- A heap cell: an array or a record. -/
inductive HCell where
  | arrC : List HVal → HCell
  | objC : List (String × HVal) → HCell
deriving DecidableEq, Repr

abbrev Heap := List HCell

/-- Property read on a record, first occurrence. -/
def hlookup : List (String × HVal) → String → Option HVal
  | [], _ => none
  | (k, v) :: rest, key => if k = key then some v else hlookup rest key

/-- Property write: update in place or append, JavaScript insertion
order. -/
def hset : List (String × HVal) → String → HVal → List (String × HVal)
  | [], key, v => [(key, v)]
  | (k, w) :: rest, key, v =>
      if k = key then (k, v) :: rest else (k, w) :: hset rest key v

/-- _getType on the heap: plain record, array, or other. -/
def hGetType (h : Heap) : HVal → MergeType
  | .prim _ => .other
  | .ref a =>
      match h.get? a with
      | some (.objC _) => .object
      | some (.arrC _) => .array
      | none => .other

/-- A missing property and a stored undefined both read as undefined. -/
def hUndef (v : Option HVal) : Bool :=
  match v with
  | none => true
  | some (.prim .hundef) => true
  | _ => false

/-- The elements an Array.prototype.concat argument contributes: an array
is spread one level (its element slots copied, references included),
anything else is appended as a single slot. -/
def hElems (h : Heap) (v : HVal) : List HVal :=
  match v with
  | .ref a =>
      match h.get? a with
      | some (.arrC es) => es
      | _ => [v]
  | _ => [v]

/-- des[prop] = v: in place update of a record cell. -/
def hWriteProp (h : Heap) (a : Nat) (k : String) (v : HVal) : Heap :=
  match h.get? a with
  | some (.objC fs) => h.set a (.objC (hset fs k v))
  | _ => h

/-- des[prop]. -/
def hReadProp (h : Heap) (a : Nat) (k : String) : Option HVal :=
  match h.get? a with
  | some (.objC fs) => hlookup fs k
  | _ => none

/-- _merge(des, src) of merge.js on the heap, fuel bounded (the source can
recurse unboundedly on cyclic records): walk the source record fields in
order; an array valued destination concatenates into a FRESH array; an
array valued source over a present destination wraps and concatenates into
a fresh array; record into record merges in place recursively; a record
source over an absent destination is deep copied into a fresh record; any
other source value, ADDRESSES INCLUDED, is stored as is - an array or non
plain value of the source is reference shared when the destination slot is
undefined. -/
def hmerge (des : Nat) : Nat → Heap → Nat → Option Heap
  | 0, _, _ => none
  | fuel + 1, h0, src =>
      match h0.get? src with
      | some (.objC sfields) =>
          sfields.foldl
            (fun acc p =>
              match acc with
              | none => none
              | some h =>
                  let prop := p.1
                  let srcVal := p.2
                  let desVal := hReadProp h des prop
                  let st := hGetType h srcVal
                  let dt := hGetType h (desVal.getD (.prim .hundef))
                  if dt = .array ∧ srcVal ≠ .prim .hundef then
                    match (desVal.getD (.prim .hundef)) with
                    | .ref da =>
                        match h.get? da with
                        | some (.arrC des2) =>
                            let h2 := h ++ [.arrC (des2 ++ hElems h srcVal)]
                            some (hWriteProp h2 des prop (.ref h.length))
                        | _ => none
                    | _ => none
                  else if st = .array ∧ hUndef desVal = false then
                    let h2 := h ++ [.arrC ((desVal.getD (.prim .hundef)) :: hElems h srcVal)]
                    some (hWriteProp h2 des prop (.ref h.length))
                  else if st = .object ∧ dt = .object then
                    match (desVal.getD (.prim .hundef)), srcVal with
                    | .ref da, .ref sa =>
                        match hmerge da fuel h sa with
                        | none => none
                        | some h2 => some (hWriteProp h2 des prop (.ref da))
                    | _, _ => none
                  else if st = .object then
                    match srcVal with
                    | .ref sa =>
                        match hmerge h.length fuel (h ++ [.objC []]) sa with
                        | none => none
                        | some h2 => some (hWriteProp h2 des prop (.ref h.length))
                    | _ => none
                  else
                    if srcVal = .prim .hundef then some h
                    else some (hWriteProp h des prop srcVal))
            (some h0)
      | _ => some h0

/-- _applySchema on one non virtual item under the trivial schema, on the
heap: allocate the base record {after: [], before: []} with fresh arrays,
then merge the item into it, returning the address of the new record. -/
def happlySchemaItem (fuel : Nat) (h : Heap) (item : Nat) : Option (Nat × Heap) :=
  let h1 := h ++ [.arrC [], .arrC [],
    .objC [("after", .ref h.length), ("before", .ref (h.length + 1))]]
  (hmerge (h.length + 2) fuel h1 item).map (fun h2 => (h.length + 2, h2))



/-- Reading a set address. -/
theorem heap_get?_set_self (l : Heap) (i : Nat) (v : HCell) (h : i < l.length) :
    (l.set i v).get? i = some v := by
  induction l generalizing i with
  | nil => simp at h
  | cons x xs ih =>
      cases i with
      | zero => rfl
      | succ i2 =>
          rw [List.set_cons_succ]
          exact ih i2 (by simpa using h)

/-- Setting one address leaves the others. -/
theorem heap_get?_set_ne (l : Heap) (i j : Nat) (v : HCell) (h : i ≠ j) :
    (l.set i v).get? j = l.get? j := by
  induction l generalizing i j with
  | nil => rfl
  | cons x xs ih =>
      cases i with
      | zero =>
          cases j with
          | zero => exact absurd rfl h
          | succ j2 => rfl
      | succ i2 =>
          cases j with
          | zero => rfl
          | succ j2 =>
              rw [List.set_cons_succ]
              exact ih i2 j2 (fun hc => h (by rw [hc]))

/-- Reading a written property. -/
theorem hlookup_hset_self (fs : List (String × HVal)) (k : String) (v : HVal) :
    hlookup (hset fs k v) k = some v := by
  induction fs with
  | nil => rw [hset, hlookup, if_pos rfl]
  | cons p rest ih =>
      by_cases hk : p.1 = k
      · rw [show hset (p :: rest) k v = (p.1, v) :: rest from by
          rw [hset]
          rw [if_pos hk]]
        rw [hlookup, if_pos hk]
      · rw [show hset (p :: rest) k v = (p.1, p.2) :: hset rest k v from by
          rw [hset]
          rw [if_neg hk]]
        rw [hlookup, if_neg hk]
        exact ih

/-- The record _applySchema returns is freshly allocated: its address is
past every address of the input heap, so it is a new object distinct from
every input record and array. -/
theorem happlySchemaItem_fresh (fuel : Nat) (h : Heap) (item : Nat) (r : Nat × Heap)
    (hr : happlySchemaItem fuel h item = some r) : r.1 = h.length + 2 := by
  rw [happlySchemaItem] at hr
  rcases Option.map_eq_some'.mp hr with ⟨h2, _, hpair⟩
  rw [← hpair]



/-- The sharing mechanism, in general: merging a source record whose field
holds an array into a fresh record without that field stores the SAME
array address (the OTHER branch of _merge: nv = srcVal), and the array
cell itself is untouched. -/
theorem hmerge_shares_array (fuel : Nat) (h : Heap) (des src a : Nat) (k0 : String)
    (es : List HVal)
    (hsrc : h.get? src = some (.objC [(k0, .ref a)]))
    (ha : h.get? a = some (.arrC es))
    (hdes : h.get? des = some (.objC []))
    (hne : a ≠ des) :
    ∃ h2, hmerge des (fuel + 1) h src = some h2 ∧
      hReadProp h2 des k0 = some (.ref a) ∧ h2.get? a = some (.arrC es) := by
  have hdlt : des < h.length := (List.getElem?_eq_some_iff.mp (by
    rw [← List.get?_eq_getElem?]; exact hdes)).1
  have hdv : hReadProp h des k0 = none := by
    rw [hReadProp, hdes]
    rfl
  have hst : hGetType h (.ref a) = .array := by
    rw [hGetType, ha]
  refine ⟨hWriteProp h des k0 (.ref a), ?_, ?_, ?_⟩
  · rw [hmerge, hsrc]
    dsimp only
    rw [List.foldl_cons, List.foldl_nil]
    dsimp only
    rw [hdv, hst]
    simp [hGetType, hUndef]
  · rw [hWriteProp, hdes, hReadProp, heap_get?_set_self h des _ hdlt]
    rw [show hset ([] : List (String × HVal)) k0 (.ref a) = [(k0, .ref a)] from rfl]
    simp [hlookup]
  · rw [hWriteProp, hdes, heap_get?_set_ne h des a _ (fun hc => hne hc.symm)]
    exact ha

/-- The contrast: a plain record valued field over an absent destination
slot is deep copied into a freshly allocated record, not shared. -/
theorem hmerge_copies_object (fuel : Nat) (h : Heap) (des src a : Nat) (k0 : String)
    (hsrc : h.get? src = some (.objC [(k0, .ref a)]))
    (ha : h.get? a = some (.objC []))
    (hdes : h.get? des = some (.objC [])) :
    ∃ h2, hmerge des (fuel + 2) h src = some h2 ∧
      hReadProp h2 des k0 = some (.ref h.length) ∧ h.length ≠ a := by
  have hdlt : des < h.length := (List.getElem?_eq_some_iff.mp (by
    rw [← List.get?_eq_getElem?]; exact hdes)).1
  have halt : a < h.length := (List.getElem?_eq_some_iff.mp (by
    rw [← List.get?_eq_getElem?]; exact ha)).1
  have hdv : hReadProp h des k0 = none := by
    rw [hReadProp, hdes]
    rfl
  have hst : hGetType h (.ref a) = .object := by
    rw [hGetType, ha]
  have hinner : hmerge h.length (fuel + 1) (h ++ [.objC []]) a = some (h ++ [.objC []]) := by
    rw [hmerge]
    rw [show (h ++ [HCell.objC []]).get? a = some (.objC []) from by
      rw [List.get?_eq_getElem?, List.getElem?_append_left halt,
        ← List.get?_eq_getElem?]
      exact ha]
    dsimp only
    rw [List.foldl_nil]
  have hdes2 : (h ++ [HCell.objC []]).get? des = some (.objC []) := by
    rw [List.get?_eq_getElem?, List.getElem?_append_left hdlt, ← List.get?_eq_getElem?]
    exact hdes
  refine ⟨hWriteProp (h ++ [.objC []]) des k0 (.ref h.length), ?_, ?_, ?_⟩
  · rw [hmerge, hsrc]
    dsimp only
    rw [List.foldl_cons, List.foldl_nil]
    dsimp only
    rw [hdv, hst]
    simp only [hGetType, Option.getD_none]
    rw [hinner]
    simp
  · rw [hWriteProp, hdes2, hReadProp]
    have hdlt2 : des < (h ++ [HCell.objC []]).length := by
      rw [List.length_append]
      omega
    rw [heap_get?_set_self _ des _ hdlt2]
    rw [show hset ([] : List (String × HVal)) k0 (.ref h.length) =
      [(k0, .ref h.length)] from rfl]
    simp [hlookup]
  · omega



/-- The input heap: an items record {name: x, tags: [1]} whose tags array
lives at address 0 and the record at address 1. -/
def c7heap0 : Heap :=
  [.arrC [.prim (.hnum 1)],
   .objC [("name", .prim (.hstr "x")), ("tags", .ref 0)]]

/-- The heap after the schema copy of that record. -/
def c7heapOut : Heap :=
  [.arrC [.prim (.hnum 1)],
   .objC [("name", .prim (.hstr "x")), ("tags", .ref 0)],
   .arrC [], .arrC [],
   .objC [("after", .ref 2), ("before", .ref 3),
     ("name", .prim (.hstr "x")), ("tags", .ref 0)]]

/-- The claim fails: the record copied by _applySchema (address 4, fresh)
holds the very same array address 0 at its tags field as the caller input
record at address 1 does - the returned record and the input record share
the tags array by reference, so mutating it through the returned item
alters the input.  (_applySchema is the only copying stage; every later
stage of run() pushes and maps these same object references through to the
returned array.)  The input cells themselves are unchanged by the copy. -/
theorem c7_claim_counterexample :
    happlySchemaItem 10 c7heap0 1 = some (4, c7heapOut) ∧
    hReadProp c7heapOut 4 "tags" = some (.ref 0) ∧
    hReadProp c7heapOut 1 "tags" = some (.ref 0) ∧
    c7heapOut.get? 0 = c7heap0.get? 0 ∧
    c7heapOut.get? 1 = c7heap0.get? 1 ∧
    (4 : Nat) ≠ 1 := by
  refine ⟨by decide, by decide, by decide, by decide, by decide, by decide⟩

/-- C7 amended: the records run() returns are freshly allocated objects,
distinct from every input object (first part), and plain record values are
deep copied into fresh cells (third part); but an array valued field of an
input record is stored by REFERENCE into the copy whenever the destination
slot is undefined, i.e. for every field other than after and before
(second part) - the returned records are fresh, their array valued custom
fields are not independent copies. -/
theorem c7_copy_sharing (fuel : Nat) (h : Heap) (des src a : Nat) (k0 : String)
    (es : List HVal)
    (hsrc : h.get? src = some (.objC [(k0, .ref a)]))
    (ha : h.get? a = some (.arrC es))
    (hdes : h.get? des = some (.objC []))
    (hne : a ≠ des) :
    (∀ (fuel2 : Nat) (h2 : Heap) (item : Nat) (r : Nat × Heap),
      happlySchemaItem fuel2 h2 item = some r → r.1 = h2.length + 2) ∧
    (∃ h2, hmerge des (fuel + 1) h src = some h2 ∧
      hReadProp h2 des k0 = some (.ref a) ∧ h2.get? a = some (.arrC es)) ∧
    (∀ (h3 : Heap) (des3 src3 a3 : Nat) (k3 : String) (f3 : Nat),
      h3.get? src3 = some (.objC [(k3, .ref a3)]) →
      h3.get? a3 = some (.objC []) →
      h3.get? des3 = some (.objC []) →
      ∃ h4, hmerge des3 (f3 + 2) h3 src3 = some h4 ∧
        hReadProp h4 des3 k3 = some (.ref h3.length) ∧ h3.length ≠ a3) :=
  ⟨fun f2 h2 it r hr => happlySchemaItem_fresh f2 h2 it r hr,
   hmerge_shares_array fuel h des src a k0 es hsrc ha hdes hne,
   fun h3 d3 s3 a3 k3 f3 hs3 ha3 hd3 =>
     hmerge_copies_object f3 h3 d3 s3 a3 k3 hs3 ha3 hd3⟩

/-- Witness for C7 at the concrete three cell heap: the record at address
1 with its tags array at address 0 merged into the fresh record at
address 2. -/
theorem c7_copy_sharing_witness :
    ((∀ (fuel2 : Nat) (h2 : Heap) (item : Nat) (r : Nat × Heap),
      happlySchemaItem fuel2 h2 item = some r → r.1 = h2.length + 2) ∧
    (∃ h2, hmerge 2 9 [HCell.arrC [HVal.prim (HScalar.hnum 1)],
        HCell.objC [("tags", HVal.ref 0)], HCell.objC []] 1 = some h2 ∧
      hReadProp h2 2 "tags" = some (.ref 0) ∧
      h2.get? 0 = some (.arrC [HVal.prim (HScalar.hnum 1)])) ∧
    (∀ (h3 : Heap) (des3 src3 a3 : Nat) (k3 : String) (f3 : Nat),
      h3.get? src3 = some (.objC [(k3, .ref a3)]) →
      h3.get? a3 = some (.objC []) →
      h3.get? des3 = some (.objC []) →
      ∃ h4, hmerge des3 (f3 + 2) h3 src3 = some h4 ∧
        hReadProp h4 des3 k3 = some (.ref h3.length) ∧ h3.length ≠ a3)) :=
  c7_copy_sharing 8
    [HCell.arrC [HVal.prim (HScalar.hnum 1)],
     HCell.objC [("tags", HVal.ref 0)], HCell.objC []] 2 1 0 "tags"
    [HVal.prim (HScalar.hnum 1)]
    (by decide) (by decide) (by decide) (by decide)

end PluginSort
